import Mathlib

/-!
# Filter compiler of `pkg/listing`

A shallow embedding of `pkg/listing` (`listing.go`, `operator.go`,
`parser.go` and the lexer and grammar of `grammar.go`) and theorems about the
conditions `Parse` returns and the predicate fragments `ApplyFilters` hands to
the query builder.

Conventions of the embedding:

* a Go `string` is a Lean `String`; every byte the code inspects (the
  backslash, `%`, `.`) is ASCII, so on UTF-8 text the byte-wise library
  routines and the character-wise definitions below agree;
* a Go `[]interface{}` of filter values is a `List Value`;
* the `*orm.Query` sink is the list of `Where` calls it has received;
* a Go panic is an explicit outcome.
-/

namespace Listing

/-! ## Library routines the package calls -/

/-- Whether `p` is a prefix of `s` (`strings.HasPrefix`). -/
def startsWith : List Char → List Char → Bool
  | [], _ => true
  | _ :: _, [] => false
  | a :: p, b :: s => a == b && startsWith p s

/-- The first `old, new` pair, in argument order, whose `old` is a prefix of `s`. -/
def lookupPair : List (List Char × List Char) → List Char → Option (List Char × List Char)
  | [], _ => none
  | (old, new) :: rest, s => if startsWith old s then some (old, new) else lookupPair rest s

/-- A `strings.Replacer`: the `old, new` pairs in the order given to `strings.NewReplacer`. -/
structure Replacer where
  pairs : List (String × String)

/-- The constructor `strings.NewReplacer(oldnew...)`. -/
def NewReplacer (oldnew : List (String × String)) : Replacer := ⟨oldnew⟩

/-- The scan of `(*strings.Replacer).Replace`: replacements are performed in
the order they appear in the target string, without overlapping matches, and
the old strings are compared in argument order. `skip` is the number of
characters of the match just replaced that are still to be passed over. An
empty old string never matches here (no replacer of this package has one). -/
def replaceScan (pairs : List (List Char × List Char)) : Nat → List Char → List Char
  | _, [] => []
  | skip + 1, _ :: s => replaceScan pairs skip s
  | 0, c :: s =>
    match lookupPair pairs (c :: s) with
    | some (_ :: old, new) => new ++ replaceScan pairs old.length s
    | _ => c :: replaceScan pairs 0 s

/-- The method `(*strings.Replacer).Replace`. -/
def Replacer.Replace (r : Replacer) (s : String) : String :=
  ⟨replaceScan (r.pairs.map fun p => (p.1.data, p.2.data)) 0 s.data⟩

/-- The scan of `strings.Split` for a one-character separator: the pieces of
`s` between the occurrences of `sep`; there is always at least one piece. -/
def splitChars (sep : Char) : List Char → List (List Char)
  | [] => [[]]
  | c :: s =>
    if c = sep then [] :: splitChars sep s
    else
      match splitChars sep s with
      | [] => [[c]]
      | piece :: rest => (c :: piece) :: rest

/-- The call `strings.Split(s, sep)` for a one-character separator `sep`. -/
def Split (s : String) (sep : Char) : List String :=
  (splitChars sep s.data).map String.mk

/-! ## `listing.go`: escaping -/

/-- The replacer `likeEscaper` of `listing.go`. -/
def likeEscaper : Replacer := NewReplacer [("\\", "\\\\"), ("%", "\\%"), (".", "\\.")]

/-- The function `escapeLike` of `listing.go`. -/
def escapeLike (expr : String) : String := likeEscaper.Replace expr

/-! ## `operator.go` -/

/-- The type `Operator` of `operator.go`: an unsigned integer; the zero value is invalid. -/
abbrev Operator := Nat

abbrev OpEqual : Operator := 1
abbrev OpNotEqual : Operator := 2
abbrev OpLess : Operator := 3
abbrev OpGreater : Operator := 4
abbrev OpLessOrEqual : Operator := 5
abbrev OpGreaterOrEqual : Operator := 6
abbrev OpContains : Operator := 7
abbrev OpIn : Operator := 8
abbrev OpRange : Operator := 9

/-- The table `operatorMap` of `operator.go`, its entries in the order of the source. -/
def operatorMap : List (String × Operator) :=
  [("=", OpEqual), ("!=", OpNotEqual), ("<", OpLess), (">", OpGreater),
   ("<=", OpLessOrEqual), (">=", OpGreaterOrEqual),
   (":", OpContains), ("[]", OpRange), ("in", OpIn)]

/-- The method `Operator.String`: the key of the entry of `operatorMap` whose value is `o`,
`"unknown"` when there is none. -/
def Operator.String (o : Operator) : String :=
  match operatorMap.find? (fun kv => kv.2 == o) with
  | some kv => kv.1
  | none => "unknown"

/-- The function `OperatorFromString`: the operator and whether `str` was recognised. -/
def OperatorFromString (str : String) : Operator × Bool :=
  match operatorMap.lookup str with
  | some op => (op, true)
  | none => (0, false)

/-! ## `parser.go`: conditions -/

/-- An element of a `[]interface{}` of filter values. The parser produces
`int64`, `float64` (kept as its bit pattern), `string` and `bool` values; a
hook may store a value of any other type. -/
inductive Value where
  | int (i : Int)
  | float (bits : Nat)
  | str (s : String)
  | bool (b : Bool)
  | other (descr : String)
  deriving DecidableEq, Repr

/-- The type `Condition` of `parser.go`. -/
structure Condition where
  Field : String
  Not : Bool
  Op : Operator
  Values : List Value
  deriving DecidableEq, Repr

/-- The type `Filter` of `parser.go`. -/
structure Filter where
  Conditions : List Condition
  deriving DecidableEq, Repr

/-! ## `listing.go`: hooks -/

/-- A Go `error` value as this package sees it: the sentinel `ErrNoop`
(compared by identity) or any other error, with its message. -/
inductive Error where
  | ErrNoop
  | errorf (msg : String)
  deriving DecidableEq, Repr

/-- The text of the `Error()` method; `ErrNoop` is `errors.New("noop")`. -/
def Error.text : Error → String
  | .ErrNoop => "noop"
  | .errorf msg => msg

/-- The type `Mapper`: maps a value to another value, or fails. -/
abbrev Mapper := Value → Except Error Value

/-- The type `FilterHook`: receives the condition and returns it as the hook left it,
with the error returned (`none` for `nil`). -/
abbrev FilterHook := Condition → Condition × Option Error

/-- The type `FilterConfig`: `Hooks` maps field names to hooks. -/
structure FilterConfig where
  Hooks : String → Option FilterHook

/-- The loop of `MapValues` from index `i` on: the slice as the loop leaves it
and the error returned. -/
def mapValuesFrom (fn : Mapper) : Nat → List Value → List Value × Option Error
  | _, [] => ([], none)
  | i, curr :: rest =>
    match fn curr with
    | .error err => (curr :: rest, some (.errorf ("value #" ++ Nat.repr (i + 1) ++ ": " ++ err.text)))
    | .ok newValue =>
      let r := mapValuesFrom fn (i + 1) rest
      (newValue :: r.1, r.2)

/-- The function `MapValues` of `listing.go`. -/
def MapValues (values : List Value) (fn : Mapper) : List Value × Option Error :=
  mapValuesFrom fn 0 values

/-- A `Mapper` whose calls have effects: a call reads and changes a state of
type `σ` (the variables the Go closure captures) besides returning its
result. -/
abbrev MapperS (σ : Type) := Value → σ → Except Error Value × σ

/-- The loop of `MapValues` from index `i` on, for a mapper with effects: the
slice as the loop leaves it, the error returned, and the state as the calls
that were made leave it. -/
def mapValuesFromS {σ : Type} (fn : MapperS σ) :
    Nat → List Value → σ → (List Value × Option Error) × σ
  | _, [], s => (([], none), s)
  | i, curr :: rest, s =>
    match fn curr s with
    | (.error err, s1) =>
      ((curr :: rest, some (.errorf ("value #" ++ Nat.repr (i + 1) ++ ": " ++ err.text))), s1)
    | (.ok newValue, s1) =>
      let r := mapValuesFromS fn (i + 1) rest s1
      ((newValue :: r.1.1, r.1.2), r.2)

/-- The function `MapValues` of `listing.go`, for a mapper with effects. -/
def MapValuesS {σ : Type} (values : List Value) (fn : MapperS σ) (s : σ) :
    (List Value × Option Error) × σ :=
  mapValuesFromS fn 0 values s

/-- The function `RenameFieldAndMapValuesFilterHook` of `listing.go`. -/
def RenameFieldAndMapValuesFilterHook (fieldName : String) (valueFunc : Mapper) : FilterHook :=
  fun cond =>
    match MapValues cond.Values valueFunc with
    | (values, some err) => ({ cond with Values := values }, some err)
    | (values, none) => ({ cond with Values := values, Field := fieldName }, none)

/-! ## The persistence collaborator -/

/-- The enumeration `reflect.Kind`. -/
inductive Kind where
  | Invalid | Bool | Int | Int8 | Int16 | Int32 | Int64
  | Uint | Uint8 | Uint16 | Uint32 | Uint64 | Uintptr
  | Float32 | Float64 | Complex64 | Complex128
  | Array | Chan | Func | Interface | Map | Pointer | Slice | String | Struct
  | UnsafePointer
  deriving DecidableEq, Repr

/-- The `String()` method of `reflect.Kind`. -/
def kindName : Kind → String
  | .Invalid => "invalid" | .Bool => "bool" | .Int => "int" | .Int8 => "int8"
  | .Int16 => "int16" | .Int32 => "int32" | .Int64 => "int64"
  | .Uint => "uint" | .Uint8 => "uint8" | .Uint16 => "uint16" | .Uint32 => "uint32"
  | .Uint64 => "uint64" | .Uintptr => "uintptr"
  | .Float32 => "float32" | .Float64 => "float64"
  | .Complex64 => "complex64" | .Complex128 => "complex128"
  | .Array => "array" | .Chan => "chan" | .Func => "func" | .Interface => "interface"
  | .Map => "map" | .Pointer => "ptr" | .Slice => "slice" | .String => "string"
  | .Struct => "struct" | .UnsafePointer => "unsafe.Pointer"

/-- What the code reads of the `reflect.Type` of a model field: its kind and,
for a map, the kinds of its key and element types (`Key().Kind()`,
`Elem().Kind()`; not read for another kind). -/
structure FieldType where
  kind : Kind
  keyKind : Kind
  elemKind : Kind
  deriving DecidableEq, Repr

/-- What the code reads of an `orm.Field`: the Go type of the struct field and
the (quoted) column name. -/
structure PgField where
  Typ : FieldType
  Column : String
  deriving DecidableEq, Repr

/-- What the code reads of an `orm.Table`: the (quoted) alias and the map from
column names to fields. -/
structure Table where
  Alias : String
  FieldsMap : String → Option PgField

/-- Routines of other packages whose result the code only passes on:
`strcase.ToSnake` and the quoting of the `%q` verb of `fmt`. -/
structure Lib where
  ToSnake : String → String
  Quote : String → String

/-- A parameter bound by `query.Where`: a value, or the group `types.In(values)`. -/
inductive Param where
  | val (v : Value)
  | inGroup (vs : List Value)
  deriving DecidableEq, Repr

/-- The `*orm.Query` sink: its table and the `Where` calls received, in order. -/
structure Query where
  table : Table
  wheres : List (String × List Param)

/-- The call `query.Where(condition, params...)`. -/
def Query.Where (q : Query) (condition : String) (params : List Param) : Query :=
  { q with wheres := q.wheres ++ [(condition, params)] }

/-! ## `listing.go`: `ApplyFilters` -/

/-- The function `appendToNonEmpty` of `listing.go`: `elems` appended to `slice` if `slice`
is not empty, else `elems`. -/
def appendToNonEmpty (slice elems : List Param) : List Param :=
  if slice.length = 0 then elems else slice ++ elems

/-- How one iteration of the loop of `ApplyFilters` ends: `continue` with no
`Where` call, one call `query.Where(text, params...)`, `return err`, or a
run-time panic. -/
inductive Outcome where
  | skip
  | emit (text : String) (params : List Param)
  | fail (err : Error)
  | panic (msg : String)
  deriving DecidableEq, Repr

/-- Lines 82-90 of `listing.go`: the hook registered for the field of the
condition, if any, is run on it. The result is the condition as the hook left
it, or the way the iteration ends. -/
def hookStage (config : FilterConfig) (curr : Condition) : Except Outcome Condition :=
  match config.Hooks curr.Field with
  | some hook =>
    match hook curr with
    | (_, some err) =>
      if err = Error.ErrNoop then .error .skip
      else .error (.fail (.errorf ("hook: " ++ err.text)))
    | (curr, none) => .ok curr
  | none => .ok curr

/-- Lines 92-123 of `listing.go`: the column reference `field` and the
parameters bound so far, or the error returned. -/
def fieldStage (lib : Lib) (table : Table) (curr : Condition) :
    Except Outcome (String × List Param) :=
  let field := table.Alias ++ "."
  let params : List Param := []
  let s := Split curr.Field '.'
  if s.length > 1 then
    match table.FieldsMap (lib.ToSnake (s.getD 0 "")) with
    | none => .error (.fail (.errorf ("field: " ++ lib.Quote (s.getD 0 "") ++ ": not found in model")))
    | some pgField =>
      if pgField.Typ.kind ≠ Kind.Map then
        .error (.fail (.errorf ("field: " ++ lib.Quote (s.getD 0 "") ++ ": not a map")))
      else if pgField.Typ.keyKind ≠ Kind.String ∨ pgField.Typ.elemKind ≠ Kind.String then
        .error (.fail (.errorf ("field: " ++ lib.Quote (s.getD 0 "") ++ ": got map["
          ++ kindName pgField.Typ.keyKind ++ "]" ++ kindName pgField.Typ.elemKind
          ++ " want map[string]string")))
      else
        let params := params ++ [Param.val (.str (s.getD 1 ""))]
        .ok (field ++ pgField.Column ++ "->>?", params)
  else
    match table.FieldsMap (lib.ToSnake curr.Field) with
    | none => .error (.fail (.errorf ("field: " ++ lib.Quote curr.Field ++ ": not found in model")))
    | some pgField => .ok (field ++ pgField.Column, params)

/-- Lines 125-148 of `listing.go`: the `switch` on the operator. `not` is the
negation marker and `i` the index of the condition. -/
def opStage (not field : String) (params : List Param) (i : Nat) (curr : Condition) : Outcome :=
  if curr.Op = OpEqual ∨ curr.Op = OpNotEqual ∨ curr.Op = OpGreater ∨ curr.Op = OpGreaterOrEqual
      ∨ curr.Op = OpLess ∨ curr.Op = OpLessOrEqual then
    let op := if curr.Op = OpNotEqual then "<>" else Operator.String curr.Op
    let params := appendToNonEmpty params (curr.Values.map Param.val)
    .emit (not ++ field ++ " " ++ op ++ " ?") params
  else if curr.Op = OpIn then
    let params := appendToNonEmpty params [Param.inGroup curr.Values]
    .emit (field ++ not ++ " IN (?)") params
  else if curr.Op = OpRange then
    let params := appendToNonEmpty params (curr.Values.map Param.val)
    .emit (field ++ not ++ " BETWEEN ? AND ?") params
  else if curr.Op = OpContains then
    match curr.Values with
    | [] => .panic "index out of range"
    | .str v :: _ =>
      let params := appendToNonEmpty params [Param.val (.str ("%" ++ escapeLike v ++ "%"))]
      .emit (field ++ not ++ " LIKE ?") params
    | _ :: _ => .panic "interface conversion: not a string"
  else
    .fail (.errorf ("condition #" ++ Nat.repr (i + 1) ++ ": unknown operator"))

/-- The body of the loop of `ApplyFilters` (lines 77-148) for the condition
`curr` at index `i`. The negation marker is fixed before the hook runs. -/
def applyCondition (lib : Lib) (config : FilterConfig) (table : Table) (i : Nat)
    (curr : Condition) : Outcome :=
  let not := if curr.Not then " NOT " else ""
  match hookStage config curr with
  | .error out => out
  | .ok curr =>
    match fieldStage lib table curr with
    | .error out => out
    | .ok (field, params) => opStage not field params i curr

/-- What a call of `ApplyFilters` returns: `nil`, an error, or it panics. -/
inductive Ret where
  | nil
  | error (err : Error)
  | panic (msg : String)
  deriving DecidableEq, Repr

/-- The loop of `ApplyFilters` (lines 75-150) over the conditions that `Parse`
returned, from index `i` on: the sink as the call leaves it and what the call
returns. -/
def applyConditions (lib : Lib) (config : FilterConfig) (table : Table) :
    Nat → List Condition → Query → Query × Ret
  | _, [], query => (query, .nil)
  | i, curr :: rest, query =>
    match applyCondition lib config table i curr with
    | .skip => applyConditions lib config table (i + 1) rest query
    | .emit text params => applyConditions lib config table (i + 1) rest (query.Where text params)
    | .fail err => (query, .error err)
    | .panic msg => (query, .panic msg)

/-- The function `ApplyFilters` after `Parse` has returned `filters`. -/
def applyFilter (lib : Lib) (config : FilterConfig) (filters : Filter) (query : Query) :
    Query × Ret :=
  applyConditions lib config query.table 0 filters.Conditions query

/-! ## `grammar.go`: the syntax tree -/

/-- The struct `Value` of `grammar.go`, a literal: each field is a pointer, set
when the literal has that form. The `float64` is kept as its bit pattern. -/
structure GrammarValue where
  Int : Option Int
  Float : Option Nat
  String : Option String
  Boolean : Option Bool
  deriving DecidableEq, Repr

/-- The struct `Compare` of `grammar.go`. -/
structure Compare where
  Operator : String
  Value : GrammarValue
  deriving DecidableEq, Repr

/-- The struct `Between` of `grammar.go`. -/
structure Between where
  Start : GrammarValue
  End : GrammarValue
  deriving DecidableEq, Repr

/-- The struct `In` of `grammar.go`. -/
structure In where
  Values : List GrammarValue
  deriving DecidableEq, Repr

/-- The struct `ConditionGrammar` of `grammar.go`; the three shapes are pointers. -/
structure ConditionGrammar where
  Not : Bool
  Symbol : String
  Compare : Option Compare
  Between : Option Between
  In : Option In
  deriving DecidableEq, Repr

/-- The struct `Expression` of `grammar.go`. -/
structure Expression where
  And : List ConditionGrammar
  deriving DecidableEq, Repr

/-! ## `parser.go`: conversion -/

/-- What a Go function with the results `(T, error)` does: it returns a value,
returns an error, or panics. -/
inductive Res (α : Type) where
  | ok (a : α)
  | error (err : Error)
  | panic (msg : String)
  deriving DecidableEq, Repr

/-- The function `opFromCond` of `parser.go`. -/
def opFromCond (c : ConditionGrammar) : Res Operator :=
  match c.In with
  | some _ => .ok OpIn
  | none =>
    match c.Compare with
    | some cmp =>
      match OperatorFromString cmp.Operator with
      | (op, true) => .ok op
      | (_, false) => .panic ("invalid operator: " ++ cmp.Operator)
    | none =>
      match c.Between with
      | some _ => .ok OpRange
      | none => .panic "invalid ast condition"

/-- The function `appendValue` of `parser.go`: the condition as it leaves it
and the error returned (always `nil`). -/
def appendValue (f : Condition) (v : GrammarValue) : Condition × Option Error :=
  match v.Int with
  | some i => ({ f with Values := f.Values ++ [Value.int i] }, none)
  | none =>
    match v.String with
    | some s => ({ f with Values := f.Values ++ [Value.str s] }, none)
    | none =>
      match v.Float with
      | some x => ({ f with Values := f.Values ++ [Value.float x] }, none)
      | none => (f, none)

/-- The loop of `fillValue` over the values of an `In` node. -/
def appendValues : Condition → List GrammarValue → Condition × Option Error
  | f, [] => (f, none)
  | f, curr :: rest =>
    match appendValue f curr with
    | (f, some err) => (f, some err)
    | (f, none) => appendValues f rest

/-- The function `fillValue` of `parser.go`. -/
def fillValue (f : Condition) (c : ConditionGrammar) : Condition × Option Error :=
  match c.In with
  | some node => appendValues f node.Values
  | none =>
    match c.Compare with
    | some cmp =>
      match cmp.Value.Boolean with
      | some b => ({ f with Values := [Value.bool b] }, none)
      | none => appendValue f cmp.Value
    | none =>
      match c.Between with
      | some node =>
        match appendValue f node.Start with
        | (f, some err) => (f, some err)
        | (f, none) => appendValue f node.End
      | none => (f, none)

/-- The loop of `convert` over the nodes of the expression: the conditions, in
the order of the nodes. -/
def convertNodes : List ConditionGrammar → Res (List Condition)
  | [] => .ok []
  | curr :: rest =>
    match opFromCond curr with
    | .panic msg => .panic msg
    | .error err => .error err
    | .ok op =>
      match fillValue { Not := curr.Not, Field := curr.Symbol, Op := op, Values := [] } curr with
      | (_, some err) => .error err
      | (c, none) =>
        match convertNodes rest with
        | .ok conditions => .ok (c :: conditions)
        | .error err => .error err
        | .panic msg => .panic msg

/-- The function `convert` of `parser.go`. -/
def convert (expr : Expression) : Res Filter :=
  match convertNodes expr.And with
  | .ok conditions => .ok ⟨conditions⟩
  | .error err => .error err
  | .panic msg => .panic msg

/-- The parser that the `participle` library builds from the grammar of
`grammar.go`, as `ParseGrammar` presents it: the expression read from the
input, or the error returned. -/
abbrev GrammarParser := String → Except Error Expression

/-- The function `Parse` of `parser.go`; `ParseGrammar` is the parser built from
the grammar. -/
def Parse (ParseGrammar : GrammarParser) (input : String) : Res Filter :=
  match ParseGrammar input with
  | .error err => .error (.errorf ("parse: " ++ err.text))
  | .ok e =>
    match convert e with
    | .error err => .error (.errorf ("convert: " ++ err.text))
    | .panic msg => .panic msg
    | .ok filter => .ok filter

/-- The function `ApplyFilters` of `listing.go`; the table is the one of the
query. -/
def ApplyFilters (ParseGrammar : GrammarParser) (lib : Lib) (expr : String)
    (config : FilterConfig) (query : Query) : Query × Ret :=
  match Parse ParseGrammar expr with
  | .error err => (query, .error err)
  | .panic msg => (query, .panic msg)
  | .ok filters => applyFilter lib config filters query

/-! ## `grammar.go`: the lexer

The lexer of `grammar.go` is the regular expression given to `lexer.Regexp`:
at each position the first class, in the order written, that matches a
non-empty prefix makes the next token. Positions and the wording of the
errors of the library are not modelled. -/

/-- The classes of tokens, in the order of the regular expression. -/
inductive TokenType where
  | WS | Keyword | Identifier | Float | Int | String | Separator | Bracket | Operator
  deriving DecidableEq, Repr

/-- A token: its class and its text (unquoted for a `String`). -/
structure Token where
  Typ : TokenType
  Value : String
  deriving DecidableEq, Repr

/-- The class `\s`: tab, newline, form feed, carriage return, space. -/
def isSpace (c : Char) : Bool :=
  c = ' ' || c = '\t' || c = '\n' || c = '\x0c' || c = '\r'

/-- The class `\d`. -/
def isDigit (c : Char) : Bool := 48 ≤ c.toNat && c.toNat ≤ 57

/-- The class `[a-zA-Z_]`. -/
def isIdentStart (c : Char) : Bool :=
  (97 ≤ c.toNat && c.toNat ≤ 122) || (65 ≤ c.toNat && c.toNat ≤ 90) || c = '_'

/-- The class `[a-zA-Z0-9_]`, also the word characters of `\b`. -/
def isWord (c : Char) : Bool := isIdentStart c || isDigit c

/-- The length of the longest prefix whose characters satisfy `p`. -/
def spanLength (p : Char → Bool) : List Char → Nat
  | [] => 0
  | c :: s => if p c then spanLength p s + 1 else 0

/-- Whether `c` matches the character `l` of a grammar literal (an upper-case
ASCII letter or a character without case) without regard to case (simple
Unicode folding: the long s also matches `S`, the Kelvin sign `K`). -/
def foldMatches (l c : Char) : Bool :=
  c = l || (65 ≤ l.toNat && l.toNat ≤ 90 && c.toNat = l.toNat + 32)
    || (l = 'S' && c.toNat = 0x17F) || (l = 'K' && c.toNat = 0x212A)

/-- Whether `s` equals the grammar literal `word` without regard to case
(`strings.EqualFold` against a literal of upper-case ASCII letters and
characters without case). -/
def equalFold : List Char → List Char → Bool
  | [], [] => true
  | l :: word, c :: s => foldMatches l c && equalFold word s
  | _, _ => false

/-- Whether `s` starts with the upper-case ASCII word `word`, without regard
to case. -/
def startsFold : List Char → List Char → Bool
  | [], _ => true
  | _ :: _, [] => false
  | l :: word, c :: s => foldMatches l c && startsFold word s

/-- The length of the match of `(?i)\bword\b` at the start of `s`, for an
upper-case ASCII word: the word, not followed by a word character. -/
def matchWord (word : List Char) (s : List Char) : Option Nat :=
  if startsFold word s && !((s.drop word.length).head?.any isWord) then some word.length
  else none

/-- The class `Keyword`: `(?i)\b(?:NOT|IN|TRUE|FALSE)\b`. -/
def matchKeyword (s : List Char) : Option Nat :=
  (matchWord "NOT".data s).orElse fun _ =>
  (matchWord "IN".data s).orElse fun _ =>
  (matchWord "TRUE".data s).orElse fun _ => matchWord "FALSE".data s

/-- The length of the match of the optional exponent `([eE][-+]?\d+)?`. -/
def matchExponent : List Char → Nat
  | [] => 0
  | e :: s =>
    if e = 'e' || e = 'E' then
      match s with
      | [] => 0
      | c :: t =>
        if c = '-' || c = '+' then
          if spanLength isDigit t > 0 then 2 + spanLength isDigit t else 0
        else if spanLength isDigit s > 0 then 1 + spanLength isDigit s else 0
    else 0

/-- The length of the optional sign `[-+]?`. -/
def matchSign : List Char → Nat
  | c :: _ => if c = '-' || c = '+' then 1 else 0
  | [] => 0

/-- The class `Float`: `[-+]?\d*\.\d+([eE][-+]?\d+)?`. -/
def matchFloat (s : List Char) : Option Nat :=
  let afterSign := s.drop (matchSign s)
  let whole := spanLength isDigit afterSign
  match afterSign.drop whole with
  | '.' :: t =>
    let frac := spanLength isDigit t
    if frac > 0 then some (matchSign s + whole + 1 + frac + matchExponent (t.drop frac)) else none
  | _ => none

/-- The class `Int`: `[-+]?\d+([eE][-+]?\d+)?`. -/
def matchInt (s : List Char) : Option Nat :=
  let afterSign := s.drop (matchSign s)
  let whole := spanLength isDigit afterSign
  if whole > 0 then some (matchSign s + whole + matchExponent (afterSign.drop whole)) else none

/-- The length of the text up to and with the next `quote`, if there is one. -/
def matchClosing (quote : Char) : List Char → Option Nat
  | [] => none
  | c :: s => if c = quote then some 1 else (matchClosing quote s).map (· + 1)

/-- The class `String`: a single-quoted text without a single quote or a
double-quoted text without a double quote. -/
def matchString : List Char → Option Nat
  | c :: s => if c = '\'' || c = '"' then (matchClosing c s).map (· + 1) else none
  | [] => none

/-- The class `Operator`: `!=|<=|>=|[:=<>]`. -/
def matchOperator : List Char → Option Nat
  | '!' :: '=' :: _ => some 2
  | '<' :: '=' :: _ => some 2
  | '>' :: '=' :: _ => some 2
  | c :: _ => if c = ':' || c = '=' || c = '<' || c = '>' then some 1 else none
  | [] => none

/-- The class and the length of the token at the start of `s`: the first class
of the regular expression that matches there. -/
def lexOne (s : List Char) : Option (TokenType × Nat) :=
  if spanLength isSpace s > 0 then some (.WS, spanLength isSpace s)
  else match matchKeyword s with
  | some n => some (.Keyword, n)
  | none =>
    if s.head?.any isIdentStart then some (.Identifier, spanLength isWord s)
    else match matchFloat s with
    | some n => some (.Float, n)
    | none =>
      match matchInt s with
      | some n => some (.Int, n)
      | none =>
        match matchString s with
        | some n => some (.String, n)
        | none =>
          if s.head?.any (fun c => c = ',' || c = '.') then some (.Separator, 1)
          else if s.head?.any (fun c => c = '[' || c = ']' || c = '(' || c = ')') then
            some (.Bracket, 1)
          else (matchOperator s).map fun n => (.Operator, n)

/-- The value of a hexadecimal digit (`unhex` of `strconv`). -/
def unhex (c : Char) : Option Nat :=
  if 48 ≤ c.toNat && c.toNat ≤ 57 then some (c.toNat - 48)
  else if 97 ≤ c.toNat && c.toNat ≤ 102 then some (c.toNat - 97 + 10)
  else if 65 ≤ c.toNat && c.toNat ≤ 70 then some (c.toNat - 65 + 10)
  else none

/-- Whether `v` is a Unicode code point that is no surrogate (`utf8.ValidRune`). -/
def validRune (v : Nat) : Bool := v < 0xD800 || (0xDFFF < v && v ≤ 0x10FFFF)

/-- Where the scan of a quoted text stands: in plain text, after a backslash,
in the digits of a hexadecimal escape (`byte` for `\x`), or in the digits of
an octal escape. -/
inductive UnquoteState where
  | plain
  | escape
  | hex (left acc : Nat) (byte : Bool)
  | octal (left acc : Nat)

/-- The loop of `unquote` of `participle`: `strconv.UnquoteChar` applied along
the text between the quotes, `none` for a syntax error. -/
def unquoteFrom (quote : Char) : UnquoteState → List Char → Option (List Char)
  | .plain, [] => some []
  | _, [] => none
  | .plain, c :: s =>
    if c = quote then none
    else if c = '\\' then unquoteFrom quote .escape s
    else (unquoteFrom quote .plain s).map (c :: ·)
  | .escape, c :: s =>
    if c = 'a' then (unquoteFrom quote .plain s).map ('\x07' :: ·)
    else if c = 'b' then (unquoteFrom quote .plain s).map ('\x08' :: ·)
    else if c = 'f' then (unquoteFrom quote .plain s).map ('\x0c' :: ·)
    else if c = 'n' then (unquoteFrom quote .plain s).map ('\n' :: ·)
    else if c = 'r' then (unquoteFrom quote .plain s).map ('\r' :: ·)
    else if c = 't' then (unquoteFrom quote .plain s).map ('\t' :: ·)
    else if c = 'v' then (unquoteFrom quote .plain s).map ('\x0b' :: ·)
    else if c = 'x' then unquoteFrom quote (.hex 2 0 true) s
    else if c = 'u' then unquoteFrom quote (.hex 4 0 false) s
    else if c = 'U' then unquoteFrom quote (.hex 8 0 false) s
    else if 48 ≤ c.toNat && c.toNat ≤ 55 then unquoteFrom quote (.octal 2 (c.toNat - 48)) s
    else if c = '\\' then (unquoteFrom quote .plain s).map ('\\' :: ·)
    else if (c = '\'' || c = '"') && c = quote then (unquoteFrom quote .plain s).map (c :: ·)
    else none
  | .hex 0 _ _, _ :: _ => none
  | .hex (left + 1) acc byte, c :: s =>
    match unhex c with
    | none => none
    | some x =>
      if left = 0 then
        if byte || validRune (acc * 16 + x) then
          (unquoteFrom quote .plain s).map (Char.ofNat (acc * 16 + x) :: ·)
        else none
      else unquoteFrom quote (.hex left (acc * 16 + x) byte) s
  | .octal 0 _, _ :: _ => none
  | .octal (left + 1) acc, c :: s =>
    if 48 ≤ c.toNat && c.toNat ≤ 55 then
      if left = 0 then
        if acc * 8 + (c.toNat - 48) > 255 then none
        else (unquoteFrom quote .plain s).map (Char.ofNat (acc * 8 + (c.toNat - 48)) :: ·)
      else unquoteFrom quote (.octal left (acc * 8 + (c.toNat - 48))) s
    else none

/-- The option `participle.Unquote("String")` on the text of a `String` token:
the text between the quotes with its escapes resolved. -/
def unquote (text : List Char) : Option String :=
  match text with
  | quote :: rest => (unquoteFrom quote .plain rest.dropLast).map String.mk
  | [] => none

/-- The token of class `ty` with the text `text`; a `String` is unquoted. -/
def makeToken (ty : TokenType) (text : List Char) : Option Token :=
  if ty = .String then (unquote text).map fun v => ⟨ty, v⟩ else some ⟨ty, String.mk text⟩

/-- The tokens of the input, or the error of the lexer. `skip` is the number of
characters of the last token still to be passed over. -/
def lexFrom : Nat → List Char → Except Error (List Token)
  | _, [] => .ok []
  | skip + 1, _ :: s => lexFrom skip s
  | 0, c :: s =>
    match lexOne (c :: s) with
    | none => .error (.errorf "invalid token")
    | some (ty, n) =>
      match makeToken ty ((c :: s).take n) with
      | none => .error (.errorf "invalid quoted string")
      | some tok =>
        match lexFrom (n - 1) s with
        | .ok toks => .ok (tok :: toks)
        | .error err => .error err

/-- The lexer of `grammar.go` on an input. -/
def lex (input : String) : Except Error (List Token) := lexFrom 0 input.data

/-! ## `grammar.go`: the parser

The parser that `participle` builds from the struct tags of `grammar.go`, with
the options `Unquote("String")`, `CaseInsensitive("Keyword")` and
`UseLookahead(2)`. A sequence whose first term does not match does not match,
and fails when a later term does not match; an optional or repeated group and
an alternative that fail are given up, the tokens they read being read again,
unless they went more than the lookahead beyond their start, in which case the
failure is final. -/

/-- The conversions of `strconv` that `participle` applies to the text of an
`Int` and of a `Float` token, `none` when they fail; the `float64` is given as
its bit pattern. -/
structure Literals where
  ParseInt : String → Option Int
  ParseFloat : String → Option Nat

/-- The option `UseLookahead(2)`. -/
abbrev lookahead : Nat := 2

/-- The constant `MaxIterations` of `participle`: a repeated group that matches
this many times is an error. -/
abbrev MaxIterations : Nat := 1000000

/-- The result of a node of the grammar on the tokens ahead: no match (nothing
read), a value and the tokens left, or a failure with the tokens left where
the node gave up. -/
inductive PResult (α : Type) where
  | noMatch
  | ok (a : α) (rest : List Token)
  | err (rest : List Token)
  deriving Repr

/-- The test `ctx.Stop` of `participle`: the branch that started at `start` and
failed with `rest` left went more than the lookahead beyond its start. -/
def stop (start rest : List Token) : Bool := start.length - rest.length > lookahead

/-- A literal of the grammar against a token: the texts are compared, without
regard to case for a `Keyword` token. -/
def litMatch (literal : String) (t : Token) : Bool :=
  if t.Typ = .Keyword then equalFold literal.data t.Value.data else t.Value = literal

/-- The term `WS?`. -/
def optWS : List Token → List Token
  | [] => []
  | t :: rest => if t.Typ = .WS then rest else t :: rest

/-- A literal as a term that is not the first of its sequence: the tokens after
it, `none` when the next token is not the literal. -/
def expectLit (literal : String) : List Token → Option (List Token)
  | [] => none
  | t :: rest => if litMatch literal t then some rest else none

/-- The alternatives of a disjunction, already run on the tokens at `start`,
taken in order (`disjunction.Parse` of `participle`); `failed` tells whether an
earlier alternative failed. -/
def disjunction {α : Type} (start : List Token) : List (PResult α) → Bool → PResult α
  | [], failed => if failed then .err start else .noMatch
  | .ok a rest :: _, _ => .ok a rest
  | .err rest :: alts, _ => if stop start rest then .err rest else disjunction start alts true
  | .noMatch :: alts, failed => disjunction start alts failed

/-- The method `Boolean.Capture` of `grammar.go` on a token text: whether its
lower-case form is `true`. -/
def Boolean.Capture (value : String) : Bool :=
  value.data.map (fun c => if 65 ≤ c.toNat && c.toNat ≤ 90 then Char.ofNat (c.toNat + 32) else c)
    = "true".data

/-- The struct `Value` as a node:
`@Int | @Float | @String | @("TRUE" | "FALSE")`. -/
def parseValue (lit : Literals) : List Token → PResult GrammarValue
  | [] => .noMatch
  | t :: rest =>
    if t.Typ = .Int then
      match lit.ParseInt t.Value with
      | some i => .ok ⟨some i, none, none, none⟩ rest
      | none => .err rest
    else if t.Typ = .Float then
      match lit.ParseFloat t.Value with
      | some x => .ok ⟨none, some x, none, none⟩ rest
      | none => .err rest
    else if t.Typ = .String then .ok ⟨none, none, some t.Value, none⟩ rest
    else if litMatch "TRUE" t || litMatch "FALSE" t then
      .ok ⟨none, none, none, some (Boolean.Capture t.Value)⟩ rest
    else .noMatch

/-- The struct `Compare` as a node: `@Operator WS? @@ WS?`. -/
def parseCompare (lit : Literals) : List Token → PResult Compare
  | [] => .noMatch
  | t :: rest =>
    if t.Typ = .Operator then
      match parseValue lit (optWS rest) with
      | .ok v rest2 => .ok ⟨t.Value, v⟩ (optWS rest2)
      | .noMatch => .err (optWS rest)
      | .err rest2 => .err rest2
    else .noMatch

/-- The struct `Between` as a node: `@@ WS? "," WS? @@`. -/
def parseBetween (lit : Literals) (toks : List Token) : PResult Between :=
  match parseValue lit toks with
  | .noMatch => .noMatch
  | .err rest => .err rest
  | .ok start rest =>
    match expectLit "," (optWS rest) with
    | none => .err (optWS rest)
    | some rest2 =>
      match parseValue lit (optWS rest2) with
      | .ok stop rest3 => .ok ⟨start, stop⟩ rest3
      | .noMatch => .err (optWS rest2)
      | .err rest3 => .err rest3

/-- The group `( "," WS? @@ WS? )*` of `In`; `fuel` is the number of matches
still allowed. -/
def parseInMore (lit : Literals) : Nat → List Token → PResult (List GrammarValue)
  | 0, toks => .err toks
  | fuel + 1, toks =>
    match expectLit "," toks with
    | none => .ok [] toks
    | some rest =>
      match parseValue lit (optWS rest) with
      | .ok v rest2 =>
        match parseInMore lit fuel (optWS rest2) with
        | .ok vs rest3 => .ok (v :: vs) rest3
        | .err rest3 => .err rest3
        | .noMatch => .noMatch
      | .noMatch => if stop toks (optWS rest) then .err (optWS rest) else .ok [] toks
      | .err rest2 => if stop toks rest2 then .err rest2 else .ok [] toks

/-- The struct `In` as a node: `@@ WS? ( "," WS? @@ WS? )*`. -/
def parseIn (lit : Literals) (toks : List Token) : PResult In :=
  match parseValue lit toks with
  | .noMatch => .noMatch
  | .err rest => .err rest
  | .ok v rest =>
    match parseInMore lit MaxIterations (optWS rest) with
    | .ok vs rest2 => .ok ⟨v :: vs⟩ rest2
    | .err rest2 => .err rest2
    | .noMatch => .noMatch

/-- The group `@( "." Identifier )*` of `Symbol`: the text captured. -/
def parseSymbolMore : Nat → List Token → PResult String
  | 0, toks => .err toks
  | fuel + 1, toks =>
    match toks with
    | dot :: ident :: rest =>
      if litMatch "." dot && ident.Typ = .Identifier then
        match parseSymbolMore fuel rest with
        | .ok more rest2 => .ok (dot.Value ++ ident.Value ++ more) rest2
        | .err rest2 => .err rest2
        | .noMatch => .noMatch
      else .ok "" toks
    | _ => .ok "" toks

/-- The first alternative of `ConditionGrammar`: `WS? @@` for `Compare`. -/
def parseCompareAlt (lit : Literals) (toks : List Token) : PResult Compare :=
  match parseCompare lit (optWS toks) with
  | .noMatch => .err (optWS toks)
  | r => r

/-- The second alternative of `ConditionGrammar`:
`WS? ":" WS? "[" WS? @@ WS? "]"` for `Between`. -/
def parseBetweenAlt (lit : Literals) (toks : List Token) : PResult Between :=
  match expectLit ":" (optWS toks) with
  | none => .err (optWS toks)
  | some rest =>
    match expectLit "[" (optWS rest) with
    | none => .err (optWS rest)
    | some rest2 =>
      match parseBetween lit (optWS rest2) with
      | .noMatch => .err (optWS rest2)
      | .err rest3 => .err rest3
      | .ok node rest3 =>
        match expectLit "]" (optWS rest3) with
        | none => .err (optWS rest3)
        | some rest4 => .ok node rest4

/-- The third alternative of `ConditionGrammar`:
`WS "IN" WS? "(" WS? @@ ")"` for `In`. -/
def parseInAlt (lit : Literals) : List Token → PResult In
  | [] => .noMatch
  | ws :: rest =>
    if ws.Typ = .WS then
      match expectLit "IN" rest with
      | none => .err rest
      | some rest2 =>
        match expectLit "(" (optWS rest2) with
        | none => .err (optWS rest2)
        | some rest3 =>
          match parseIn lit (optWS rest3) with
          | .noMatch => .err (optWS rest3)
          | .err rest4 => .err rest4
          | .ok node rest4 =>
            match expectLit ")" rest4 with
            | none => .err rest4
            | some rest5 => .ok node rest5
    else .noMatch

/-- A result with its value mapped. -/
def PResult.map {α β : Type} (f : α → β) : PResult α → PResult β
  | .noMatch => .noMatch
  | .ok a rest => .ok (f a) rest
  | .err rest => .err rest

/-- The struct `ConditionGrammar` as a node: the optional `@( "NOT" WS )?`, the
field path `@Identifier @( "." Identifier )*`, and the disjunction of the three
shapes. -/
def parseCondition (lit : Literals) (toks : List Token) : PResult ConditionGrammar :=
  let negated : Bool :=
    match toks with
    | t :: ws :: _ => litMatch "NOT" t && ws.Typ = .WS
    | _ => false
  let toks1 := if negated then toks.drop 2 else toks
  match toks1 with
  | [] => .err toks1
  | ident :: rest =>
    if ident.Typ = .Identifier then
      match parseSymbolMore MaxIterations rest with
      | .noMatch => .err rest
      | .err rest2 => .err rest2
      | .ok more rest2 =>
        match disjunction rest2
            [(parseCompareAlt lit rest2).map fun c =>
                (⟨negated, ident.Value ++ more, some c, none, none⟩ : ConditionGrammar),
              (parseBetweenAlt lit rest2).map fun b =>
                (⟨negated, ident.Value ++ more, none, some b, none⟩ : ConditionGrammar),
              (parseInAlt lit rest2).map fun n =>
                (⟨negated, ident.Value ++ more, none, none, some n⟩ : ConditionGrammar)]
            false with
        | .noMatch => .err rest2
        | r => r
    else .err toks1

/-- The group `( WS? @@ )*` of `Expression`; `fuel` is the number of matches
still allowed. -/
def parseConditions (lit : Literals) : Nat → List Token → PResult (List ConditionGrammar)
  | 0, toks => .err toks
  | fuel + 1, toks =>
    match parseCondition lit (optWS toks) with
    | .ok c rest =>
      match parseConditions lit fuel rest with
      | .ok cs rest2 => .ok (c :: cs) rest2
      | .err rest2 => .err rest2
      | .noMatch => .noMatch
    | .noMatch => .ok [] toks
    | .err rest => if stop toks rest then .err rest else .ok [] toks

/-- The function `ParseGrammar` of `grammar.go`: the input is split into tokens
and the tokens are parsed as an `Expression` up to the end of the input. -/
def ParseGrammar (lit : Literals) : GrammarParser := fun input =>
  match lex input with
  | .error err => .error err
  | .ok toks =>
    match parseConditions lit MaxIterations toks with
    | .ok conditions [] => .ok ⟨conditions⟩
    | .ok _ (_ :: _) => .error (.errorf "unexpected token")
    | .err _ => .error (.errorf "unexpected token")
    | .noMatch => .error (.errorf "invalid syntax")

/-! ## A test model -/

/-- The table of the model `testUser` of `listing_test.go`. -/
def testTable : Table where
  Alias := "\"test_user\""
  FieldsMap := fun name =>
    if name = "create_time" then some ⟨⟨.Struct, .Invalid, .Invalid⟩, "\"create_time\""⟩
    else if name = "create_by" then some ⟨⟨.String, .Invalid, .Invalid⟩, "\"create_by\""⟩
    else if name = "first_name" then some ⟨⟨.String, .Invalid, .Invalid⟩, "\"first_name\""⟩
    else if name = "last_name" then some ⟨⟨.String, .Invalid, .Invalid⟩, "\"last_name\""⟩
    else if name = "is_admin" then some ⟨⟨.Bool, .Invalid, .Invalid⟩, "\"is_admin\""⟩
    else if name = "login_count" then some ⟨⟨.Uint, .Invalid, .Invalid⟩, "\"login_count\""⟩
    else if name = "props" then some ⟨⟨.Map, .String, .String⟩, "\"props\""⟩
    else none

/-- The library routines on the field names of the tests: `strcase.ToSnake` on
the names used there, and `%q` on text without characters to escape. -/
def testLib : Lib where
  ToSnake := fun s =>
    if s = "createTime" then "create_time" else if s = "createBy" then "create_by"
    else if s = "firstName" then "first_name" else if s = "lastName" then "last_name"
    else if s = "isAdmin" then "is_admin" else if s = "loginCount" then "login_count"
    else s
  Quote := fun s => "\"" ++ s ++ "\""

/-- The digits of a decimal numeral as a number, `none` without digits or with
another character. -/
def decimalNat : List Char → Nat → Option Nat
  | [], _ => none
  | [c], acc => if isDigit c then some (acc * 10 + (c.toNat - 48)) else none
  | c :: s, acc => if isDigit c then decimalNat s (acc * 10 + (c.toNat - 48)) else none

/-- The conversions on the literals of the tests: signed decimal integers; the
tests have no `Float` literal. -/
def testLiterals : Literals where
  ParseInt := fun text =>
    match text.data with
    | '-' :: s => (decimalNat s 0).map fun n => -(n : Int)
    | '+' :: s => (decimalNat s 0).map fun n => (n : Int)
    | s => (decimalNat s 0).map fun n => (n : Int)
  ParseFloat := fun _ => none

/-- A configuration without hooks. -/
def noHooks : FilterConfig where
  Hooks := fun _ => none

/-- The configuration of `Test_ApplyFilters`: one hook, on `firstName`, that
renames the field to `first_name`; its mapper returns the (string) value it is
given. -/
def testConfig : FilterConfig where
  Hooks := fun name =>
    if name = "firstName" then
      some (RenameFieldAndMapValuesFilterHook "first_name" fun value => .ok value)
    else none

/-- A query on `testTable` that has received no `Where` call. -/
def testQuery : Query := ⟨testTable, []⟩

/-! ## Specification-side definitions -/

/-- The escape of one character as the specification words it: two
backslashes for a backslash, backslash and `%` for `%`, backslash and `.` for
`.`, the character itself otherwise. -/
def escapeOneSpec (c : Char) : List Char :=
  if c = '\\' then ['\\', '\\']
  else if c = '%' then ['\\', '%']
  else if c = '.' then ['\\', '.']
  else [c]

/-- The specification of `escapeLike`: the escapes of the characters, in order. -/
def escapeLikeSpec (s : String) : String := ⟨s.data.flatMap escapeOneSpec⟩

/-- Whether a text reads, left to right, as a sequence of plain characters
(none of backslash, `%`, `.`) and two-character escapes (a backslash followed
by a backslash, `%` or `.`). -/
def wellEscaped : List Char → Bool
  | [] => true
  | c :: rest =>
    if c = '\\' then
      match rest with
      | [] => false
      | d :: rest2 => (d = '\\' || d = '%' || d = '.') && wellEscaped rest2
    else c ≠ '%' && c ≠ '.' && wellEscaped rest

/-- Drop the leading backslash of every escape, reading left to right. -/
def dropEscapes : List Char → List Char
  | [] => []
  | c :: rest =>
    if c = '\\' then
      match rest with
      | [] => [c]
      | d :: rest2 => d :: dropEscapes rest2
    else c :: dropEscapes rest

/-- Whether some suffix of the text satisfies `f` (the text itself included). -/
def anySuffix (f : List Char → Bool) : List Char → Bool
  | [] => f []
  | c :: t => f (c :: t) || anySuffix f t

/-- The LIKE semantics the specification names: `%` matches any sequence of
characters, `_` matches any single character, a backslash followed by `x`
matches the literal `x`, any other character matches itself; a pattern that
ends in a lone backslash matches nothing. The first argument is the pattern. -/
def likeMatch : List Char → List Char → Bool
  | [] => fun t => t.isEmpty
  | c :: p =>
    if c = '%' then fun t => anySuffix (likeMatch p) t
    else if c = '_' then fun t =>
      match t with
      | [] => false
      | _ :: t2 => likeMatch p t2
    else if c = '\\' then
      match p with
      | [] => fun _ => false
      | x :: p2 => fun t =>
        match t with
        | [] => false
        | y :: t2 => y == x && likeMatch p2 t2
    else fun t =>
      match t with
      | [] => false
      | y :: t2 => y == c && likeMatch p t2

/-- The pattern the Contains branch binds for the value `s`. -/
def containsPattern (s : String) : String := "%" ++ escapeLike s ++ "%"

/-- The comparison operators with the text each is rendered as. -/
def comparisonOps : List (Operator × String) :=
  [(OpEqual, "="), (OpNotEqual, "<>"), (OpLess, "<"), (OpGreater, ">"),
   (OpLessOrEqual, "<="), (OpGreaterOrEqual, ">=")]

/-- The pairs of `likeEscaper` as character lists. -/
def likePairs : List (List Char × List Char) :=
  likeEscaper.pairs.map fun p => (p.1.data, p.2.data)

/-- Whether an iteration ends the call: an error is returned or it panics. -/
def Outcome.isFailure : Outcome → Bool
  | .fail _ => true
  | .panic _ => true
  | _ => false

/-- The fragment an iteration hands to the sink, if any. -/
def Outcome.fragment : Outcome → Option (String × List Param)
  | .emit text params => some (text, params)
  | _ => none

/-- What the call returns when it ends with this iteration. -/
def Outcome.ret : Outcome → Ret
  | .fail err => .error err
  | .panic msg => .panic msg
  | _ => .nil

/-- The outcomes of the conditions taken one by one, the first at index `i`. -/
def outcomes (lib : Lib) (config : FilterConfig) (table : Table) :
    Nat → List Condition → List Outcome
  | _, [] => []
  | i, curr :: rest => applyCondition lib config table i curr :: outcomes lib config table (i + 1) rest

/-- A configuration whose hook on `firstName` rejects every condition with the
error `boom`. -/
def failingConfig : FilterConfig where
  Hooks := fun name =>
    if name = "firstName" then some (fun cond => (cond, some (.errorf "boom"))) else none

/-- A configuration whose hook on `firstName` returns `ErrNoop`. -/
def noopConfig : FilterConfig where
  Hooks := fun name =>
    if name = "firstName" then some (fun cond => (cond, some .ErrNoop)) else none

/-- The Go value of a literal that has exactly one of its four forms: the
`int64`, the `float64`, the string or the boolean; `none` for any other
population of the fields. -/
def literalValue (g : GrammarValue) : Option Value :=
  match g.Int, g.Float, g.String, g.Boolean with
  | some i, none, none, none => some (.int i)
  | none, some x, none, none => some (.float x)
  | none, none, some s, none => some (.str s)
  | none, none, none, some b => some (.bool b)
  | _, _, _, _ => none

/-- Whether a Go value is a boolean. -/
def Value.isBool : Value → Bool
  | .bool _ => true
  | _ => false

/-- The characters of a field path: a word character or the dot. -/
def pathChar (c : Char) : Bool := isWord c || c = '.'

/-- Whether a token can start none of the three shapes of a condition: it is
no `Operator`, no `WS`, and does not match the literal `:`. -/
def shapeless (t : Token) : Bool :=
  t.Typ ≠ .Operator && t.Typ ≠ .WS && !litMatch ":" t

/-- The token of an opening parenthesis. -/
def openParen : Token := ⟨.Bracket, "("⟩

/-- The token of a closing parenthesis. -/
def closeParen : Token := ⟨.Bracket, ")"⟩

/-- Whether the tokens hold an empty pair of parentheses: an opening
parenthesis directly followed by a closing one. -/
def emptyGroup (toks : List Token) : Prop := [openParen, closeParen] <:+: toks

/-- The token of the colon. -/
def colonToken : Token := ⟨.Operator, ":"⟩

/-- The tokens of the segments of a field path after the first: a dot and an
identifier for each. -/
def moreTokens : List String → List Token
  | [] => []
  | seg :: more => ⟨.Separator, "."⟩ :: ⟨.Identifier, seg⟩ :: moreTokens more

/-- The tokens of a field path of segments `first`, `more`. -/
def pathTokens (first : String) (more : List String) : List Token :=
  ⟨.Identifier, first⟩ :: moreTokens more

/-- The text of the segments of a field path after the first, each after a
dot. -/
def moreText : List String → String
  | [] => ""
  | seg :: more => "." ++ seg ++ moreText more

/-- The text of a field path of segments `first`, `more`. -/
def pathText (first : String) (more : List String) : String := first ++ moreText more

/-- The Go value that a token of a literal other than a boolean stands for: the
integer of an `Int`, the float of a `Float`, the text of a `String`; `none`
for any other token and for a number that the conversion rejects. -/
def tokenLiteral (lit : Literals) (t : Token) : Option Value :=
  if t.Typ = .Int then (lit.ParseInt t.Value).map Value.int
  else if t.Typ = .Float then (lit.ParseFloat t.Value).map Value.float
  else if t.Typ = .String then some (.str t.Value)
  else none

/-- The mapper applied to each value in order, every call succeeding: the
mapped values and the state after the last call; `none` when a call fails. -/
def mapAll {σ : Type} (fn : MapperS σ) : List Value → σ → Option (List Value × σ)
  | [], s => some ([], s)
  | v :: vs, s =>
    match fn v s with
    | (.ok w, s1) => (mapAll fn vs s1).map fun r => (w :: r.1, r.2)
    | (.error _, _) => none

/-- A mapper without effects as a mapper with effects on no state. -/
def Mapper.lift (fn : Mapper) : MapperS Unit := fun v s => (fn v, s)

/-- A mapper that counts its calls and fails on the integer zero. -/
def countingMapper : MapperS Nat := fun v n =>
  (if v = .int 0 then .error (.errorf "zero") else .ok (.str "x"), n + 1)

/-- The texts that the class `Operator` of the lexer matches. -/
def operatorTexts : List String := ["!=", "<=", ">=", ":", "=", "<", ">"]

/-- The nine operators of `operator.go`. -/
def validOperators : List Operator :=
  [OpEqual, OpNotEqual, OpLess, OpGreater, OpLessOrEqual, OpGreaterOrEqual, OpContains, OpIn,
    OpRange]

/-- Whether the `Operator` tokens among `toks` have texts of the lexer. -/
def operatorTokens (toks : List Token) : Prop :=
  ∀ t ∈ toks, t.Typ = .Operator → t.Value ∈ operatorTexts

/-- Whether a node has exactly one shape populated, the operator of a `Compare`
being a text of the lexer. -/
def wellShaped (n : ConditionGrammar) : Prop :=
  (∃ node, n.In = some node ∧ n.Compare = none ∧ n.Between = none)
    ∨ (∃ cmp, n.Compare = some cmp ∧ n.In = none ∧ n.Between = none
        ∧ cmp.Operator ∈ operatorTexts)
    ∨ (∃ node, n.Between = some node ∧ n.In = none ∧ n.Compare = none)

/-- Whether a text is an identifier of the lexer that is no keyword: a letter
or underscore, then word characters, the whole not being `NOT`, `IN`, `TRUE`
or `FALSE` in any case. -/
def identifierText (s : List Char) : Bool :=
  match s with
  | [] => false
  | c :: cs =>
    isIdentStart c && cs.all isWord
      && !(equalFold "NOT".data s || equalFold "IN".data s || equalFold "TRUE".data s
        || equalFold "FALSE".data s)

/-- The Go value of a text that the lexer reads, on its own, as one `Int`,
`Float` or `String` token whose conversion succeeds; `none` for any other
text. -/
def literalOf (lit : Literals) (text : String) : Option Value :=
  match lexOne text.data with
  | some (ty, n) =>
    if n = text.data.length then (makeToken ty text.data).bind (tokenLiteral lit) else none
  | none => none

/-! ## Lemmas on the library routines -/

theorem lookupPair_likePairs (c : Char) (s : List Char) :
    lookupPair likePairs (c :: s) =
      if c = '\\' then some (['\\'], ['\\', '\\'])
      else if c = '%' then some (['%'], ['\\', '%'])
      else if c = '.' then some (['.'], ['\\', '.'])
      else none := by
  simp only [likePairs, likeEscaper, NewReplacer, List.map, lookupPair, startsWith]
  by_cases h1 : c = '\\'
  · subst h1; simp
  · by_cases h2 : c = '%'
    · subst h2; simp
    · by_cases h3 : c = '.'
      · subst h3; simp
      · have e1 : ('\\' == c) = false := by simpa [beq_eq_false_iff_ne] using Ne.symm h1
        have e2 : ('%' == c) = false := by simpa [beq_eq_false_iff_ne] using Ne.symm h2
        have e3 : ('.' == c) = false := by simpa [beq_eq_false_iff_ne] using Ne.symm h3
        simp [h1, h2, h3, e1, e2, e3]

theorem replaceScan_likePairs (s : List Char) :
    replaceScan likePairs 0 s = s.flatMap escapeOneSpec := by
  induction s with
  | nil => simp [replaceScan]
  | cons c s ih =>
    rw [replaceScan, lookupPair_likePairs]
    by_cases h1 : c = '\\'
    · simp [h1, escapeOneSpec, replaceScan, ih]
    · by_cases h2 : c = '%'
      · simp [h2, escapeOneSpec, replaceScan, ih]
      · by_cases h3 : c = '.'
        · simp [h3, escapeOneSpec, replaceScan, ih]
        · simp [h1, h2, h3, escapeOneSpec, ih]

theorem escapeLike_data (s : String) : (escapeLike s).data = s.data.flatMap escapeOneSpec := by
  show replaceScan likePairs 0 s.data = _
  exact replaceScan_likePairs s.data

/-! ## Lemmas on the stages of the loop body -/

theorem hookStage_of_no_hook (config : FilterConfig) (curr : Condition)
    (h : config.Hooks curr.Field = none) : hookStage config curr = .ok curr := by
  simp [hookStage, h]

theorem fieldStage_single (lib : Lib) (table : Table) (cur : Condition) (pg : PgField)
    (hseg : Split cur.Field '.' = [cur.Field])
    (hcol : table.FieldsMap (lib.ToSnake cur.Field) = some pg) :
    fieldStage lib table cur = .ok (table.Alias ++ "." ++ pg.Column, []) := by
  simp [fieldStage, hseg, hcol]

theorem fieldStage_nested (lib : Lib) (table : Table) (cur : Condition) (pg : PgField)
    (m k : String) (hseg : Split cur.Field '.' = [m, k])
    (hcol : table.FieldsMap (lib.ToSnake m) = some pg)
    (hmap : pg.Typ.kind = Kind.Map) (hkey : pg.Typ.keyKind = Kind.String)
    (helem : pg.Typ.elemKind = Kind.String) :
    fieldStage lib table cur
      = .ok (table.Alias ++ "." ++ pg.Column ++ "->>?", [Param.val (.str k)]) := by
  simp [fieldStage, hseg, hcol, hmap, hkey, helem]

theorem applyCondition_eq_opStage (lib : Lib) (config : FilterConfig) (table : Table) (i : Nat)
    (curr cur : Condition) (field : String) (params : List Param)
    (hhook : hookStage config curr = .ok cur)
    (hfield : fieldStage lib table cur = .ok (field, params)) :
    applyCondition lib config table i curr
      = opStage (if curr.Not then " NOT " else "") field params i cur := by
  simp [applyCondition, hhook, hfield]

theorem opStage_comparison (nt field : String) (params : List Param) (i : Nat) (cur : Condition)
    (op : Operator) (sym : String) (hmem : (op, sym) ∈ comparisonOps) (hop : cur.Op = op) :
    opStage nt field params i cur
      = .emit (nt ++ field ++ " " ++ sym ++ " ?")
          (appendToNonEmpty params (cur.Values.map Param.val)) := by
  simp only [comparisonOps, List.mem_cons, Prod.mk.injEq, List.mem_singleton, List.not_mem_nil,
    or_false] at hmem
  rcases hmem with h | h | h | h | h | h <;> obtain ⟨h1, h2⟩ := h <;> subst h1 <;> subst h2 <;>
    simp [opStage, hop, Operator.String, operatorMap]

theorem opStage_in (nt field : String) (params : List Param) (i : Nat) (cur : Condition)
    (hop : cur.Op = OpIn) :
    opStage nt field params i cur
      = .emit (field ++ nt ++ " IN (?)") (appendToNonEmpty params [Param.inGroup cur.Values]) := by
  simp [opStage, hop]

theorem opStage_range (nt field : String) (params : List Param) (i : Nat) (cur : Condition)
    (hop : cur.Op = OpRange) :
    opStage nt field params i cur
      = .emit (field ++ nt ++ " BETWEEN ? AND ?")
          (appendToNonEmpty params (cur.Values.map Param.val)) := by
  simp [opStage, hop]

theorem opStage_contains (nt field : String) (params : List Param) (i : Nat) (cur : Condition)
    (v : String) (rest : List Value) (hop : cur.Op = OpContains)
    (hval : cur.Values = .str v :: rest) :
    opStage nt field params i cur
      = .emit (field ++ nt ++ " LIKE ?")
          (appendToNonEmpty params [Param.val (.str ("%" ++ escapeLike v ++ "%"))]) := by
  simp [opStage, hop, hval]

theorem splitChars_ne_nil (sep : Char) (s : List Char) : splitChars sep s ≠ [] := by
  cases s with
  | nil => simp [splitChars]
  | cons c s =>
    rw [splitChars]
    split
    · simp
    · split <;> simp

theorem splitChars_single (sep : Char) (s : List Char)
    (h : (splitChars sep s).length ≤ 1) : splitChars sep s = [s] := by
  induction s with
  | nil => simp [splitChars]
  | cons c s ih =>
    rw [splitChars] at h ⊢
    by_cases hc : c = sep
    · have hne := splitChars_ne_nil sep s
      rw [if_pos hc] at h
      cases hs : splitChars sep s with
      | nil => exact absurd hs hne
      | cons piece rest => rw [hs] at h; simp at h
    · rw [if_neg hc] at h ⊢
      cases hs : splitChars sep s with
      | nil => exact absurd hs (splitChars_ne_nil sep s)
      | cons piece rest =>
        rw [hs] at h ih
        simp only [List.length_cons] at h ih
        have hrest : rest = [] := List.eq_nil_of_length_eq_zero (by omega)
        subst hrest
        have := ih (by simp)
        simp only [List.cons.injEq, and_true] at this
        simp [this]

theorem Split_single (s : String) (sep : Char) (h : ¬ (Split s sep).length > 1) :
    Split s sep = [s] := by
  have h1 : (splitChars sep s.data).length ≤ 1 := by
    simpa [Split] using h
  simp [Split, splitChars_single sep s.data h1]

theorem fieldStage_congr (lib : Lib) (table : Table) (c1 c2 : Condition)
    (h : c1.Field = c2.Field) : fieldStage lib table c1 = fieldStage lib table c2 := by
  simp [fieldStage, h]

theorem opStage_congr (nt field : String) (params : List Param) (i : Nat) (c1 c2 : Condition)
    (hop : c1.Op = c2.Op) (hval : c1.Values = c2.Values) :
    opStage nt field params i c1 = opStage nt field params i c2 := by
  simp [opStage, hop, hval]

theorem fieldStage_error_is_fail (lib : Lib) (table : Table) (c : Condition) (out : Outcome)
    (h : fieldStage lib table c = .error out) : ∃ err, out = .fail err := by
  unfold fieldStage at h
  simp only at h
  split at h
  · split at h
    · exact ⟨_, (Except.error.inj h).symm⟩
    · split at h
      · exact ⟨_, (Except.error.inj h).symm⟩
      · split at h
        · exact ⟨_, (Except.error.inj h).symm⟩
        · cases h
  · split at h
    · exact ⟨_, (Except.error.inj h).symm⟩
    · cases h

theorem fieldStage_first_segment (lib : Lib) (table : Table) (c1 c2 : Condition)
    (hseg : (Split c1.Field '.').head? = (Split c2.Field '.').head?)
    (hdot : (Split c1.Field '.').length > 1 ↔ (Split c2.Field '.').length > 1) :
    (∃ out, fieldStage lib table c1 = .error out ∧ fieldStage lib table c2 = .error out)
      ∨ (∃ field p1 p2, fieldStage lib table c1 = .ok (field, p1)
          ∧ fieldStage lib table c2 = .ok (field, p2)) := by
  by_cases hd : (Split c1.Field '.').length > 1
  · have hd2 := hdot.mp hd
    have hg : (Split c1.Field '.').getD 0 "" = (Split c2.Field '.').getD 0 "" := by
      have e1 : ∀ l : List String, l.getD 0 "" = l.head?.getD "" := by
        intro l; cases l <;> simp
      rw [e1, e1, hseg]
    unfold fieldStage
    simp only [hd, hd2, if_true, hg]
    cases table.FieldsMap (lib.ToSnake ((Split c2.Field '.').getD 0 "")) with
    | none => exact Or.inl ⟨_, rfl, rfl⟩
    | some pg =>
      dsimp only
      split_ifs
      · exact Or.inl ⟨_, rfl, rfl⟩
      · exact Or.inl ⟨_, rfl, rfl⟩
      · exact Or.inr ⟨_, _, _, rfl, rfl⟩
  · have hd2 : ¬ (Split c2.Field '.').length > 1 := fun h => hd (hdot.mpr h)
    have hf : c1.Field = c2.Field := by
      rw [Split_single _ _ hd, Split_single _ _ hd2] at hseg
      simpa using hseg
    rw [fieldStage_congr lib table c1 c2 hf]
    cases h : fieldStage lib table c2 with
    | error out => exact Or.inl ⟨out, rfl, rfl⟩
    | ok r => exact Or.inr ⟨r.1, r.2, r.2, rfl, rfl⟩

theorem opStage_contains_nil (nt field : String) (params : List Param) (i : Nat)
    (cur : Condition) (hop : cur.Op = OpContains) (hval : cur.Values = []) :
    opStage nt field params i cur = .panic "index out of range" := by
  simp [opStage, hop, hval]

theorem opStage_contains_not_string (nt field : String) (params : List Param) (i : Nat)
    (cur : Condition) (v : Value) (rest : List Value) (hop : cur.Op = OpContains)
    (hval : cur.Values = v :: rest) (hv : ∀ x, v ≠ .str x) :
    opStage nt field params i cur = .panic "interface conversion: not a string" := by
  cases v with
  | str x => exact absurd rfl (hv x)
  | int _ => simp [opStage, hop, hval]
  | float _ => simp [opStage, hop, hval]
  | bool _ => simp [opStage, hop, hval]
  | other _ => simp [opStage, hop, hval]

theorem opStage_unknown (nt field : String) (params : List Param) (i : Nat) (cur : Condition)
    (hop : cur.Op ∉ [OpEqual, OpNotEqual, OpLess, OpGreater, OpLessOrEqual, OpGreaterOrEqual,
      OpContains, OpIn, OpRange]) :
    opStage nt field params i cur
      = .fail (.errorf ("condition #" ++ Nat.repr (i + 1) ++ ": unknown operator")) := by
  simp only [List.mem_cons, List.mem_singleton, List.not_mem_nil, or_false, not_or] at hop
  obtain ⟨h1, h2, h3, h4, h5, h6, h7, h8, h9⟩ := hop
  simp [opStage, h1, h2, h3, h4, h5, h6, h7, h8, h9]

/-- The ways the `switch` of `opStage` can go. -/
theorem operator_cases (op : Operator) :
    (∃ sym, (op, sym) ∈ comparisonOps) ∨ op = OpIn ∨ op = OpRange ∨ op = OpContains
      ∨ op ∉ [OpEqual, OpNotEqual, OpLess, OpGreater, OpLessOrEqual, OpGreaterOrEqual,
          OpContains, OpIn, OpRange] := by
  by_cases h1 : op = OpEqual
  · exact Or.inl ⟨"=", by simp [comparisonOps, h1]⟩
  by_cases h2 : op = OpNotEqual
  · exact Or.inl ⟨"<>", by simp [comparisonOps, h2]⟩
  by_cases h3 : op = OpLess
  · exact Or.inl ⟨"<", by simp [comparisonOps, h3]⟩
  by_cases h4 : op = OpGreater
  · exact Or.inl ⟨">", by simp [comparisonOps, h4]⟩
  by_cases h5 : op = OpLessOrEqual
  · exact Or.inl ⟨"<=", by simp [comparisonOps, h5]⟩
  by_cases h6 : op = OpGreaterOrEqual
  · exact Or.inl ⟨">=", by simp [comparisonOps, h6]⟩
  by_cases h7 : op = OpIn
  · exact Or.inr (Or.inl h7)
  by_cases h8 : op = OpRange
  · exact Or.inr (Or.inr (Or.inl h8))
  by_cases h9 : op = OpContains
  · exact Or.inr (Or.inr (Or.inr (Or.inl h9)))
  · refine Or.inr (Or.inr (Or.inr (Or.inr ?_)))
    simp [h1, h2, h3, h4, h5, h6, h7, h8, h9]

/-- The value list of a Contains condition either starts with a string or
makes the branch panic. -/
theorem contains_values_cases (vs : List Value) :
    (∃ v rest, vs = .str v :: rest) ∨ vs = [] ∨ ∃ v rest, vs = v :: rest ∧ ∀ x, v ≠ .str x := by
  cases vs with
  | nil => exact Or.inr (Or.inl rfl)
  | cons v rest =>
    cases v with
    | str x => exact Or.inl ⟨x, rest, rfl⟩
    | int _ => exact Or.inr (Or.inr ⟨_, _, rfl, by intro x h; cases h⟩)
    | float _ => exact Or.inr (Or.inr ⟨_, _, rfl, by intro x h; cases h⟩)
    | bool _ => exact Or.inr (Or.inr ⟨_, _, rfl, by intro x h; cases h⟩)
    | other _ => exact Or.inr (Or.inr ⟨_, _, rfl, by intro x h; cases h⟩)

theorem opStage_text (nt field : String) (p1 p2 : List Param) (i : Nat) (c1 c2 : Condition)
    (hop : c1.Op = c2.Op) (t1 : String) (q1 : List Param)
    (h : opStage nt field p1 i c1 = .emit t1 q1) :
    (∃ q2, opStage nt field p2 i c2 = .emit t1 q2)
      ∨ ∃ msg, opStage nt field p2 i c2 = .panic msg := by
  rcases operator_cases c1.Op with ⟨sym, hm⟩ | hin | hrg | hct | hun
  · rw [opStage_comparison nt field p1 i c1 _ sym hm rfl] at h
    rw [opStage_comparison nt field p2 i c2 _ sym hm hop.symm]
    simp only [Outcome.emit.injEq] at h
    exact Or.inl ⟨_, by rw [h.1]⟩
  · rw [opStage_in nt field p1 i c1 hin] at h
    rw [opStage_in nt field p2 i c2 (hop ▸ hin)]
    simp only [Outcome.emit.injEq] at h
    exact Or.inl ⟨_, by rw [h.1]⟩
  · rw [opStage_range nt field p1 i c1 hrg] at h
    rw [opStage_range nt field p2 i c2 (hop ▸ hrg)]
    simp only [Outcome.emit.injEq] at h
    exact Or.inl ⟨_, by rw [h.1]⟩
  · have hct2 : c2.Op = OpContains := hop ▸ hct
    rcases contains_values_cases c1.Values with ⟨v, rest, hv⟩ | hv | ⟨v, rest, hv, hns⟩
    · rw [opStage_contains nt field p1 i c1 v rest hct hv] at h
      simp only [Outcome.emit.injEq] at h
      rcases contains_values_cases c2.Values with ⟨w, rest2, hw⟩ | hw | ⟨w, rest2, hw, hns2⟩
      · rw [opStage_contains nt field p2 i c2 w rest2 hct2 hw]
        exact Or.inl ⟨_, by rw [h.1]⟩
      · exact Or.inr ⟨_, opStage_contains_nil nt field p2 i c2 hct2 hw⟩
      · exact Or.inr ⟨_, opStage_contains_not_string nt field p2 i c2 w rest2 hct2 hw hns2⟩
    · rw [opStage_contains_nil nt field p1 i c1 hct hv] at h
      cases h
    · rw [opStage_contains_not_string nt field p1 i c1 v rest hct hv hns] at h
      cases h
  · rw [opStage_unknown nt field p1 i c1 hun] at h
    cases h

theorem opStage_fail (nt field : String) (p1 p2 : List Param) (i : Nat) (c1 c2 : Condition)
    (hop : c1.Op = c2.Op) (err : Error)
    (h : opStage nt field p1 i c1 = .fail err) :
    opStage nt field p2 i c2 = .fail err := by
  rcases operator_cases c1.Op with ⟨sym, hm⟩ | hin | hrg | hct | hun
  · rw [opStage_comparison nt field p1 i c1 _ sym hm rfl] at h
    cases h
  · rw [opStage_in nt field p1 i c1 hin] at h
    cases h
  · rw [opStage_range nt field p1 i c1 hrg] at h
    cases h
  · rcases contains_values_cases c1.Values with ⟨v, rest, hv⟩ | hv | ⟨v, rest, hv, hns⟩
    · rw [opStage_contains nt field p1 i c1 v rest hct hv] at h
      cases h
    · rw [opStage_contains_nil nt field p1 i c1 hct hv] at h
      cases h
    · rw [opStage_contains_not_string nt field p1 i c1 v rest hct hv hns] at h
      cases h
  · rw [opStage_unknown nt field p1 i c1 hun] at h
    rw [opStage_unknown nt field p2 i c2 (hop ▸ hun)]
    exact h

theorem applyCondition_no_hook (lib : Lib) (config : FilterConfig) (table : Table) (i : Nat)
    (c : Condition) (h : config.Hooks c.Field = none) :
    applyCondition lib config table i c
      = match fieldStage lib table c with
        | .error out => out
        | .ok (field, params) => opStage (if c.Not then " NOT " else "") field params i c := by
  simp [applyCondition, hookStage_of_no_hook config c h]

theorem opStage_negation (field : String) (params : List Param) (i : Nat) (cur : Condition) :
    (∃ pre post ps, opStage "" field params i cur = .emit (pre ++ post) ps
        ∧ opStage " NOT " field params i cur = .emit (pre ++ " NOT " ++ post) ps)
      ∨ ((∀ t p, opStage "" field params i cur ≠ .emit t p)
        ∧ opStage " NOT " field params i cur = opStage "" field params i cur) := by
  rcases operator_cases cur.Op with ⟨sym, hm⟩ | hin | hrg | hct | hun
  · refine Or.inl ⟨"", field ++ " " ++ sym ++ " ?",
      appendToNonEmpty params (cur.Values.map Param.val), ?_, ?_⟩
    · rw [opStage_comparison "" field params i cur _ sym hm rfl]
      simp [String.append_assoc]
    · rw [opStage_comparison " NOT " field params i cur _ sym hm rfl]
      simp [String.append_assoc]
  · refine Or.inl ⟨field, " IN (?)", appendToNonEmpty params [Param.inGroup cur.Values], ?_, ?_⟩
    · rw [opStage_in "" field params i cur hin]; simp
    · rw [opStage_in " NOT " field params i cur hin]
  · refine Or.inl ⟨field, " BETWEEN ? AND ?",
      appendToNonEmpty params (cur.Values.map Param.val), ?_, ?_⟩
    · rw [opStage_range "" field params i cur hrg]; simp
    · rw [opStage_range " NOT " field params i cur hrg]
  · rcases contains_values_cases cur.Values with ⟨v, rest, hv⟩ | hv | ⟨v, rest, hv, hns⟩
    · refine Or.inl ⟨field, " LIKE ?",
        appendToNonEmpty params [Param.val (.str ("%" ++ escapeLike v ++ "%"))], ?_, ?_⟩
      · rw [opStage_contains "" field params i cur v rest hct hv]; simp
      · rw [opStage_contains " NOT " field params i cur v rest hct hv]
    · refine Or.inr ⟨?_, ?_⟩
      · intro t p; rw [opStage_contains_nil "" field params i cur hct hv]; simp
      · rw [opStage_contains_nil "" field params i cur hct hv,
          opStage_contains_nil " NOT " field params i cur hct hv]
    · refine Or.inr ⟨?_, ?_⟩
      · intro t p
        rw [opStage_contains_not_string "" field params i cur v rest hct hv hns]; simp
      · rw [opStage_contains_not_string "" field params i cur v rest hct hv hns,
          opStage_contains_not_string " NOT " field params i cur v rest hct hv hns]
  · refine Or.inr ⟨?_, ?_⟩
    · intro t p; rw [opStage_unknown "" field params i cur hun]; simp
    · rw [opStage_unknown "" field params i cur hun, opStage_unknown " NOT " field params i cur hun]

/-- A fragment is handed to the sink as one `Where` call, and the loop goes on
with the next condition. -/
theorem applyConditions_cons_emit (lib : Lib) (config : FilterConfig) (table : Table) (i : Nat)
    (curr : Condition) (rest : List Condition) (query : Query) (text : String)
    (params : List Param) (h : applyCondition lib config table i curr = .emit text params) :
    applyConditions lib config table i (curr :: rest) query
      = applyConditions lib config table (i + 1) rest (query.Where text params) := by
  simp [applyConditions, h]

/-- An error ends the loop: it is returned and the sink stays as it is. -/
theorem applyConditions_cons_fail (lib : Lib) (config : FilterConfig) (table : Table) (i : Nat)
    (curr : Condition) (rest : List Condition) (query : Query) (err : Error)
    (h : applyCondition lib config table i curr = .fail err) :
    applyConditions lib config table i (curr :: rest) query = (query, .error err) := by
  simp [applyConditions, h]

theorem applyConditions_cons_panic (lib : Lib) (config : FilterConfig) (table : Table) (i : Nat)
    (curr : Condition) (rest : List Condition) (query : Query) (msg : String)
    (h : applyCondition lib config table i curr = .panic msg) :
    applyConditions lib config table i (curr :: rest) query = (query, .panic msg) := by
  simp [applyConditions, h]

/-- A skipped condition leaves the sink as it is, and the loop goes on. -/
theorem applyConditions_cons_skip (lib : Lib) (config : FilterConfig) (table : Table) (i : Nat)
    (curr : Condition) (rest : List Condition) (query : Query)
    (h : applyCondition lib config table i curr = .skip) :
    applyConditions lib config table i (curr :: rest) query
      = applyConditions lib config table (i + 1) rest query := by
  simp [applyConditions, h]

theorem applyCondition_of_fieldStage_error (lib : Lib) (config : FilterConfig) (table : Table)
    (i : Nat) (curr cur : Condition) (out : Outcome)
    (hhook : hookStage config curr = .ok cur)
    (hfield : fieldStage lib table cur = .error out) :
    applyCondition lib config table i curr = out := by
  simp [applyCondition, hhook, hfield]

theorem fieldStage_single_unknown (lib : Lib) (table : Table) (cur : Condition)
    (hseg : Split cur.Field '.' = [cur.Field])
    (hcol : table.FieldsMap (lib.ToSnake cur.Field) = none) :
    fieldStage lib table cur
      = .error (.fail (.errorf ("field: " ++ lib.Quote cur.Field ++ ": not found in model"))) := by
  simp [fieldStage, hseg, hcol]

theorem fieldStage_dotted_unknown (lib : Lib) (table : Table) (cur : Condition)
    (first : String) (more : List String)
    (hseg : Split cur.Field '.' = first :: more) (hmore : more ≠ [])
    (hcol : table.FieldsMap (lib.ToSnake first) = none) :
    fieldStage lib table cur
      = .error (.fail (.errorf ("field: " ++ lib.Quote first ++ ": not found in model"))) := by
  have hlen : (first :: more).length > 1 := by
    cases more with
    | nil => exact absurd rfl hmore
    | cons x xs => simp
  simp [fieldStage, hseg, hcol, hlen, hmore]

theorem fieldStage_dotted_not_map (lib : Lib) (table : Table) (cur : Condition)
    (first : String) (more : List String) (pg : PgField)
    (hseg : Split cur.Field '.' = first :: more) (hmore : more ≠ [])
    (hcol : table.FieldsMap (lib.ToSnake first) = some pg)
    (hkind : pg.Typ.kind ≠ Kind.Map) :
    fieldStage lib table cur
      = .error (.fail (.errorf ("field: " ++ lib.Quote first ++ ": not a map"))) := by
  have hlen : (first :: more).length > 1 := by
    cases more with
    | nil => exact absurd rfl hmore
    | cons x xs => simp
  simp [fieldStage, hseg, hcol, hlen, hkind, hmore]

theorem fieldStage_dotted_map_type (lib : Lib) (table : Table) (cur : Condition)
    (first : String) (more : List String) (pg : PgField)
    (hseg : Split cur.Field '.' = first :: more) (hmore : more ≠ [])
    (hcol : table.FieldsMap (lib.ToSnake first) = some pg)
    (hkind : pg.Typ.kind = Kind.Map)
    (htype : pg.Typ.keyKind ≠ Kind.String ∨ pg.Typ.elemKind ≠ Kind.String) :
    fieldStage lib table cur
      = .error (.fail (.errorf ("field: " ++ lib.Quote first ++ ": got map["
          ++ kindName pg.Typ.keyKind ++ "]" ++ kindName pg.Typ.elemKind
          ++ " want map[string]string"))) := by
  have hlen : (first :: more).length > 1 := by
    cases more with
    | nil => exact absurd rfl hmore
    | cons x xs => simp
  unfold fieldStage
  simp only [hseg, hlen, if_true, List.getD_cons_zero, hcol]
  rw [if_neg (by simp [hkind]), if_pos htype]

/-- The index of the condition only shows in the text of the
unknown-operator error. -/
theorem opStage_index (nt field : String) (params : List Param) (i j : Nat) (cur : Condition) :
    opStage nt field params i cur = opStage nt field params j cur
      ∨ ∃ e1 e2, opStage nt field params i cur = .fail e1
          ∧ opStage nt field params j cur = .fail e2 := by
  rcases operator_cases cur.Op with ⟨sym, hm⟩ | hin | hrg | hct | hun
  · left
    rw [opStage_comparison nt field params i cur _ sym hm rfl,
      opStage_comparison nt field params j cur _ sym hm rfl]
  · left
    rw [opStage_in nt field params i cur hin, opStage_in nt field params j cur hin]
  · left
    rw [opStage_range nt field params i cur hrg, opStage_range nt field params j cur hrg]
  · left
    rcases contains_values_cases cur.Values with ⟨v, rest, hv⟩ | hv | ⟨v, rest, hv, hns⟩
    · rw [opStage_contains nt field params i cur v rest hct hv,
        opStage_contains nt field params j cur v rest hct hv]
    · rw [opStage_contains_nil nt field params i cur hct hv,
        opStage_contains_nil nt field params j cur hct hv]
    · rw [opStage_contains_not_string nt field params i cur v rest hct hv hns,
        opStage_contains_not_string nt field params j cur v rest hct hv hns]
  · right
    exact ⟨_, _, opStage_unknown nt field params i cur hun, opStage_unknown nt field params j cur hun⟩

theorem applyCondition_index (lib : Lib) (config : FilterConfig) (table : Table) (i j : Nat)
    (c : Condition) :
    applyCondition lib config table i c = applyCondition lib config table j c
      ∨ ∃ e1 e2, applyCondition lib config table i c = .fail e1
          ∧ applyCondition lib config table j c = .fail e2 := by
  cases h1 : hookStage config c with
  | error out => left; simp [applyCondition, h1]
  | ok cur =>
    cases h2 : fieldStage lib table cur with
    | error out => left; simp [applyCondition, h1, h2]
    | ok r =>
      obtain ⟨field, params⟩ := r
      rw [applyCondition_eq_opStage lib config table i c cur field params h1 h2,
        applyCondition_eq_opStage lib config table j c cur field params h1 h2]
      exact opStage_index _ field params i j cur

theorem hookStage_noop (config : FilterConfig) (c : Condition) (hook : FilterHook)
    (hreg : config.Hooks c.Field = some hook) (hnoop : (hook c).2 = some Error.ErrNoop) :
    hookStage config c = .error .skip := by
  unfold hookStage
  rw [hreg]
  cases h : hook c with
  | mk c2 e =>
    rw [h] at hnoop
    simp only at hnoop
    subst hnoop
    simp [h]

theorem applyCondition_noop (lib : Lib) (config : FilterConfig) (table : Table) (i : Nat)
    (c : Condition) (hook : FilterHook)
    (hreg : config.Hooks c.Field = some hook) (hnoop : (hook c).2 = some Error.ErrNoop) :
    applyCondition lib config table i c = .skip := by
  simp [applyCondition, hookStage_noop config c hook hreg hnoop]

theorem hookStage_error (config : FilterConfig) (c : Condition) (hook : FilterHook) (err : Error)
    (hreg : config.Hooks c.Field = some hook) (herr : (hook c).2 = some err)
    (hne : err ≠ Error.ErrNoop) :
    hookStage config c = .error (.fail (.errorf ("hook: " ++ err.text))) := by
  unfold hookStage
  rw [hreg]
  cases h : hook c with
  | mk c2 e =>
    rw [h] at herr
    simp only at herr
    subst herr
    simp [h, hne]

theorem applyCondition_hook_error (lib : Lib) (config : FilterConfig) (table : Table) (i : Nat)
    (c : Condition) (hook : FilterHook) (err : Error)
    (hreg : config.Hooks c.Field = some hook) (herr : (hook c).2 = some err)
    (hne : err ≠ Error.ErrNoop) :
    applyCondition lib config table i c = .fail (.errorf ("hook: " ++ err.text)) := by
  simp [applyCondition, hookStage_error config c hook err hreg herr hne]

theorem applyConditions_skip_filter (lib : Lib) (config : FilterConfig) (table : Table)
    (f : String) (hook : FilterHook) (hreg : config.Hooks f = some hook) :
    ∀ (conds : List Condition) (i j : Nat) (query : Query),
      (∀ c ∈ conds, c.Field = f → (hook c).2 = some Error.ErrNoop) →
      (applyConditions lib config table i conds query).1.wheres
          = (applyConditions lib config table j
              (conds.filter fun c => decide (c.Field ≠ f)) query).1.wheres
        ∧ ((applyConditions lib config table i conds query).2 = .nil
            ↔ (applyConditions lib config table j
                (conds.filter fun c => decide (c.Field ≠ f)) query).2 = .nil) := by
  intro conds
  induction conds with
  | nil => intro i j query _; simp [applyConditions]
  | cons c rest ih =>
    intro i j query hnoop
    have hrest : ∀ c ∈ rest, c.Field = f → (hook c).2 = some Error.ErrNoop :=
      fun c2 hc2 => hnoop c2 (List.mem_cons_of_mem _ hc2)
    by_cases hf : c.Field = f
    · have hskip := applyCondition_noop lib config table i c hook (hf ▸ hreg)
        (hnoop c (List.mem_cons_self _ _) hf)
      rw [applyConditions_cons_skip lib config table i c rest query hskip]
      have hfilter : (c :: rest).filter (fun c => decide (c.Field ≠ f))
          = rest.filter (fun c => decide (c.Field ≠ f)) := by
        simp [List.filter_cons, hf]
      rw [hfilter]
      exact ih (i + 1) j query hrest
    · have hfilter : (c :: rest).filter (fun c => decide (c.Field ≠ f))
          = c :: rest.filter (fun c => decide (c.Field ≠ f)) := by
        simp [List.filter_cons, hf]
      rw [hfilter]
      rcases applyCondition_index lib config table i j c with heq | ⟨e1, e2, h1, h2⟩
      · cases hout : applyCondition lib config table j c with
        | skip =>
          rw [applyConditions_cons_skip lib config table i c rest query (heq.trans hout),
            applyConditions_cons_skip lib config table j c _ query hout]
          exact ih (i + 1) (j + 1) query hrest
        | emit text params =>
          rw [applyConditions_cons_emit lib config table i c rest query text params
              (heq.trans hout),
            applyConditions_cons_emit lib config table j c _ query text params hout]
          exact ih (i + 1) (j + 1) _ hrest
        | fail err =>
          rw [applyConditions_cons_fail lib config table i c rest query err (heq.trans hout),
            applyConditions_cons_fail lib config table j c _ query err hout]
          simp
        | panic msg =>
          rw [applyConditions_cons_panic lib config table i c rest query msg (heq.trans hout),
            applyConditions_cons_panic lib config table j c _ query msg hout]
          simp
      · rw [applyConditions_cons_fail lib config table i c rest query e1 h1,
          applyConditions_cons_fail lib config table j c _ query e2 h2]
        simp

theorem mapValuesFrom_ok (fn : Mapper) (g : Value → Value) :
    ∀ (values : List Value) (i : Nat), (∀ v ∈ values, fn v = .ok (g v)) →
      mapValuesFrom fn i values = (values.map g, none) := by
  intro values
  induction values with
  | nil => intro i _; simp [mapValuesFrom]
  | cons v rest ih =>
    intro i h
    have hv := h v (List.mem_cons_self _ _)
    have hr := ih (i + 1) (fun w hw => h w (List.mem_cons_of_mem _ hw))
    simp [mapValuesFrom, hv, hr]

/-- The loop as a function of the outcomes of its iterations: the sink
receives the fragments before the first failure, in order, and the call
returns what the first failure returns, `nil` when there is none. -/
theorem applyConditions_outcomes (lib : Lib) (config : FilterConfig) (table : Table) :
    ∀ (conds : List Condition) (i : Nat) (query : Query),
      (applyConditions lib config table i conds query).1.wheres
          = query.wheres ++ ((outcomes lib config table i conds).takeWhile
              fun o => !o.isFailure).filterMap Outcome.fragment
        ∧ (applyConditions lib config table i conds query).2
          = match (outcomes lib config table i conds).find? Outcome.isFailure with
            | none => Ret.nil
            | some o => o.ret := by
  intro conds
  induction conds with
  | nil => intro i query; simp [applyConditions, outcomes]
  | cons c rest ih =>
    intro i query
    cases hout : applyCondition lib config table i c with
    | skip =>
      rw [applyConditions_cons_skip lib config table i c rest query hout]
      simp [outcomes, hout, Outcome.isFailure, Outcome.fragment, ih (i + 1) query]
    | emit text params =>
      rw [applyConditions_cons_emit lib config table i c rest query text params hout]
      simp [outcomes, hout, Outcome.isFailure, Outcome.fragment, ih (i + 1), Query.Where]
    | fail err =>
      rw [applyConditions_cons_fail lib config table i c rest query err hout]
      simp [outcomes, hout, Outcome.isFailure, Outcome.ret]
    | panic msg =>
      rw [applyConditions_cons_panic lib config table i c rest query msg hout]
      simp [outcomes, hout, Outcome.isFailure, Outcome.ret]

/-! ## Lemmas on the conversion -/

theorem appendValue_frame (f : Condition) (v : GrammarValue) :
    (appendValue f v).2 = none ∧ (appendValue f v).1.Field = f.Field
      ∧ (appendValue f v).1.Not = f.Not ∧ (appendValue f v).1.Op = f.Op := by
  unfold appendValue
  cases v.Int with
  | some i => simp
  | none =>
    cases v.String with
    | some x => simp
    | none =>
      cases v.Float with
      | some x => simp
      | none => simp

theorem appendValues_frame (vs : List GrammarValue) :
    ∀ f : Condition, (appendValues f vs).2 = none ∧ (appendValues f vs).1.Field = f.Field
      ∧ (appendValues f vs).1.Not = f.Not ∧ (appendValues f vs).1.Op = f.Op := by
  induction vs with
  | nil => intro f; simp [appendValues]
  | cons v rest ih =>
    intro f
    obtain ⟨h1, h2, h3, h4⟩ := appendValue_frame f v
    rw [appendValues]
    cases h : appendValue f v with
    | mk f2 e =>
      rw [h] at h1 h2 h3 h4
      simp only at h1 h2 h3 h4
      subst h1
      try rw [h]
      try dsimp only
      obtain ⟨k1, k2, k3, k4⟩ := ih f2
      exact ⟨k1, k2.trans h2, k3.trans h3, k4.trans h4⟩

/-- The function `fillValue` returns no error and leaves the field, the
negation flag and the operator of the condition as they are. -/
theorem fillValue_frame (f : Condition) (c : ConditionGrammar) :
    (fillValue f c).2 = none ∧ (fillValue f c).1.Field = f.Field
      ∧ (fillValue f c).1.Not = f.Not ∧ (fillValue f c).1.Op = f.Op := by
  unfold fillValue
  cases hin : c.In with
  | some node => exact appendValues_frame node.Values f
  | none =>
    cases hcmp : c.Compare with
    | some cmp =>
      cases hb : cmp.Value.Boolean with
      | some b => simp [hb]
      | none => simpa [hb] using appendValue_frame f cmp.Value
    | none =>
      cases hbt : c.Between with
      | none => simp
      | some node =>
        obtain ⟨h1, h2, h3, h4⟩ := appendValue_frame f node.Start
        cases h : appendValue f node.Start with
        | mk f2 e =>
          rw [h] at h1 h2 h3 h4
          simp only at h1 h2 h3 h4
          subst h1
          obtain ⟨k1, k2, k3, k4⟩ := appendValue_frame f2 node.End
          have hgoal : (match appendValue f node.Start with
              | (f, some err) => (f, some err)
              | (f, none) => appendValue f node.End) = appendValue f2 node.End := by
            rw [h]
          dsimp only
          rw [hgoal]
          exact ⟨k1, k2.trans h2, k3.trans h3, k4.trans h4⟩

/-- When `opFromCond` returns on every node, the loop of `convert` returns one
condition per node, in order, with the field path and the negation flag of
the node. -/
theorem convertNodes_ok (nodes : List ConditionGrammar)
    (h : ∀ n ∈ nodes, ∃ op, opFromCond n = .ok op) :
    ∃ conditions, convertNodes nodes = .ok conditions
      ∧ conditions.length = nodes.length
      ∧ conditions.map (fun c => (c.Field, c.Not)) = nodes.map (fun n => (n.Symbol, n.Not)) := by
  induction nodes with
  | nil => exact ⟨[], rfl, rfl, rfl⟩
  | cons n rest ih =>
    obtain ⟨op, hop⟩ := h n (List.mem_cons_self _ _)
    obtain ⟨cs, hcs, hlen, hmap⟩ := ih (fun m hm => h m (List.mem_cons_of_mem _ hm))
    obtain ⟨h1, h2, h3, _⟩ :=
      fillValue_frame { Not := n.Not, Field := n.Symbol, Op := op, Values := [] } n
    cases hf : fillValue { Not := n.Not, Field := n.Symbol, Op := op, Values := [] } n with
    | mk c e =>
      rw [hf] at h1 h2 h3
      simp only at h1 h2 h3
      subst h1
      refine ⟨c :: cs, ?_, by simp [hlen], by simp [hmap, h2, h3]⟩
      simp [convertNodes, hop, hf, hcs]

theorem opFromCond_ok_of_shape (n : ConditionGrammar)
    (h : n.In.isSome
      ∨ (∃ cmp, n.Compare = some cmp ∧ (OperatorFromString cmp.Operator).2 = true)
      ∨ (n.Compare = none ∧ n.Between.isSome)) :
    ∃ op, opFromCond n = .ok op := by
  unfold opFromCond
  cases hin : n.In with
  | some node => exact ⟨_, rfl⟩
  | none =>
    rw [hin] at h
    rcases h with h | ⟨cmp, hc, hreg⟩ | ⟨hc, hb⟩
    · simp at h
    · simp only [hc]
      cases hr : OperatorFromString cmp.Operator with
      | mk op ok =>
        rw [hr] at hreg
        simp only at hreg
        subst hreg
        exact ⟨op, rfl⟩
    · simp only [hc]
      cases hbt : n.Between with
      | none => rw [hbt] at hb; simp at hb
      | some node => exact ⟨_, rfl⟩

/-! ## Lemmas on the operator registry -/

theorem OperatorFromString_of_not_mem (s : String)
    (h : s ∉ ["=", "!=", "<", ">", "<=", ">=", ":", "in", "[]"]) :
    OperatorFromString s = (0, false) := by
  simp only [List.mem_cons, List.mem_singleton, List.not_mem_nil, or_false, not_or] at h
  obtain ⟨h1, h2, h3, h4, h5, h6, h7, h8, h9⟩ := h
  have e : ∀ t : String, s ≠ t → (s == t) = false := fun t ht => by simpa using ht
  simp only [OperatorFromString, operatorMap, List.lookup, e _ h1, e _ h2, e _ h3, e _ h4,
    e _ h5, e _ h6, e _ h7, e _ h8, e _ h9]

theorem OperatorFromString_of_mem (s : String) (op : Operator)
    (h : (s, op) ∈ operatorMap) : OperatorFromString s = (op, true) := by
  simp only [operatorMap, List.mem_cons, Prod.mk.injEq, List.mem_singleton, List.not_mem_nil,
    or_false] at h
  rcases h with h | h | h | h | h | h | h | h | h <;> obtain ⟨h1, h2⟩ := h <;> subst h1 <;>
    subst h2 <;> decide

theorem OperatorFromString_cases (s : String) :
    (∃ op, (s, op) ∈ operatorMap ∧ OperatorFromString s = (op, true))
      ∨ (s ∉ ["=", "!=", "<", ">", "<=", ">=", ":", "in", "[]"]
          ∧ OperatorFromString s = (0, false)) := by
  by_cases h : s ∈ ["=", "!=", "<", ">", "<=", ">=", ":", "in", "[]"]
  · left
    simp only [List.mem_cons, List.mem_singleton, List.not_mem_nil, or_false] at h
    rcases h with h | h | h | h | h | h | h | h | h <;> subst h
    · exact ⟨OpEqual, by decide, by decide⟩
    · exact ⟨OpNotEqual, by decide, by decide⟩
    · exact ⟨OpLess, by decide, by decide⟩
    · exact ⟨OpGreater, by decide, by decide⟩
    · exact ⟨OpLessOrEqual, by decide, by decide⟩
    · exact ⟨OpGreaterOrEqual, by decide, by decide⟩
    · exact ⟨OpContains, by decide, by decide⟩
    · exact ⟨OpIn, by decide, by decide⟩
    · exact ⟨OpRange, by decide, by decide⟩
  · exact Or.inr ⟨h, OperatorFromString_of_not_mem s h⟩

theorem Operator_String_of_mem (s : String) (op : Operator) (h : (s, op) ∈ operatorMap) :
    Operator.String op = s := by
  simp only [operatorMap, List.mem_cons, Prod.mk.injEq, List.mem_singleton, List.not_mem_nil,
    or_false] at h
  rcases h with h | h | h | h | h | h | h | h | h <;> obtain ⟨h1, h2⟩ := h <;> subst h1 <;>
    subst h2 <;> decide

theorem Operator_String_of_not_mem (o : Operator)
    (h : o ∉ [OpEqual, OpNotEqual, OpLess, OpGreater, OpLessOrEqual, OpGreaterOrEqual,
      OpContains, OpIn, OpRange]) : Operator.String o = "unknown" := by
  simp only [List.mem_cons, List.mem_singleton, List.not_mem_nil, or_false, not_or] at h
  obtain ⟨h1, h2, h3, h4, h5, h6, h7, h8, h9⟩ := h
  have e : ∀ n : Nat, n ≠ o → (n == o) = false := fun n hn => by simpa using hn
  simp [Operator.String, operatorMap, List.find?, e _ (Ne.symm h1), e _ (Ne.symm h2),
    e _ (Ne.symm h3), e _ (Ne.symm h4), e _ (Ne.symm h5), e _ (Ne.symm h6), e _ (Ne.symm h7),
    e _ (Ne.symm h8), e _ (Ne.symm h9)]

/-- In a list with at most one element satisfying `p`, `find?` gives that
element wherever it stands. -/
theorem find?_eq_some_of_unique {α : Type} (p : α → Bool) (l : List α) (a : α)
    (huniq : ∀ x ∈ l, ∀ y ∈ l, p x = true → p y = true → x = y)
    (ha : a ∈ l) (hp : p a = true) : l.find? p = some a := by
  induction l with
  | nil => cases ha
  | cons x rest ih =>
    by_cases hx : p x = true
    · have : x = a := huniq x (List.mem_cons_self _ _) a ha hx hp
      subst this
      simp [List.find?, hp]
    · have hxa : a ≠ x := fun e => hx (e ▸ hp)
      have har : a ∈ rest := by
        rcases List.mem_cons.mp ha with e | e
        · exact absurd e hxa
        · exact e
      have hx2 : p x = false := by simpa using hx
      rw [List.find?, hx2]
      exact ih (fun u hu v hv => huniq u (List.mem_cons_of_mem _ hu) v (List.mem_cons_of_mem _ hv))
        har

theorem find?_eq_none_of_forall {α : Type} (p : α → Bool) (l : List α)
    (h : ∀ x ∈ l, p x = false) : l.find? p = none := by
  induction l with
  | nil => rfl
  | cons x rest ih =>
    rw [List.find?, h x (List.mem_cons_self _ _)]
    exact ih (fun y hy => h y (List.mem_cons_of_mem _ hy))

/-- The entries of the registry have pairwise different operators. -/
theorem operatorMap_unique (o : Operator) :
    ∀ x ∈ operatorMap, ∀ y ∈ operatorMap, (x.2 == o) = true → (y.2 == o) = true → x = y := by
  intro x hx y hy h1 h2
  have e1 : x.2 = o := by simpa using h1
  have e2 : y.2 = o := by simpa using h2
  have hs1 := Operator_String_of_mem x.1 x.2 hx
  have hs2 := Operator_String_of_mem y.1 y.2 hy
  rw [e1] at hs1
  rw [e2] at hs2
  exact Prod.ext (hs1.symm.trans hs2) (e1.trans e2.symm)

/-- The result of `Operator.String` is the same for every order in which the
entries of the registry are visited. -/
theorem Operator_String_order_independent (m : List (String × Operator))
    (hm : m.Perm operatorMap) (o : Operator) :
    (match m.find? (fun kv => kv.2 == o) with
      | some kv => kv.1
      | none => "unknown") = Operator.String o := by
  unfold Operator.String
  cases h : operatorMap.find? (fun kv => kv.2 == o) with
  | none =>
    have hall : ∀ x ∈ m, (fun kv : String × Operator => kv.2 == o) x = false := by
      intro x hx
      have := List.find?_eq_none.mp h x (hm.mem_iff.mp hx)
      simpa using this
    rw [find?_eq_none_of_forall _ m hall]
  | some kv =>
    have hp : (fun kv : String × Operator => kv.2 == o) kv = true :=
      List.find?_some (p := fun kv : String × Operator => kv.2 == o) h
    have hmem : kv ∈ m := hm.mem_iff.mpr (List.mem_of_find?_eq_some h)
    rw [find?_eq_some_of_unique _ m kv
      (fun x hx y hy => operatorMap_unique o x (hm.mem_iff.mp hx) y (hm.mem_iff.mp hy)) hmem hp]

/-! ## Lemmas on the values of the conditions -/

theorem appendValue_literal (f : Condition) (g : GrammarValue) (v : Value)
    (h : literalValue g = some v) (hb : v.isBool = false) :
    appendValue f g = ({ f with Values := f.Values ++ [v] }, none) := by
  obtain ⟨gi, gf, gs, gb⟩ := g
  cases gi <;> cases gf <;> cases gs <;> cases gb <;>
    simp [literalValue] at h <;> subst h <;> simp [appendValue, Value.isBool] at hb ⊢

theorem appendValue_boolean (f : Condition) (g : GrammarValue) (b : Bool)
    (h : literalValue g = some (.bool b)) : appendValue f g = (f, none) := by
  obtain ⟨gi, gf, gs, gb⟩ := g
  cases gi <;> cases gf <;> cases gs <;> cases gb <;>
    first
      | (simp [literalValue] at h; done)
      | simp [appendValue]

theorem appendValues_literals (gs : List GrammarValue) :
    ∀ (f : Condition) (vs : List Value), gs.map literalValue = vs.map some →
      (∀ v ∈ vs, v.isBool = false) →
      appendValues f gs = ({ f with Values := f.Values ++ vs }, none) := by
  induction gs with
  | nil =>
    intro f vs h _
    cases vs with
    | nil => simp [appendValues]
    | cons v rest => simp at h
  | cons g rest ih =>
    intro f vs h hb
    cases vs with
    | nil => simp at h
    | cons v vrest =>
      simp only [List.map_cons, List.cons.injEq] at h
      have h1 := appendValue_literal f g v h.1 (hb v (List.mem_cons_self _ _))
      rw [appendValues, h1]
      simp only
      rw [ih _ vrest h.2 (fun w hw => hb w (List.mem_cons_of_mem _ hw))]
      simp

/-- The conditions that the loop of `convert` returns: the one at an index is
made from the node at that index, with the operator of `opFromCond` and the
values of `fillValue`. -/
theorem convertNodes_get (nodes : List ConditionGrammar) :
    ∀ (conds : List Condition), convertNodes nodes = .ok conds →
      ∀ (i : Nat) (n : ConditionGrammar) (c : Condition),
        nodes[i]? = some n → conds[i]? = some c →
        ∃ op, opFromCond n = .ok op
          ∧ c = (fillValue { Not := n.Not, Field := n.Symbol, Op := op, Values := [] } n).1 := by
  induction nodes with
  | nil => intro conds _ i n c hn; simp at hn
  | cons m rest ih =>
    intro conds h i n c hn hc
    rw [convertNodes] at h
    cases hop : opFromCond m with
    | panic msg => rw [hop] at h; cases h
    | error err => rw [hop] at h; cases h
    | ok op =>
      rw [hop] at h
      simp only at h
      cases hf : fillValue { Not := m.Not, Field := m.Symbol, Op := op, Values := [] } m with
      | mk c0 e =>
        rw [hf] at h
        cases e with
        | some err => cases h
        | none =>
          simp only at h
          cases hr : convertNodes rest with
          | panic msg => rw [hr] at h; cases h
          | error err => rw [hr] at h; cases h
          | ok cs =>
            rw [hr] at h
            simp only [Res.ok.injEq] at h
            subst h
            cases i with
            | zero =>
              simp only [List.getElem?_cons_zero, Option.some.injEq] at hn hc
              subst hn
              subst hc
              exact ⟨op, hop, by rw [hf]⟩
            | succ j =>
              simp only [List.getElem?_cons_succ] at hn hc
              exact ih cs hr j n c hn hc

theorem convert_get (e : Expression) (filter : Filter) (h : convert e = .ok filter)
    (i : Nat) (n : ConditionGrammar) (c : Condition)
    (hn : e.And[i]? = some n) (hc : filter.Conditions[i]? = some c) :
    ∃ op, opFromCond n = .ok op
      ∧ c = (fillValue { Not := n.Not, Field := n.Symbol, Op := op, Values := [] } n).1 := by
  unfold convert at h
  cases hr : convertNodes e.And with
  | panic msg => rw [hr] at h; cases h
  | error err => rw [hr] at h; cases h
  | ok cs =>
    rw [hr] at h
    simp only [Res.ok.injEq] at h
    subst h
    exact convertNodes_get e.And cs hr i n c hn hc

theorem fillValue_compare_literal (f : Condition) (n : ConditionGrammar) (cmp : Compare)
    (v : Value) (hin : n.In = none) (hcmp : n.Compare = some cmp)
    (h : literalValue cmp.Value = some v) (hf : f.Values = []) :
    (fillValue f n).1.Values = [v] := by
  unfold fillValue
  rw [hin, hcmp]
  simp only
  cases hb : v.isBool with
  | false =>
    have hnone : cmp.Value.Boolean = none := by
      obtain ⟨op, ⟨gi, gf, gs, gb⟩⟩ := cmp
      cases gi <;> cases gf <;> cases gs <;> cases gb <;>
        simp [literalValue] at h <;> subst h <;> simp [Value.isBool] at hb ⊢
    rw [hnone]
    simp only
    rw [appendValue_literal f cmp.Value v h hb]
    simp [hf]
  | true =>
    cases v with
    | bool b =>
      have hsome : cmp.Value.Boolean = some b := by
        obtain ⟨op, ⟨gi, gf, gs, gb⟩⟩ := cmp
        cases gi <;> cases gf <;> cases gs <;> cases gb <;> simp [literalValue] at h ⊢
        exact h
      rw [hsome]
    | int _ => simp [Value.isBool] at hb
    | float _ => simp [Value.isBool] at hb
    | str _ => simp [Value.isBool] at hb
    | other _ => simp [Value.isBool] at hb

theorem fillValue_in_literals (f : Condition) (n : ConditionGrammar) (node : In)
    (vs : List Value) (hin : n.In = some node)
    (h : node.Values.map literalValue = vs.map some) (hb : ∀ v ∈ vs, v.isBool = false)
    (hf : f.Values = []) :
    (fillValue f n).1.Values = vs := by
  unfold fillValue
  rw [hin]
  simp only
  rw [appendValues_literals node.Values f vs h hb]
  simp [hf]

theorem fillValue_between_literals (f : Condition) (n : ConditionGrammar) (node : Between)
    (a b : Value) (hin : n.In = none) (hcmp : n.Compare = none) (hbt : n.Between = some node)
    (ha : literalValue node.Start = some a) (hb : literalValue node.End = some b)
    (hab : a.isBool = false) (hbb : b.isBool = false) (hf : f.Values = []) :
    (fillValue f n).1.Values = [a, b] := by
  unfold fillValue
  rw [hin, hcmp, hbt]
  simp only
  rw [appendValue_literal f node.Start a ha hab]
  simp only
  rw [appendValue_literal _ node.End b hb hbb]
  simp [hf]

/-- The loop of `convert` returns no error: no statement of `fillValue` or
`appendValue` makes one. -/
theorem convertNodes_ne_error (nodes : List ConditionGrammar) :
    ∀ err, convertNodes nodes ≠ .error err := by
  induction nodes with
  | nil => intro err h; cases h
  | cons m rest ih =>
    intro err h
    rw [convertNodes] at h
    cases hop : opFromCond m with
    | panic msg => rw [hop] at h; cases h
    | error e2 =>
      unfold opFromCond at hop
      cases hin : m.In with
      | some node => rw [hin] at hop; cases hop
      | none =>
        rw [hin] at hop
        cases hcmp : m.Compare with
        | some cmp =>
          rw [hcmp] at hop
          simp only at hop
          cases hr : OperatorFromString cmp.Operator with
          | mk op ok =>
            rw [hr] at hop
            cases ok <;> cases hop
        | none =>
          rw [hcmp] at hop
          cases hbt : m.Between with
          | some node => rw [hbt] at hop; cases hop
          | none => rw [hbt] at hop; cases hop
    | ok op =>
      rw [hop] at h
      simp only at h
      have hnone := (fillValue_frame { Not := m.Not, Field := m.Symbol, Op := op, Values := [] } m).1
      cases hf : fillValue { Not := m.Not, Field := m.Symbol, Op := op, Values := [] } m with
      | mk c0 e =>
        rw [hf] at h hnone
        simp only at hnone
        subst hnone
        simp only at h
        cases hr : convertNodes rest with
        | panic msg => rw [hr] at h; cases h
        | error e3 => exact ih e3 hr
        | ok cs => rw [hr] at h; cases h

theorem convert_ne_error (e : Expression) : ∀ err, convert e ≠ .error err := by
  intro err h
  unfold convert at h
  cases hr : convertNodes e.And with
  | panic msg => rw [hr] at h; cases h
  | error e2 => exact convertNodes_ne_error e.And e2 hr
  | ok cs => rw [hr] at h; cases h

/-! ## Lemmas on the quoted strings -/

theorem matchClosing_append (q : Char) (body rest : List Char) (h : q ∉ body) :
    matchClosing q (body ++ q :: rest) = some (body.length + 1) := by
  induction body with
  | nil => simp [matchClosing]
  | cons c s ih =>
    have hc : c ≠ q := fun e => h (by simp [e])
    have hs : q ∉ s := fun e => h (by simp [e])
    simp [matchClosing, hc, ih hs]

theorem lexOne_quoted (q : Char) (body rest : List Char) (hq : q = '\'' ∨ q = '"')
    (h : q ∉ body) :
    lexOne (q :: (body ++ q :: rest)) = some (.String, body.length + 2) := by
  have hm := matchClosing_append q body rest h
  rcases hq with rfl | rfl
  · simp [lexOne, spanLength, isSpace, matchKeyword, matchWord, startsFold, foldMatches,
      isIdentStart, matchFloat, matchSign, isDigit, matchInt, matchString, hm, Option.orElse]
  · simp [lexOne, spanLength, isSpace, matchKeyword, matchWord, startsFold, foldMatches,
      isIdentStart, matchFloat, matchSign, isDigit, matchInt, matchString, hm, Option.orElse]

theorem makeToken_quoted (q : Char) (body rest : List Char) :
    makeToken .String ((q :: (body ++ q :: rest)).take (body.length + 2))
      = (unquoteFrom q .plain body).map fun v => ⟨.String, String.mk v⟩ := by
  have ht : (q :: (body ++ q :: rest)).take (body.length + 2) = q :: (body ++ [q]) := by
    rw [List.take_succ_cons]
    have : body ++ q :: rest = (body ++ [q]) ++ rest := by simp
    rw [this, List.take_append_of_le_length (by simp)]
    exact congrArg _ (List.take_of_length_le (by simp))
  rw [ht]
  simp [makeToken, unquote, Option.map_map, Function.comp_def]

theorem unquoteFrom_plain_of_no_backslash (q : Char) (body : List Char)
    (h : q ∉ body) (hb : '\\' ∉ body) : unquoteFrom q .plain body = some body := by
  induction body with
  | nil => simp [unquoteFrom]
  | cons c s ih =>
    have hc : c ≠ q := fun e => h (by simp [e])
    have hs : q ∉ s := fun e => h (by simp [e])
    have hc2 : c ≠ '\\' := fun e => hb (by simp [e])
    have hs2 : '\\' ∉ s := fun e => hb (by simp [e])
    simp [unquoteFrom, hc, hc2, ih hs hs2]

theorem ite_isSome_none {α β : Type} (p : Prop) [Decidable p] {a b : Option α}
    {c d : Option β} (ha : a.isSome → c = none) (hb : b.isSome → d = none) :
    (if p then a else b).isSome → (if p then c else d) = none := by
  split_ifs
  · exact ha
  · exact hb

/-- A text that ends in the backslash of an escape is no quoted text: when the
scan accepts `pre`, it rejects `pre` followed by one backslash. -/
theorem unquoteFrom_trailing_backslash (q : Char) (hq : q ≠ '\\') (pre : List Char) :
    ∀ st, (unquoteFrom q st pre).isSome → unquoteFrom q st (pre ++ ['\\']) = none := by
  induction pre with
  | nil =>
    intro st h
    cases st <;> simp [unquoteFrom] at h
    simp [unquoteFrom, hq.symm]
  | cons c s ih =>
    intro st
    rw [List.cons_append]
    have leaf : ∀ (f : List Char → List Char) st2,
        (Option.map f (unquoteFrom q st2 s)).isSome →
          Option.map f (unquoteFrom q st2 (s ++ ['\\'])) = none := by
      intro f st2 h
      rw [Option.isSome_map'] at h
      rw [ih _ h]
      rfl
    cases st with
    | plain =>
      rw [unquoteFrom, unquoteFrom]
      exact ite_isSome_none _ (fun h => rfl) (ite_isSome_none _ (ih _) (leaf _ _))
    | escape =>
      rw [unquoteFrom, unquoteFrom]
      repeat' first
        | apply ite_isSome_none
        | exact leaf _ _
        | exact ih _
        | exact fun _ => rfl
    | hex left acc byte =>
      cases left with
      | zero => intro _; rw [unquoteFrom]
      | succ left =>
        rw [unquoteFrom, unquoteFrom]
        cases hx : unhex c with
        | none => intro _; rfl
        | some x =>
          dsimp only
          repeat' first
            | apply ite_isSome_none
            | exact leaf _ _
            | exact ih _
            | exact fun _ => rfl
    | octal left acc =>
      cases left with
      | zero => intro _; rw [unquoteFrom]
      | succ left =>
        rw [unquoteFrom, unquoteFrom]
        repeat' first
          | apply ite_isSome_none
          | exact leaf _ _
          | exact ih _
          | exact fun _ => rfl

/-! ## Lemmas on the parser -/

theorem optWS_suffix (toks : List Token) : optWS toks <:+ toks := by
  cases toks with
  | nil => exact List.suffix_refl _
  | cons t rest =>
    rw [optWS]
    split_ifs
    · exact List.suffix_cons t rest
    · exact List.suffix_refl _

theorem parseSymbolMore_suffix (fuel : Nat) :
    ∀ toks more rest, parseSymbolMore fuel toks = .ok more rest → rest <:+ toks := by
  induction fuel with
  | zero => intro toks more rest h; simp [parseSymbolMore] at h
  | succ fuel ih =>
    intro toks more rest h
    match toks, h with
    | [], h =>
      simp only [parseSymbolMore, PResult.ok.injEq] at h
      rw [← h.2]
    | [_], h =>
      simp only [parseSymbolMore, PResult.ok.injEq] at h
      rw [← h.2]
    | dot :: ident :: tail, h =>
      simp only [parseSymbolMore] at h
      split_ifs at h
      · cases hr : parseSymbolMore fuel tail with
        | noMatch => rw [hr] at h; cases h
        | err r => rw [hr] at h; cases h
        | ok m r =>
          rw [hr] at h
          simp only [PResult.ok.injEq] at h
          obtain ⟨-, rfl⟩ := h
          exact ((ih tail m r hr).trans (List.suffix_cons ident tail)).trans
            (List.suffix_cons dot _)
      · simp only [PResult.ok.injEq] at h
        rw [← h.2]

/-- A disjunction gives the result of one of its alternatives when it gives a
value. -/
theorem disjunction_ok {α : Type} (start : List Token) (alts : List (PResult α)) :
    ∀ failed a rest, disjunction start alts failed = .ok a rest → .ok a rest ∈ alts := by
  induction alts with
  | nil =>
    intro failed a rest h
    unfold disjunction at h
    split_ifs at h
  | cons r alts ih =>
    intro failed a rest h
    cases r with
    | noMatch =>
      rw [disjunction] at h
      exact List.mem_cons_of_mem _ (ih _ a rest h)
    | ok a2 rest2 =>
      rw [disjunction] at h
      rw [← h]
      exact List.mem_cons_self _ _
    | err rest2 =>
      rw [disjunction] at h
      split_ifs at h
      exact List.mem_cons_of_mem _ (ih _ a rest h)

theorem PResult.map_ok {α β : Type} (f : α → β) (r : PResult α) (b : β) (rest : List Token)
    (h : r.map f = .ok b rest) : ∃ a, r = .ok a rest ∧ f a = b := by
  cases r with
  | noMatch => cases h
  | err r2 => cases h
  | ok a r2 =>
    simp only [PResult.map, PResult.ok.injEq] at h
    exact ⟨a, by rw [h.2], h.1⟩

/-- The alternative for `Compare` gives a value only at an `Operator` token,
after the optional white space. -/
theorem parseCompareAlt_ok (lit : Literals) (toks : List Token) (c : Compare)
    (rest : List Token) (h : parseCompareAlt lit toks = .ok c rest) :
    ∃ t tail, optWS toks = t :: tail ∧ t.Typ = .Operator := by
  unfold parseCompareAlt at h
  cases hw : optWS toks with
  | nil => rw [hw] at h; simp [parseCompare] at h
  | cons t tail =>
    refine ⟨t, tail, rfl, ?_⟩
    by_contra hne
    rw [hw] at h
    simp [parseCompare, hne] at h

/-- The alternative for `Between` gives a value only at a token that matches
the literal `:`, after the optional white space. -/
theorem parseBetweenAlt_ok (lit : Literals) (toks : List Token) (b : Between)
    (rest : List Token) (h : parseBetweenAlt lit toks = .ok b rest) :
    ∃ t tail, optWS toks = t :: tail ∧ litMatch ":" t = true := by
  unfold parseBetweenAlt at h
  cases hw : optWS toks with
  | nil => rw [hw] at h; simp [expectLit] at h
  | cons t tail =>
    refine ⟨t, tail, rfl, ?_⟩
    by_contra hne
    rw [hw] at h
    simp [expectLit, hne] at h

/-- The alternative for `In` gives a value only at a `WS` token. -/
theorem parseInAlt_ok (lit : Literals) (toks : List Token) (n : In)
    (rest : List Token) (h : parseInAlt lit toks = .ok n rest) :
    ∃ t tail, toks = t :: tail ∧ t.Typ = .WS := by
  cases toks with
  | nil => simp [parseInAlt] at h
  | cons t tail =>
    refine ⟨t, tail, rfl, ?_⟩
    by_contra hne
    simp [parseInAlt, hne] at h

/-- A condition needs a token that starts one of the three shapes. -/
theorem parseCondition_shapeless (lit : Literals) (toks : List Token)
    (hall : ∀ t ∈ toks, shapeless t = true) (c : ConditionGrammar) (rest : List Token) :
    parseCondition lit toks ≠ .ok c rest := by
  intro h
  unfold parseCondition at h
  simp only at h
  generalize hneg : (match toks with
    | t :: ws :: _ => litMatch "NOT" t && decide (ws.Typ = TokenType.WS)
    | _ => false) = negated at h
  have hsub : (if negated = true then toks.drop 2 else toks) <:+ toks := by
    split_ifs
    · exact List.drop_suffix 2 toks
    · exact List.suffix_refl _
  generalize (if negated = true then toks.drop 2 else toks) = toks1 at h hsub
  cases toks1 with
  | nil => cases h
  | cons ident tail =>
    simp only at h
    split_ifs at h
    cases hs : parseSymbolMore MaxIterations tail with
    | noMatch => rw [hs] at h; cases h
    | err r => rw [hs] at h; cases h
    | ok more rest2 =>
      rw [hs] at h
      simp only at h
      have hsuf : rest2 <:+ toks :=
        ((parseSymbolMore_suffix _ _ _ _ hs).trans (List.suffix_cons ident tail)).trans hsub
      have hall2 : ∀ t ∈ rest2, shapeless t = true := fun t ht => hall t (hsuf.subset ht)
      have hall3 : ∀ t ∈ optWS rest2, shapeless t = true :=
        fun t ht => hall2 t ((optWS_suffix rest2).subset ht)
      split at h
      · cases h
      · have hmem := disjunction_ok _ _ _ _ _ h
        simp only [List.mem_cons, List.mem_singleton, List.not_mem_nil, or_false] at hmem
        rcases hmem with hm | hm | hm
        · obtain ⟨a, ha, -⟩ := PResult.map_ok _ _ _ _ hm.symm
          obtain ⟨t, tl, ht, hty⟩ := parseCompareAlt_ok lit rest2 a rest ha
          have := hall3 t (by rw [ht]; exact List.mem_cons_self _ _)
          simp [shapeless, hty] at this
        · obtain ⟨a, ha, -⟩ := PResult.map_ok _ _ _ _ hm.symm
          obtain ⟨t, tl, ht, hty⟩ := parseBetweenAlt_ok lit rest2 a rest ha
          have := hall3 t (by rw [ht]; exact List.mem_cons_self _ _)
          simp [shapeless, hty] at this
        · obtain ⟨a, ha, -⟩ := PResult.map_ok _ _ _ _ hm.symm
          obtain ⟨t, tl, ht, hty⟩ := parseInAlt_ok lit rest2 a rest ha
          have := hall2 t (by rw [ht]; exact List.mem_cons_self _ _)
          simp [shapeless, hty] at this

/-- Tokens none of which starts a shape, when there is one, are no expression. -/
theorem parseConditions_shapeless (lit : Literals) (fuel : Nat) (toks : List Token)
    (hne : toks ≠ []) (hall : ∀ t ∈ toks, shapeless t = true) :
    ∀ cs, parseConditions lit fuel toks ≠ .ok cs [] := by
  intro cs h
  cases fuel with
  | zero => simp [parseConditions] at h
  | succ fuel =>
    rw [parseConditions] at h
    have hall2 : ∀ t ∈ optWS toks, shapeless t = true :=
      fun t ht => hall t ((optWS_suffix toks).subset ht)
    cases hc : parseCondition lit (optWS toks) with
    | ok c rest => exact parseCondition_shapeless lit _ hall2 c rest hc
    | noMatch =>
      rw [hc] at h
      simp only [PResult.ok.injEq] at h
      exact hne h.2
    | err rest =>
      rw [hc] at h
      simp only at h
      split_ifs at h
      simp only [PResult.ok.injEq] at h
      exact hne h.2

/-! ## Lemmas on the lexer -/

theorem spanLength_pos_head (p : Char → Bool) (c : Char) (s : List Char)
    (h : spanLength p (c :: s) > 0) : p c = true := by
  by_contra hp
  simp [spanLength, hp] at h

theorem matchString_head (c : Char) (s : List Char) (n : Nat)
    (h : matchString (c :: s) = some n) : c = '\'' ∨ c = '"' := by
  by_contra hc
  simp only [not_or] at hc
  simp [matchString, hc.1, hc.2] at h

theorem matchOperator_head (c : Char) (s : List Char) (n : Nat)
    (h : matchOperator (c :: s) = some n) :
    c = '!' ∨ c = '<' ∨ c = '>' ∨ c = ':' ∨ c = '=' := by
  by_contra hne
  simp only [not_or] at hne
  obtain ⟨h1, h2, h3, h4, h5⟩ := hne
  unfold matchOperator at h
  split at h
  · rename_i heq
    exact h1 (List.cons.inj heq).1
  · rename_i heq
    exact h2 (List.cons.inj heq).1
  · rename_i heq
    exact h3 (List.cons.inj heq).1
  · rename_i c2 s2 _ _ _ heq
    obtain ⟨rfl, -⟩ := List.cons.inj heq
    simp [h2, h3, h4, h5] at h
  · cases h

/-- The class of the token at the start of a text that starts with a character
of a field path is none of `WS`, `String`, `Operator`, and there is a token. -/
theorem lexOne_pathChar (c : Char) (s : List Char) (hc : pathChar c = true) :
    ∃ ty n, lexOne (c :: s) = some (ty, n)
      ∧ ty ≠ .WS ∧ ty ≠ .String ∧ ty ≠ .Operator := by
  have hspace : ¬ spanLength isSpace (c :: s) > 0 := by
    intro h
    have hs := spanLength_pos_head _ _ _ h
    simp only [isSpace, Bool.or_eq_true, decide_eq_true_eq] at hs
    rcases hs with (((rfl | rfl) | rfl) | rfl) | rfl <;> exact absurd hc (by decide)
  have hstr : matchString (c :: s) = none := by
    cases hm : matchString (c :: s) with
    | none => rfl
    | some n =>
      rcases matchString_head c s n hm with rfl | rfl <;> exact absurd hc (by decide)
  have hop : ∀ n, matchOperator (c :: s) ≠ some n := by
    intro n hm
    rcases matchOperator_head c s n hm with rfl | rfl | rfl | rfl | rfl <;>
      exact absurd hc (by decide)
  unfold lexOne
  rw [if_neg hspace]
  cases hk : matchKeyword (c :: s) with
  | some n => exact ⟨_, _, rfl, by decide, by decide, by decide⟩
  | none =>
    simp only
    by_cases hid : (c :: s).head?.any isIdentStart = true
    · rw [if_pos hid]
      exact ⟨_, _, rfl, by decide, by decide, by decide⟩
    rw [if_neg hid]
    cases hf : matchFloat (c :: s) with
    | some n => exact ⟨_, _, rfl, by decide, by decide, by decide⟩
    | none =>
      simp only
      cases hi : matchInt (c :: s) with
      | some n => exact ⟨_, _, rfl, by decide, by decide, by decide⟩
      | none =>
        simp only [hstr]
        by_cases hsep : (c :: s).head?.any (fun c => c = ',' || c = '.') = true
        · rw [if_pos hsep]
          exact ⟨_, _, rfl, by decide, by decide, by decide⟩
        exfalso
        have hdot : c ≠ '.' := by
          intro e
          simp [e] at hsep
        have hw : isWord c = true := by
          simpa [pathChar, hdot] using hc
        have hd : isDigit c = true := by
          simp only [List.head?_cons, Option.any_some] at hid
          simpa [isWord, hid] using hw
        have hsign : matchSign (c :: s) = 0 := by
          have h1 : c ≠ '-' := by rintro rfl; exact absurd hd (by decide)
          have h2 : c ≠ '+' := by rintro rfl; exact absurd hd (by decide)
          simp [matchSign, h1, h2]
        simp [matchInt, hsign, spanLength, hd] at hi

/-- A token made of characters of a field path does not match the literal `:`. -/
theorem litMatch_colon_pathChar (t : Token) (h : ∀ c ∈ t.Value.data, pathChar c = true) :
    litMatch ":" t = false := by
  have hcolon : pathChar ':' = false := by decide
  unfold litMatch
  split_ifs
  · cases hv : t.Value.data with
    | nil => simp [equalFold]
    | cons c rest =>
      have hcc := h c (by rw [hv]; exact List.mem_cons_self _ _)
      cases rest with
      | cons d rest2 => simp [equalFold]
      | nil =>
        have : foldMatches ':' c = false := by
          by_contra hf
          simp only [Bool.not_eq_false] at hf
          have hc2 : c = ':' := by
            simpa [foldMatches] using hf
          rw [hc2, hcolon] at hcc
          cases hcc
        simp [equalFold, this]
  · simp only [decide_eq_false_iff_not]
    intro hv
    have := h ':' (by rw [hv]; decide)
    rw [hcolon] at this
    cases this

/-- The lexer on the characters of a field path: it gives tokens, none of
which starts a shape. -/
theorem lexFrom_pathChars (s : List Char) (hs : ∀ c ∈ s, pathChar c = true) :
    ∀ skip, ∃ toks, lexFrom skip s = .ok toks ∧ (∀ t ∈ toks, shapeless t = true)
      ∧ (skip = 0 → s ≠ [] → toks ≠ []) := by
  induction s with
  | nil => intro skip; exact ⟨[], by cases skip <;> rfl, by simp, by simp⟩
  | cons c s ih =>
    have hs2 : ∀ d ∈ s, pathChar d = true := fun d hd => hs d (List.mem_cons_of_mem _ hd)
    intro skip
    cases skip with
    | succ skip =>
      obtain ⟨toks, h1, h2, -⟩ := ih hs2 skip
      exact ⟨toks, by rw [lexFrom]; exact h1, h2, by simp⟩
    | zero =>
      obtain ⟨ty, n, hl, hws, hstr, hop⟩ := lexOne_pathChar c s (hs c (List.mem_cons_self _ _))
      obtain ⟨toks, h1, h2, -⟩ := ih hs2 (n - 1)
      refine ⟨⟨ty, String.mk ((c :: s).take n)⟩ :: toks, ?_, ?_, by simp⟩
      · rw [lexFrom, hl]
        simp only [makeToken, if_neg hstr, h1]
      · intro t ht
        rcases List.mem_cons.1 ht with rfl | ht
        · have hval : ∀ d ∈ (String.mk ((c :: s).take n)).data, pathChar d = true :=
            fun d hd => hs d (List.mem_of_mem_take hd)
          simp [shapeless, hws, hop,
            litMatch_colon_pathChar ⟨ty, String.mk ((c :: s).take n)⟩ hval]
        · exact h2 t ht

/-- The parser on an input made of characters of a field path. -/
theorem ParseGrammar_pathChars (lit : Literals) (f : String) (hne : f ≠ "")
    (hchars : ∀ c ∈ f.data, pathChar c = true) :
    ParseGrammar lit f = .error (.errorf "unexpected token") := by
  obtain ⟨toks, h1, h2, h3⟩ := lexFrom_pathChars f.data hchars 0
  have hdata : f.data ≠ [] := fun e => hne (String.ext e)
  have hnil := h3 rfl hdata
  have hno := parseConditions_shapeless lit MaxIterations toks hnil h2
  unfold ParseGrammar lex
  rw [h1]
  simp only
  cases hp : parseConditions lit MaxIterations toks with
  | noMatch =>
    exfalso
    rw [parseConditions] at hp
    cases hc : parseCondition lit (optWS toks) with
    | noMatch => rw [hc] at hp; cases hp
    | err r => rw [hc] at hp; simp only at hp; split_ifs at hp
    | ok c r =>
      exact parseCondition_shapeless lit _
        (fun t ht => h2 t ((optWS_suffix toks).subset ht)) c r hc
  | err r => rfl
  | ok cs rest =>
    cases rest with
    | nil => exact absurd hp (hno cs)
    | cons t r => rfl

/-! ## Lemmas on the empty pair of parentheses -/

theorem emptyGroup_nil : ¬ emptyGroup [] := by
  intro h
  have := List.eq_nil_of_infix_nil h
  cases this

/-- Reading a token other than the opening parenthesis keeps the empty pair. -/
theorem emptyGroup_tail (t : Token) (rest : List Token) (h : emptyGroup (t :: rest))
    (ht : t ≠ openParen) : emptyGroup rest := by
  obtain ⟨pre, post, hp⟩ := h
  cases pre with
  | nil =>
    simp only [List.nil_append, List.cons_append, List.cons.injEq] at hp
    exact absurd hp.1.symm ht
  | cons a pre2 =>
    simp only [List.cons_append, List.cons.injEq] at hp
    exact ⟨pre2, post, by simpa using hp.2⟩

/-- After the opening parenthesis of an empty pair come the closing one or
another empty pair. -/
theorem emptyGroup_after_open (rest : List Token) (h : emptyGroup (openParen :: rest)) :
    emptyGroup rest ∨ rest.head? = some closeParen := by
  obtain ⟨pre, post, hp⟩ := h
  cases pre with
  | nil =>
    simp only [List.nil_append, List.cons_append, List.cons.injEq, true_and] at hp
    right
    rw [← hp]
    rfl
  | cons a pre2 =>
    simp only [List.cons_append, List.cons.injEq] at hp
    exact Or.inl ⟨pre2, post, by simpa using hp.2⟩

theorem optWS_emptyGroup (toks : List Token) (h : emptyGroup toks) :
    emptyGroup (optWS toks) := by
  cases toks with
  | nil => exact h
  | cons t rest =>
    rw [optWS]
    split_ifs with hw
    · exact emptyGroup_tail t rest h (by rintro rfl; cases hw)
    · exact h

theorem expectLit_emptyGroup (literal : String) (hl : literal ≠ "(") (toks rest : List Token)
    (h : emptyGroup toks) (he : expectLit literal toks = some rest) : emptyGroup rest := by
  cases toks with
  | nil => cases he
  | cons t tail =>
    rw [expectLit] at he
    split_ifs at he with hm
    simp only [Option.some.injEq] at he
    subst he
    refine emptyGroup_tail t _ h ?_
    rintro rfl
    simp only [litMatch, openParen] at hm
    rw [if_neg (by decide)] at hm
    simp only [decide_eq_true_eq] at hm
    exact hl hm.symm

/-- A value is read from one token, which is no parenthesis. -/
theorem parseValue_ok (lit : Literals) (toks : List Token) (v : GrammarValue)
    (rest : List Token) (h : parseValue lit toks = .ok v rest) :
    ∃ t, toks = t :: rest ∧ t ≠ openParen ∧ t ≠ closeParen := by
  cases toks with
  | nil => cases h
  | cons t tail =>
    rw [parseValue] at h
    have hrest : tail = rest ∧ t ≠ openParen ∧ t ≠ closeParen := by
      by_cases h1 : t.Typ = .Int
      · rw [if_pos h1] at h
        cases hp : lit.ParseInt t.Value with
        | none => rw [hp] at h; cases h
        | some i =>
          rw [hp] at h
          simp only [PResult.ok.injEq] at h
          exact ⟨h.2, (by rintro rfl; cases h1), (by rintro rfl; cases h1)⟩
      rw [if_neg h1] at h
      by_cases h2 : t.Typ = .Float
      · rw [if_pos h2] at h
        cases hp : lit.ParseFloat t.Value with
        | none => rw [hp] at h; cases h
        | some i =>
          rw [hp] at h
          simp only [PResult.ok.injEq] at h
          exact ⟨h.2, (by rintro rfl; cases h2), (by rintro rfl; cases h2)⟩
      rw [if_neg h2] at h
      by_cases h3 : t.Typ = .String
      · rw [if_pos h3] at h
        simp only [PResult.ok.injEq] at h
        exact ⟨h.2, (by rintro rfl; cases h3), (by rintro rfl; cases h3)⟩
      rw [if_neg h3] at h
      by_cases h4 : (litMatch "TRUE" t || litMatch "FALSE" t) = true
      · rw [if_pos h4] at h
        simp only [PResult.ok.injEq] at h
        exact ⟨h.2, (by rintro rfl; revert h4; decide), (by rintro rfl; revert h4; decide)⟩
      rw [if_neg h4] at h
      cases h
    exact ⟨t, by rw [hrest.1], hrest.2⟩

theorem parseValue_emptyGroup (lit : Literals) (toks : List Token) (v : GrammarValue)
    (rest : List Token) (hg : emptyGroup toks ∨ toks.head? = some closeParen)
    (h : parseValue lit toks = .ok v rest) : emptyGroup rest := by
  obtain ⟨t, rfl, h1, h2⟩ := parseValue_ok lit toks v rest h
  rcases hg with hg | hg
  · exact emptyGroup_tail t rest hg h1
  · simp only [List.head?_cons, Option.some.injEq] at hg
    exact absurd hg h2

theorem parseCompare_emptyGroup (lit : Literals) (toks : List Token) (c : Compare)
    (rest : List Token) (hg : emptyGroup toks)
    (h : parseCompare lit toks = .ok c rest) : emptyGroup rest := by
  cases toks with
  | nil => cases h
  | cons t tail =>
    rw [parseCompare] at h
    split_ifs at h with ht
    have hg2 : emptyGroup (optWS tail) :=
      optWS_emptyGroup _ (emptyGroup_tail t tail hg (by rintro rfl; cases ht))
    cases hv : parseValue lit (optWS tail) with
    | noMatch => rw [hv] at h; cases h
    | err r => rw [hv] at h; cases h
    | ok v r =>
      rw [hv] at h
      simp only [PResult.ok.injEq] at h
      rw [← h.2]
      exact optWS_emptyGroup _ (parseValue_emptyGroup lit _ v r (Or.inl hg2) hv)

theorem parseBetween_emptyGroup (lit : Literals) (toks : List Token) (b : Between)
    (rest : List Token) (hg : emptyGroup toks)
    (h : parseBetween lit toks = .ok b rest) : emptyGroup rest := by
  unfold parseBetween at h
  cases hv : parseValue lit toks with
  | noMatch => rw [hv] at h; cases h
  | err r => rw [hv] at h; cases h
  | ok v r =>
    rw [hv] at h
    simp only at h
    have hg2 := optWS_emptyGroup _ (parseValue_emptyGroup lit _ v r (Or.inl hg) hv)
    cases he : expectLit "," (optWS r) with
    | none => rw [he] at h; cases h
    | some r2 =>
      rw [he] at h
      simp only at h
      have hg3 := optWS_emptyGroup _ (expectLit_emptyGroup "," (by decide) _ _ hg2 he)
      cases hv2 : parseValue lit (optWS r2) with
      | noMatch => rw [hv2] at h; cases h
      | err r3 => rw [hv2] at h; cases h
      | ok v2 r3 =>
        rw [hv2] at h
        simp only [PResult.ok.injEq] at h
        rw [← h.2]
        exact parseValue_emptyGroup lit _ v2 r3 (Or.inl hg3) hv2

theorem parseInMore_emptyGroup (lit : Literals) (fuel : Nat) :
    ∀ (toks : List Token) (vs : List GrammarValue) (rest : List Token), emptyGroup toks →
      parseInMore lit fuel toks = .ok vs rest → emptyGroup rest := by
  induction fuel with
  | zero => intro toks vs rest _ h; cases h
  | succ fuel ih =>
    intro toks vs rest hg h
    rw [parseInMore] at h
    cases he : expectLit "," toks with
    | none =>
      rw [he] at h
      simp only [PResult.ok.injEq] at h
      rw [← h.2]
      exact hg
    | some r =>
      rw [he] at h
      simp only at h
      have hg2 := optWS_emptyGroup _ (expectLit_emptyGroup "," (by decide) _ _ hg he)
      cases hv : parseValue lit (optWS r) with
      | noMatch =>
        rw [hv] at h
        simp only at h
        split_ifs at h
        simp only [PResult.ok.injEq] at h
        rw [← h.2]
        exact hg
      | err r2 =>
        rw [hv] at h
        simp only at h
        split_ifs at h
        simp only [PResult.ok.injEq] at h
        rw [← h.2]
        exact hg
      | ok v r2 =>
        rw [hv] at h
        simp only at h
        have hg3 := optWS_emptyGroup _ (parseValue_emptyGroup lit _ v r2 (Or.inl hg2) hv)
        cases hm : parseInMore lit fuel (optWS r2) with
        | noMatch => rw [hm] at h; cases h
        | err r3 => rw [hm] at h; cases h
        | ok vs2 r3 =>
          rw [hm] at h
          simp only [PResult.ok.injEq] at h
          rw [← h.2]
          exact ih _ _ _ hg3 hm

theorem parseIn_emptyGroup (lit : Literals) (toks : List Token) (n : In)
    (rest : List Token) (hg : emptyGroup toks ∨ toks.head? = some closeParen)
    (h : parseIn lit toks = .ok n rest) : emptyGroup rest := by
  unfold parseIn at h
  cases hv : parseValue lit toks with
  | noMatch => rw [hv] at h; cases h
  | err r => rw [hv] at h; cases h
  | ok v r =>
    rw [hv] at h
    simp only at h
    have hg2 := optWS_emptyGroup _ (parseValue_emptyGroup lit _ v r hg hv)
    cases hm : parseInMore lit MaxIterations (optWS r) with
    | noMatch => rw [hm] at h; cases h
    | err r3 => rw [hm] at h; cases h
    | ok vs2 r3 =>
      rw [hm] at h
      simp only [PResult.ok.injEq] at h
      rw [← h.2]
      exact parseInMore_emptyGroup lit _ _ _ _ hg2 hm

theorem parseSymbolMore_emptyGroup (fuel : Nat) :
    ∀ (toks : List Token) (more : String) (rest : List Token), emptyGroup toks →
      parseSymbolMore fuel toks = .ok more rest → emptyGroup rest := by
  induction fuel with
  | zero => intro toks more rest _ h; cases h
  | succ fuel ih =>
    intro toks more rest hg h
    match toks, hg, h with
    | [], hg, h => exact absurd hg emptyGroup_nil
    | [_], hg, h =>
      simp only [parseSymbolMore, PResult.ok.injEq] at h
      rw [← h.2]
      exact hg
    | dot :: ident :: tail, hg, h =>
      simp only [parseSymbolMore] at h
      split_ifs at h with hc
      · simp only [Bool.and_eq_true, decide_eq_true_eq] at hc
        have hg2 : emptyGroup tail := by
          refine emptyGroup_tail ident tail (emptyGroup_tail dot _ hg ?_) ?_
          · rintro rfl
            exact absurd hc.1 (by decide)
          · rintro rfl
            exact absurd hc.2 (by decide)
        cases hr : parseSymbolMore fuel tail with
        | noMatch => rw [hr] at h; cases h
        | err r => rw [hr] at h; cases h
        | ok m r =>
          rw [hr] at h
          simp only [PResult.ok.injEq] at h
          rw [← h.2]
          exact ih _ _ _ hg2 hr
      · simp only [PResult.ok.injEq] at h
        rw [← h.2]
        exact hg

theorem parseCompareAlt_emptyGroup (lit : Literals) (toks : List Token) (c : Compare)
    (rest : List Token) (hg : emptyGroup toks)
    (h : parseCompareAlt lit toks = .ok c rest) : emptyGroup rest := by
  unfold parseCompareAlt at h
  cases hc : parseCompare lit (optWS toks) with
  | noMatch => rw [hc] at h; cases h
  | err r => rw [hc] at h; cases h
  | ok c2 r =>
    rw [hc] at h
    simp only [PResult.ok.injEq] at h
    rw [← h.2]
    exact parseCompare_emptyGroup lit _ c2 r (optWS_emptyGroup _ hg) hc

theorem parseBetweenAlt_emptyGroup (lit : Literals) (toks : List Token) (b : Between)
    (rest : List Token) (hg : emptyGroup toks)
    (h : parseBetweenAlt lit toks = .ok b rest) : emptyGroup rest := by
  unfold parseBetweenAlt at h
  cases h1 : expectLit ":" (optWS toks) with
  | none => rw [h1] at h; cases h
  | some r1 =>
    rw [h1] at h
    simp only at h
    have hg1 := optWS_emptyGroup _
      (expectLit_emptyGroup ":" (by decide) _ _ (optWS_emptyGroup _ hg) h1)
    cases h2 : expectLit "[" (optWS r1) with
    | none => rw [h2] at h; cases h
    | some r2 =>
      rw [h2] at h
      simp only at h
      have hg2 := optWS_emptyGroup _ (expectLit_emptyGroup "[" (by decide) _ _ hg1 h2)
      cases h3 : parseBetween lit (optWS r2) with
      | noMatch => rw [h3] at h; cases h
      | err r3 => rw [h3] at h; cases h
      | ok node r3 =>
        rw [h3] at h
        simp only at h
        have hg3 := optWS_emptyGroup _ (parseBetween_emptyGroup lit _ node r3 hg2 h3)
        cases h4 : expectLit "]" (optWS r3) with
        | none => rw [h4] at h; cases h
        | some r4 =>
          rw [h4] at h
          simp only [PResult.ok.injEq] at h
          rw [← h.2]
          exact expectLit_emptyGroup "]" (by decide) _ _ hg3 h4

/-- The alternative for `In` keeps an empty pair of parentheses ahead: the
opening parenthesis it reads is followed by a value. -/
theorem parseInAlt_emptyGroup (lit : Literals) (toks : List Token) (n : In)
    (rest : List Token) (hg : emptyGroup toks)
    (h : parseInAlt lit toks = .ok n rest) : emptyGroup rest := by
  cases toks with
  | nil => cases h
  | cons ws tail =>
    rw [parseInAlt] at h
    split_ifs at h with hw
    have hg0 : emptyGroup tail := emptyGroup_tail ws tail hg (by rintro rfl; cases hw)
    cases h1 : expectLit "IN" tail with
    | none => rw [h1] at h; cases h
    | some r1 =>
      rw [h1] at h
      simp only at h
      have hg1 := optWS_emptyGroup _ (expectLit_emptyGroup "IN" (by decide) _ _ hg0 h1)
      cases h2 : expectLit "(" (optWS r1) with
      | none => rw [h2] at h; cases h
      | some r2 =>
        rw [h2] at h
        simp only at h
        have hg2 : emptyGroup r2 ∨ r2.head? = some closeParen := by
          cases hr : optWS r1 with
          | nil => rw [hr] at h2; cases h2
          | cons t tl =>
            rw [hr] at h2 hg1
            rw [expectLit] at h2
            split_ifs at h2
            simp only [Option.some.injEq] at h2
            subst h2
            by_cases ht : t = openParen
            · subst ht
              exact emptyGroup_after_open _ hg1
            · exact Or.inl (emptyGroup_tail t _ hg1 ht)
        have hg3 : emptyGroup (optWS r2) ∨ (optWS r2).head? = some closeParen := by
          rcases hg2 with hg2 | hg2
          · exact Or.inl (optWS_emptyGroup _ hg2)
          · right
            cases r2 with
            | nil => cases hg2
            | cons t tl =>
              simp only [List.head?_cons, Option.some.injEq] at hg2
              subst hg2
              rfl
        cases h3 : parseIn lit (optWS r2) with
        | noMatch => rw [h3] at h; cases h
        | err r3 => rw [h3] at h; cases h
        | ok node r3 =>
          rw [h3] at h
          simp only at h
          have hg4 := parseIn_emptyGroup lit _ node r3 hg3 h3
          cases h4 : expectLit ")" r3 with
          | none => rw [h4] at h; cases h
          | some r4 =>
            rw [h4] at h
            simp only [PResult.ok.injEq] at h
            rw [← h.2]
            exact expectLit_emptyGroup ")" (by decide) _ _ hg4 h4

theorem parseCondition_emptyGroup (lit : Literals) (toks : List Token)
    (c : ConditionGrammar) (rest : List Token) (hg : emptyGroup toks)
    (h : parseCondition lit toks = .ok c rest) : emptyGroup rest := by
  unfold parseCondition at h
  simp only at h
  generalize hneg : (match toks with
    | t :: ws :: _ => litMatch "NOT" t && decide (ws.Typ = TokenType.WS)
    | _ => false) = negated at h
  have hg1 : emptyGroup (if negated = true then toks.drop 2 else toks) := by
    split_ifs with hn
    · subst hneg
      match toks, hg, hn with
      | [], hg, _ => exact hg
      | [_], _, hn => cases hn
      | t :: ws :: tl, hg, hn =>
        simp only [Bool.and_eq_true, decide_eq_true_eq] at hn
        refine emptyGroup_tail ws tl (emptyGroup_tail t _ hg ?_) ?_
        · rintro rfl
          exact absurd hn.1 (by decide)
        · rintro rfl
          exact absurd hn.2 (by decide)
    · exact hg
  generalize (if negated = true then toks.drop 2 else toks) = toks1 at h hg1
  cases toks1 with
  | nil => cases h
  | cons ident tail =>
    simp only at h
    split_ifs at h with hid
    have hg2 : emptyGroup tail := emptyGroup_tail ident tail hg1 (by rintro rfl; cases hid)
    cases hs : parseSymbolMore MaxIterations tail with
    | noMatch => rw [hs] at h; cases h
    | err r => rw [hs] at h; cases h
    | ok more rest2 =>
      rw [hs] at h
      simp only at h
      have hg3 := parseSymbolMore_emptyGroup _ _ _ _ hg2 hs
      split at h
      · cases h
      · have hmem := disjunction_ok _ _ _ _ _ h
        simp only [List.mem_cons, List.mem_singleton, List.not_mem_nil, or_false] at hmem
        rcases hmem with hm | hm | hm
        · obtain ⟨a, ha, -⟩ := PResult.map_ok _ _ _ _ hm.symm
          exact parseCompareAlt_emptyGroup lit rest2 a rest hg3 ha
        · obtain ⟨a, ha, -⟩ := PResult.map_ok _ _ _ _ hm.symm
          exact parseBetweenAlt_emptyGroup lit rest2 a rest hg3 ha
        · obtain ⟨a, ha, -⟩ := PResult.map_ok _ _ _ _ hm.symm
          exact parseInAlt_emptyGroup lit rest2 a rest hg3 ha

theorem parseConditions_emptyGroup (lit : Literals) (fuel : Nat) :
    ∀ (toks : List Token) (cs : List ConditionGrammar) (rest : List Token), emptyGroup toks →
      parseConditions lit fuel toks = .ok cs rest → emptyGroup rest := by
  induction fuel with
  | zero => intro toks cs rest _ h; cases h
  | succ fuel ih =>
    intro toks cs rest hg h
    rw [parseConditions] at h
    cases hc : parseCondition lit (optWS toks) with
    | noMatch =>
      rw [hc] at h
      simp only [PResult.ok.injEq] at h
      rw [← h.2]
      exact hg
    | err r =>
      rw [hc] at h
      simp only at h
      split_ifs at h
      simp only [PResult.ok.injEq] at h
      rw [← h.2]
      exact hg
    | ok c r =>
      rw [hc] at h
      simp only at h
      have hg2 := parseCondition_emptyGroup lit _ c r (optWS_emptyGroup _ hg) hc
      cases hm : parseConditions lit fuel r with
      | noMatch => rw [hm] at h; cases h
      | err r3 => rw [hm] at h; cases h
      | ok cs2 r3 =>
        rw [hm] at h
        simp only [PResult.ok.injEq] at h
        rw [← h.2]
        exact ih _ _ _ hg2 hm

/-- Tokens with an empty pair of parentheses are no expression. -/
theorem ParseGrammar_emptyGroup (lit : Literals) (input : String) (toks : List Token)
    (hl : lex input = .ok toks) (hg : emptyGroup toks) :
    ∃ msg, ParseGrammar lit input = .error (.errorf msg) := by
  unfold ParseGrammar
  rw [hl]
  simp only
  cases hp : parseConditions lit MaxIterations toks with
  | noMatch => exact ⟨_, rfl⟩
  | err r => exact ⟨_, rfl⟩
  | ok cs rest =>
    cases rest with
    | nil => exact absurd (parseConditions_emptyGroup lit _ _ _ _ hg hp) emptyGroup_nil
    | cons t r => exact ⟨_, rfl⟩

/-! ## Lemmas on the lexer before an opening parenthesis -/

theorem spanLength_append_le (p : Char → Bool) (d : Char) (hd : p d = false)
    (s rest : List Char) : spanLength p (s ++ d :: rest) ≤ s.length := by
  induction s with
  | nil => simp [spanLength, hd]
  | cons c s ih =>
    rw [List.cons_append, spanLength]
    split_ifs
    · simpa using ih
    · exact Nat.zero_le _

theorem startsFold_append_le (d : Char) (rest : List Char) :
    ∀ (word s : List Char), (∀ l ∈ word, foldMatches l d = false) →
      startsFold word (s ++ d :: rest) = true → word.length ≤ s.length := by
  intro word
  induction word with
  | nil => intro s _ _; exact Nat.zero_le _
  | cons l word ih =>
    intro s hw h
    cases s with
    | nil =>
      simp only [List.nil_append, startsFold, Bool.and_eq_true] at h
      rw [hw l (List.mem_cons_self _ _)] at h
      cases h.1
    | cons c s =>
      simp only [List.cons_append, startsFold, Bool.and_eq_true] at h
      have := ih s (fun l2 hl2 => hw l2 (List.mem_cons_of_mem _ hl2)) h.2
      simpa using this

theorem matchWord_some (word s : List Char) (n : Nat) (h : matchWord word s = some n) :
    n = word.length ∧ startsFold word s = true := by
  unfold matchWord at h
  split_ifs at h with hc
  simp only [Bool.and_eq_true] at hc
  simp only [Option.some.injEq] at h
  exact ⟨h.symm, hc.1⟩

theorem matchKeyword_append_le (s rest : List Char) (n : Nat)
    (h : matchKeyword (s ++ '(' :: rest) = some n) : n ≤ s.length := by
  have key : ∀ word : List Char, (∀ l ∈ word, foldMatches l '(' = false) →
      matchWord word (s ++ '(' :: rest) = some n → n ≤ s.length := by
    intro word hw hm
    obtain ⟨rfl, hs⟩ := matchWord_some _ _ _ hm
    exact startsFold_append_le '(' rest word s hw hs
  unfold matchKeyword at h
  cases h1 : matchWord "NOT".data (s ++ '(' :: rest) with
  | some m =>
    rw [h1] at h
    simp only [Option.orElse, Option.some.injEq] at h
    subst h
    exact key _ (by decide) h1
  | none =>
    rw [h1] at h
    simp only [Option.orElse] at h
    cases h2 : matchWord "IN".data (s ++ '(' :: rest) with
    | some m =>
      rw [h2] at h
      simp only [Option.some.injEq] at h
      subst h
      exact key _ (by decide) h2
    | none =>
      rw [h2] at h
      simp only at h
      cases h3 : matchWord "TRUE".data (s ++ '(' :: rest) with
      | some m =>
        rw [h3] at h
        simp only [Option.some.injEq] at h
        subst h
        exact key _ (by decide) h3
      | none =>
        rw [h3] at h
        simp only at h
        exact key _ (by decide) h

theorem matchExponent_append_le (s rest : List Char) :
    matchExponent (s ++ '(' :: rest) ≤ s.length := by
  have hd : isDigit '(' = false := by decide
  match s with
  | [] =>
    simp [matchExponent]
  | [e] =>
    simp only [List.cons_append, List.nil_append, matchExponent]
    split_ifs <;> simp_all [spanLength]
  | e :: c :: s2 =>
    simp only [List.cons_append, matchExponent]
    have h1 := spanLength_append_le isDigit '(' hd s2 rest
    have h2 := spanLength_append_le isDigit '(' hd (c :: s2) rest
    simp only [List.cons_append, List.length_cons] at h2
    split_ifs <;> simp only [List.length_cons] <;> omega

theorem matchSign_le_one (s : List Char) : matchSign s ≤ 1 := by
  cases s with
  | nil => simp [matchSign]
  | cons c s => rw [matchSign]; split_ifs <;> simp

theorem matchFloat_append_le (s rest : List Char) (n : Nat) (hs : s ≠ [])
    (h : matchFloat (s ++ '(' :: rest) = some n) : n ≤ s.length := by
  have hd : isDigit '(' = false := by decide
  have hk : matchSign (s ++ '(' :: rest) ≤ s.length := by
    have := matchSign_le_one (s ++ '(' :: rest)
    have : 1 ≤ s.length := List.length_pos.2 hs
    omega
  unfold matchFloat at h
  simp only at h
  generalize matchSign (s ++ '(' :: rest) = k at h hk
  rw [List.drop_append_of_le_length hk] at h
  have hw := spanLength_append_le isDigit '(' hd (s.drop k) rest
  generalize spanLength isDigit (s.drop k ++ '(' :: rest) = whole at h hw
  rw [List.drop_append_of_le_length hw] at h
  have hlen1 : (s.drop k).length = s.length - k := List.length_drop k s
  have hlen2 : ((s.drop k).drop whole).length = (s.drop k).length - whole :=
    List.length_drop whole _
  cases h2 : (s.drop k).drop whole with
  | nil =>
    rw [h2] at h
    simp at h
  | cons c s3 =>
    rw [h2] at h hlen2
    simp only [List.cons_append] at h
    split at h
    · rename_i tl heq
      obtain ⟨-, rfl⟩ := List.cons.inj heq
      have hf := spanLength_append_le isDigit '(' hd s3 rest
      generalize spanLength isDigit (s3 ++ '(' :: rest) = frac at h hf
      split_ifs at h
      rw [List.drop_append_of_le_length hf] at h
      have he := matchExponent_append_le (s3.drop frac) rest
      have hlen3 : (s3.drop frac).length = s3.length - frac := List.length_drop frac s3
      simp only [Option.some.injEq] at h
      simp only [List.length_cons] at hlen2
      omega
    · cases h

theorem matchInt_append_le (s rest : List Char) (n : Nat) (hs : s ≠ [])
    (h : matchInt (s ++ '(' :: rest) = some n) : n ≤ s.length := by
  have hd : isDigit '(' = false := by decide
  have hk : matchSign (s ++ '(' :: rest) ≤ s.length := by
    have := matchSign_le_one (s ++ '(' :: rest)
    have : 1 ≤ s.length := List.length_pos.2 hs
    omega
  unfold matchInt at h
  simp only at h
  generalize matchSign (s ++ '(' :: rest) = k at h hk
  rw [List.drop_append_of_le_length hk] at h
  have hw := spanLength_append_le isDigit '(' hd (s.drop k) rest
  generalize spanLength isDigit (s.drop k ++ '(' :: rest) = whole at h hw
  rw [List.drop_append_of_le_length hw] at h
  have hlen1 : (s.drop k).length = s.length - k := List.length_drop k s
  have hlen2 : ((s.drop k).drop whole).length = (s.drop k).length - whole :=
    List.length_drop whole _
  have he := matchExponent_append_le ((s.drop k).drop whole) rest
  split_ifs at h
  simp only [Option.some.injEq] at h
  omega

theorem matchClosing_append_le (q : Char) (s rest : List Char) (hq : q ∉ rest) :
    ∀ n, matchClosing q (s ++ rest) = some n → n ≤ s.length := by
  induction s with
  | nil =>
    intro n h
    exfalso
    simp only [List.nil_append] at h
    induction rest generalizing n with
    | nil => cases h
    | cons c r ih =>
      rw [matchClosing] at h
      have hc : c ≠ q := fun e => hq (by simp [e])
      rw [if_neg hc] at h
      cases hm : matchClosing q r with
      | none => rw [hm] at h; cases h
      | some m => exact ih (fun hr => hq (List.mem_cons_of_mem _ hr)) m hm
  | cons c s ih =>
    intro n h
    rw [List.cons_append, matchClosing] at h
    split_ifs at h
    · simp only [Option.some.injEq] at h
      subst h
      simp
    · cases hm : matchClosing q (s ++ rest) with
      | none => rw [hm] at h; cases h
      | some m =>
        rw [hm] at h
        simp only [Option.map_some', Option.some.injEq] at h
        subst h
        have := ih m hm
        simpa using this

theorem matchString_append_le (s : List Char) (n : Nat)
    (h : matchString (s ++ ['(', ')']) = some n) : n ≤ s.length := by
  cases s with
  | nil => simp [matchString] at h
  | cons c s =>
    rw [List.cons_append, matchString] at h
    split_ifs at h with hc
    cases hm : matchClosing c (s ++ ['(', ')']) with
    | none => rw [hm] at h; cases h
    | some m =>
      rw [hm] at h
      simp only [Option.map_some', Option.some.injEq] at h
      subst h
      have hq : c ∉ ['(', ')'] := by
        simp only [Bool.or_eq_true, decide_eq_true_eq] at hc
        rcases hc with rfl | rfl <;> decide
      have := matchClosing_append_le c s _ hq m hm
      simpa using this

theorem matchOperator_append_le (s rest : List Char) (n : Nat) (hs : s ≠ [])
    (h : matchOperator (s ++ '(' :: rest) = some n) : n ≤ s.length := by
  match s, hs with
  | [c], _ =>
    simp only [List.cons_append, List.nil_append] at h
    unfold matchOperator at h
    split at h
    · rename_i heq
      simp at heq
    · rename_i heq
      simp at heq
    · rename_i heq
      simp at heq
    · split_ifs at h
      simp only [Option.some.injEq] at h
      subst h
      simp
    · cases h
  | c :: d :: s2, _ =>
    simp only [List.cons_append] at h
    unfold matchOperator at h
    split at h
    · simp only [Option.some.injEq] at h
      subst h
      simp
    · simp only [Option.some.injEq] at h
      subst h
      simp
    · simp only [Option.some.injEq] at h
      subst h
      simp
    · split_ifs at h
      simp only [Option.some.injEq] at h
      subst h
      simp
    · cases h

/-- A token that starts before an opening parenthesis ends before it. -/
theorem lexOne_append_le (s : List Char) (ty : TokenType) (n : Nat) (hs : s ≠ [])
    (h : lexOne (s ++ ['(', ')']) = some (ty, n)) : n ≤ s.length := by
  have hpos : 1 ≤ s.length := List.length_pos.2 hs
  unfold lexOne at h
  by_cases h1 : spanLength isSpace (s ++ ['(', ')']) > 0
  · rw [if_pos h1] at h
    simp only [Option.some.injEq, Prod.mk.injEq] at h
    rw [← h.2]
    exact spanLength_append_le isSpace '(' (by decide) s _
  rw [if_neg h1] at h
  cases hk : matchKeyword (s ++ ['(', ')']) with
  | some m =>
    rw [hk] at h
    simp only [Option.some.injEq, Prod.mk.injEq] at h
    rw [← h.2]
    exact matchKeyword_append_le s _ m hk
  | none =>
    rw [hk] at h
    simp only at h
    by_cases h2 : (s ++ ['(', ')']).head?.any isIdentStart = true
    · rw [if_pos h2] at h
      simp only [Option.some.injEq, Prod.mk.injEq] at h
      rw [← h.2]
      exact spanLength_append_le isWord '(' (by decide) s _
    rw [if_neg h2] at h
    cases hf : matchFloat (s ++ ['(', ')']) with
    | some m =>
      rw [hf] at h
      simp only [Option.some.injEq, Prod.mk.injEq] at h
      rw [← h.2]
      exact matchFloat_append_le s _ m hs hf
    | none =>
      rw [hf] at h
      simp only at h
      cases hi : matchInt (s ++ ['(', ')']) with
      | some m =>
        rw [hi] at h
        simp only [Option.some.injEq, Prod.mk.injEq] at h
        rw [← h.2]
        exact matchInt_append_le s _ m hs hi
      | none =>
        rw [hi] at h
        simp only at h
        cases hst : matchString (s ++ ['(', ')']) with
        | some m =>
          rw [hst] at h
          simp only [Option.some.injEq, Prod.mk.injEq] at h
          rw [← h.2]
          exact matchString_append_le s m hst
        | none =>
          rw [hst] at h
          simp only at h
          by_cases h3 : (s ++ ['(', ')']).head?.any (fun c => c = ',' || c = '.') = true
          · rw [if_pos h3] at h
            simp only [Option.some.injEq, Prod.mk.injEq] at h
            rw [← h.2]
            exact hpos
          rw [if_neg h3] at h
          by_cases h4 : (s ++ ['(', ')']).head?.any
              (fun c => c = '[' || c = ']' || c = '(' || c = ')') = true
          · rw [if_pos h4] at h
            simp only [Option.some.injEq, Prod.mk.injEq] at h
            rw [← h.2]
            exact hpos
          rw [if_neg h4] at h
          cases ho : matchOperator (s ++ ['(', ')']) with
          | none => rw [ho] at h; cases h
          | some m =>
            rw [ho] at h
            simp only [Option.map_some', Option.some.injEq, Prod.mk.injEq] at h
            rw [← h.2]
            exact matchOperator_append_le s _ m hs ho

/-- The tokens of a text that ends in `()` end in the two parentheses, when
the lexer accepts the text. -/
theorem lexFrom_emptyGroup (s : List Char) :
    ∀ skip toks, skip ≤ s.length → lexFrom skip (s ++ ['(', ')']) = .ok toks →
      emptyGroup toks := by
  induction s with
  | nil =>
    intro skip toks hk h
    have : skip = 0 := by simpa using hk
    subst this
    have hl : lexFrom 0 ([] ++ ['(', ')']) = .ok [openParen, closeParen] := rfl
    rw [hl] at h
    simp only [Except.ok.injEq] at h
    rw [← h]
    exact List.infix_refl _
  | cons c s ih =>
    intro skip toks hk h
    cases skip with
    | succ skip =>
      rw [List.cons_append, lexFrom] at h
      exact ih skip toks (by simpa using hk) h
    | zero =>
      rw [List.cons_append, lexFrom] at h
      cases hl : lexOne (c :: (s ++ ['(', ')'])) with
      | none => rw [hl] at h; cases h
      | some r =>
        obtain ⟨ty, n⟩ := r
        rw [hl] at h
        simp only at h
        have hn := lexOne_append_le (c :: s) ty n (by simp) hl
        cases hm : makeToken ty ((c :: (s ++ ['(', ')'])).take n) with
        | none => rw [hm] at h; cases h
        | some tok =>
          rw [hm] at h
          simp only at h
          cases hr : lexFrom (n - 1) (s ++ ['(', ')']) with
          | error e => rw [hr] at h; cases h
          | ok toks2 =>
            rw [hr] at h
            simp only [Except.ok.injEq] at h
            rw [← h]
            have hg := ih (n - 1) toks2 (by simp only [List.length_cons] at hn; omega) hr
            obtain ⟨pre, post, hp⟩ := hg
            exact ⟨tok :: pre, post, by simp [← hp]⟩

/-- An input that ends in `()` is no expression: the lexer or the parser
fails on it. -/
theorem ParseGrammar_ends_emptyGroup (lit : Literals) (s : String) :
    ∃ err, ParseGrammar lit (s ++ "()") = .error err := by
  cases hl : lex (s ++ "()") with
  | error e =>
    refine ⟨e, ?_⟩
    unfold ParseGrammar
    rw [hl]
  | ok toks =>
    have hg : emptyGroup toks := by
      refine lexFrom_emptyGroup s.data 0 toks (Nat.zero_le _) ?_
      have hd : (s ++ "()").data = s.data ++ ['(', ')'] := by
        rw [String.data_append]
      rw [← hd]
      exact hl
    obtain ⟨msg, hm⟩ := ParseGrammar_emptyGroup lit _ toks hl hg
    exact ⟨_, hm⟩

/-! ## Lemmas on the conditions with a colon -/

theorem parseValue_tokenLiteral (lit : Literals) (t : Token) (v : Value) (rest : List Token)
    (h : tokenLiteral lit t = some v) :
    ∃ g, parseValue lit (t :: rest) = .ok g rest ∧ literalValue g = some v
      ∧ v.isBool = false ∧ t.Typ ≠ .WS := by
  unfold tokenLiteral at h
  rw [parseValue]
  by_cases h1 : t.Typ = .Int
  · rw [if_pos h1] at h ⊢
    cases hp : lit.ParseInt t.Value with
    | none => rw [hp] at h; cases h
    | some i =>
      rw [hp] at h
      simp only [Option.map_some', Option.some.injEq] at h
      subst h
      exact ⟨_, rfl, rfl, rfl, by rw [h1]; decide⟩
  rw [if_neg h1] at h ⊢
  by_cases h2 : t.Typ = .Float
  · rw [if_pos h2] at h ⊢
    cases hp : lit.ParseFloat t.Value with
    | none => rw [hp] at h; cases h
    | some x =>
      rw [hp] at h
      simp only [Option.map_some', Option.some.injEq] at h
      subst h
      exact ⟨_, rfl, rfl, rfl, by rw [h2]; decide⟩
  rw [if_neg h2] at h ⊢
  by_cases h3 : t.Typ = .String
  · rw [if_pos h3] at h ⊢
    simp only [Option.some.injEq] at h
    subst h
    exact ⟨_, rfl, rfl, rfl, by rw [h3]; decide⟩
  rw [if_neg h3] at h
  cases h

theorem parseSymbolMore_moreTokens (more : List String) :
    ∀ (fuel : Nat) (rest : List Token), more.length < fuel →
      (∀ t ∈ rest.head?, litMatch "." t = false) →
      parseSymbolMore fuel (moreTokens more ++ rest) = .ok (moreText more) rest := by
  induction more with
  | nil =>
    intro fuel rest hf hr
    cases fuel with
    | zero => cases hf
    | succ fuel =>
      match rest, hr with
      | [], _ => rfl
      | [_], _ => rfl
      | dot :: ident :: tail, hr =>
        have : litMatch "." dot = false := hr dot (by simp)
        simp [moreTokens, parseSymbolMore, this, moreText]
  | cons seg more ih =>
    intro fuel rest hf hr
    cases fuel with
    | zero => cases hf
    | succ fuel =>
      have hlen : more.length < fuel := by simpa using hf
      have hdot : litMatch "." ⟨.Separator, "."⟩ = true := by decide
      simp only [moreTokens, List.cons_append, parseSymbolMore, hdot, Bool.true_and,
        decide_True, if_true, ih fuel rest hlen hr, moreText]

/-- A condition on a field path followed by the colon: the path is read as the
field name, without negation, and the three shapes are tried at the colon. -/
theorem parseCondition_path_colon (lit : Literals) (first : String) (more : List String)
    (tail : List Token) (hlen : more.length < MaxIterations) :
    parseCondition lit (pathTokens first more ++ colonToken :: tail)
      = match disjunction (colonToken :: tail)
            [(parseCompareAlt lit (colonToken :: tail)).map fun c =>
                (⟨false, pathText first more, some c, none, none⟩ : ConditionGrammar),
              (parseBetweenAlt lit (colonToken :: tail)).map fun b =>
                (⟨false, pathText first more, none, some b, none⟩ : ConditionGrammar),
              (parseInAlt lit (colonToken :: tail)).map fun n =>
                (⟨false, pathText first more, none, none, some n⟩ : ConditionGrammar)]
            false with
        | .noMatch => .err (colonToken :: tail)
        | r => r := by
  have hsym := parseSymbolMore_moreTokens more MaxIterations (colonToken :: tail) hlen
    (by intro t ht; simp only [List.head?_cons, Option.mem_def, Option.some.injEq] at ht
        subst ht; decide)
  unfold parseCondition
  cases more with
  | nil =>
    simp only [moreTokens, List.nil_append, colonToken] at hsym
    simp [pathTokens, moreTokens, colonToken, hsym, pathText, moreText]
  | cons seg more =>
    simp only [moreTokens, List.cons_append, colonToken] at hsym
    simp [pathTokens, moreTokens, colonToken, hsym, pathText]

theorem parseConditions_single (lit : Literals) (fuel : Nat) (toks : List Token)
    (c : ConditionGrammar) (h : parseCondition lit (optWS toks) = .ok c []) :
    parseConditions lit (fuel + 2) toks = .ok [c] [] := by
  rw [parseConditions, h]
  simp [parseConditions, parseCondition, optWS, stop]

/-- The conversion of one `Compare` node with the colon and a literal that is
no boolean. -/
theorem convert_colon_compare (sym : String) (g : GrammarValue) (v : Value)
    (hv : literalValue g = some v) (hb : v.isBool = false) :
    convert ⟨[⟨false, sym, some ⟨":", g⟩, none, none⟩]⟩
      = .ok ⟨[⟨sym, false, OpContains, [v]⟩]⟩ := by
  have hop : OperatorFromString ":" = (OpContains, true) := by decide
  obtain ⟨gi, gf, gs, gb⟩ := g
  cases gi <;> cases gf <;> cases gs <;> cases gb <;>
    simp only [literalValue, Option.some.injEq, reduceCtorEq] at hv <;>
    subst hv <;>
    first
    | (simp only [Value.isBool] at hb; done)
    | simp [convert, convertNodes, opFromCond, hop, fillValue, appendValue]

/-- The conversion of one `Between` node with two literals that are no
booleans. -/
theorem convert_between (sym : String) (ga gb : GrammarValue) (a b : Value)
    (ha : literalValue ga = some a) (hab : a.isBool = false)
    (hb : literalValue gb = some b) (hbb : b.isBool = false) :
    convert ⟨[⟨false, sym, none, some ⟨ga, gb⟩, none⟩]⟩
      = .ok ⟨[⟨sym, false, OpRange, [a, b]⟩]⟩ := by
  have h1 := fillValue_between_literals ⟨sym, false, OpRange, []⟩
    ⟨false, sym, none, some ⟨ga, gb⟩, none⟩ ⟨ga, gb⟩ a b rfl rfl rfl ha hb hab hbb rfl
  have h2 := fillValue_frame ⟨sym, false, OpRange, []⟩ ⟨false, sym, none, some ⟨ga, gb⟩, none⟩
  have hc : (fillValue ⟨sym, false, OpRange, []⟩ ⟨false, sym, none, some ⟨ga, gb⟩, none⟩)
      = (⟨sym, false, OpRange, [a, b]⟩, none) := by
    generalize fillValue ⟨sym, false, OpRange, []⟩ ⟨false, sym, none, some ⟨ga, gb⟩, none⟩
      = r at h1 h2
    obtain ⟨⟨f, n, o, vs⟩, e⟩ := r
    simp only at h1 h2
    obtain ⟨rfl, rfl, rfl, rfl⟩ := h2
    subst h1
    rfl
  simp [convert, convertNodes, opFromCond, hc]

/-- The tokens of `f: v` are read as one `Compare` node with the colon. -/
theorem parseConditions_colon_literal (lit : Literals) (first : String) (more : List String)
    (ws : String) (tv : Token) (v : Value) (hlen : more.length < MaxIterations)
    (hv : tokenLiteral lit tv = some v) :
    ∃ g, literalValue g = some v ∧ v.isBool = false
      ∧ parseConditions lit MaxIterations
          (pathTokens first more ++ [colonToken, ⟨.WS, ws⟩, tv])
        = .ok [⟨false, pathText first more, some ⟨":", g⟩, none, none⟩] [] := by
  obtain ⟨g, hg, hlv, hnb, -⟩ := parseValue_tokenLiteral lit tv v [] hv
  refine ⟨g, hlv, hnb, ?_⟩
  have hfuel : MaxIterations = 999998 + 2 := rfl
  rw [hfuel]
  apply parseConditions_single
  have hopt : optWS (pathTokens first more ++ [colonToken, ⟨.WS, ws⟩, tv])
      = pathTokens first more ++ colonToken :: [⟨.WS, ws⟩, tv] := by
    simp [pathTokens, optWS]
  rw [hopt, parseCondition_path_colon lit first more _ hlen]
  have halt : parseCompareAlt lit (colonToken :: [⟨.WS, ws⟩, tv]) = .ok ⟨":", g⟩ [] := by
    simp [parseCompareAlt, parseCompare, optWS, colonToken, hg]
  rw [halt]
  simp [disjunction, PResult.map]

/-- The tokens of `f: [a, b]` are read as one `Between` node. -/
theorem parseConditions_colon_range (lit : Literals) (first : String) (more : List String)
    (ws ws2 : String) (ta tb : Token) (a b : Value) (hlen : more.length < MaxIterations)
    (ha : tokenLiteral lit ta = some a) (hb : tokenLiteral lit tb = some b) :
    ∃ ga gb, literalValue ga = some a ∧ a.isBool = false
      ∧ literalValue gb = some b ∧ b.isBool = false
      ∧ parseConditions lit MaxIterations
          (pathTokens first more ++ [colonToken, ⟨.WS, ws⟩, ⟨.Bracket, "["⟩, ta,
            ⟨.Separator, ","⟩, ⟨.WS, ws2⟩, tb, ⟨.Bracket, "]"⟩])
        = .ok [⟨false, pathText first more, none, some ⟨ga, gb⟩, none⟩] [] := by
  obtain ⟨ga, hga, hla, hna, hwa⟩ := parseValue_tokenLiteral lit ta a
    [⟨.Separator, ","⟩, ⟨.WS, ws2⟩, tb, ⟨.Bracket, "]"⟩] ha
  obtain ⟨gb, hgb, hlb, hnb, hwb⟩ := parseValue_tokenLiteral lit tb b [⟨.Bracket, "]"⟩] hb
  refine ⟨ga, gb, hla, hna, hlb, hnb, ?_⟩
  have hfuel : MaxIterations = 999998 + 2 := rfl
  rw [hfuel]
  apply parseConditions_single
  have hopt : optWS (pathTokens first more ++ [colonToken, ⟨.WS, ws⟩, ⟨.Bracket, "["⟩, ta,
        ⟨.Separator, ","⟩, ⟨.WS, ws2⟩, tb, ⟨.Bracket, "]"⟩])
      = pathTokens first more ++ colonToken :: [⟨.WS, ws⟩, ⟨.Bracket, "["⟩, ta,
        ⟨.Separator, ","⟩, ⟨.WS, ws2⟩, tb, ⟨.Bracket, "]"⟩] := by
    simp [pathTokens, optWS]
  rw [hopt, parseCondition_path_colon lit first more _ hlen]
  have hbr : parseValue lit (⟨.Bracket, "["⟩ :: ta ::
      [⟨.Separator, ","⟩, ⟨.WS, ws2⟩, tb, ⟨.Bracket, "]"⟩]) = .noMatch := by
    simp [parseValue, litMatch, equalFold]
  have halt1 : parseCompareAlt lit (colonToken :: [⟨.WS, ws⟩, ⟨.Bracket, "["⟩, ta,
        ⟨.Separator, ","⟩, ⟨.WS, ws2⟩, tb, ⟨.Bracket, "]"⟩])
      = .err [⟨.Bracket, "["⟩, ta, ⟨.Separator, ","⟩, ⟨.WS, ws2⟩, tb, ⟨.Bracket, "]"⟩] := by
    simp [parseCompareAlt, parseCompare, optWS, colonToken, hbr]
  have halt2 : parseBetweenAlt lit (colonToken :: [⟨.WS, ws⟩, ⟨.Bracket, "["⟩, ta,
        ⟨.Separator, ","⟩, ⟨.WS, ws2⟩, tb, ⟨.Bracket, "]"⟩])
      = .ok ⟨ga, gb⟩ [] := by
    simp [parseBetweenAlt, parseBetween, expectLit, litMatch, optWS, colonToken, hwa, hwb,
      hga, hgb]
  rw [halt1, halt2]
  simp [disjunction, PResult.map, stop]

/-- At a colon followed, after the optional white space, by an opening square
bracket, the alternative for `Compare` fails and the one for `In` does not
match: only the one for `Between` can give the condition. -/
theorem parseCondition_colon_bracket (lit : Literals) (first : String) (more : List String)
    (tail : List Token) (c : ConditionGrammar) (rest : List Token)
    (hlen : more.length < MaxIterations)
    (hbr : (optWS tail).head? = some ⟨.Bracket, "["⟩)
    (h : parseCondition lit (pathTokens first more ++ colonToken :: tail) = .ok c rest) :
    c.Compare = none ∧ c.Between.isSome = true ∧ c.In = none := by
  rw [parseCondition_path_colon lit first more tail hlen] at h
  have hval : ∀ c2 r2, parseCompareAlt lit (colonToken :: tail) ≠ .ok c2 r2 := by
    intro c2 r2 hc
    cases ho : optWS tail with
    | nil => rw [ho] at hbr; cases hbr
    | cons t tl =>
      rw [ho] at hbr
      simp only [List.head?_cons, Option.some.injEq] at hbr
      subst hbr
      have e1 : optWS (colonToken :: tail) = colonToken :: tail := rfl
      have e2 : parseValue lit (⟨.Bracket, "["⟩ :: tl) = .noMatch := by
        simp [parseValue, litMatch, equalFold]
      have hty : colonToken.Typ = .Operator := rfl
      simp [parseCompareAlt, e1, parseCompare, hty, ho, e2] at hc
  have hin : parseInAlt lit (colonToken :: tail) = .noMatch := by
    simp [parseInAlt, colonToken]
  split at h
  · cases h
  · have hmem := disjunction_ok _ _ _ _ _ h
    simp only [List.mem_cons, List.mem_singleton, List.not_mem_nil, or_false] at hmem
    rcases hmem with hm | hm | hm
    · obtain ⟨a, ha, -⟩ := PResult.map_ok _ _ _ _ hm.symm
      exact absurd ha (hval a rest)
    · obtain ⟨a, -, ha⟩ := PResult.map_ok _ _ _ _ hm.symm
      subst ha
      exact ⟨rfl, rfl, rfl⟩
    · rw [hin] at hm
      cases hm

/-! ## Lemmas on `MapValues` -/

theorem mapValuesFromS_ok {σ : Type} (fn : MapperS σ) :
    ∀ (values ws : List Value) (i : Nat) (s0 s1 : σ), mapAll fn values s0 = some (ws, s1) →
      mapValuesFromS fn i values s0 = ((ws, none), s1) ∧ ws.length = values.length := by
  intro values
  induction values with
  | nil =>
    intro ws i s0 s1 h
    simp only [mapAll, Option.some.injEq, Prod.mk.injEq] at h
    obtain ⟨rfl, rfl⟩ := h
    exact ⟨rfl, rfl⟩
  | cons v vs ih =>
    intro ws i s0 s1 h
    rw [mapAll] at h
    rw [mapValuesFromS]
    cases hf : fn v s0 with
    | mk r s2 =>
      rw [hf] at h
      cases r with
      | error e => cases h
      | ok w =>
        simp only at h ⊢
        cases hm : mapAll fn vs s2 with
        | none => rw [hm] at h; cases h
        | some p =>
          obtain ⟨ws2, s3⟩ := p
          rw [hm] at h
          simp only [Option.map_some', Option.some.injEq, Prod.mk.injEq] at h
          obtain ⟨rfl, rfl⟩ := h
          obtain ⟨h1, h2⟩ := ih ws2 (i + 1) s2 s3 hm
          rw [h1]
          exact ⟨rfl, by simp [h2]⟩

theorem mapValuesFromS_error {σ : Type} (fn : MapperS σ) (v : Value) (post : List Value)
    (err : Error) :
    ∀ (pre ws : List Value) (i : Nat) (s0 s1 s2 : σ), mapAll fn pre s0 = some (ws, s1) →
      fn v s1 = (.error err, s2) →
      mapValuesFromS fn i (pre ++ v :: post) s0
        = ((ws ++ v :: post,
            some (.errorf ("value #" ++ Nat.repr (i + pre.length + 1) ++ ": " ++ err.text))),
          s2) := by
  intro pre
  induction pre with
  | nil =>
    intro ws i s0 s1 s2 h hv
    simp only [mapAll, Option.some.injEq, Prod.mk.injEq] at h
    obtain ⟨rfl, rfl⟩ := h
    simp [mapValuesFromS, hv]
  | cons u us ih =>
    intro ws i s0 s1 s2 h hv
    rw [mapAll] at h
    rw [List.cons_append, mapValuesFromS]
    cases hf : fn u s0 with
    | mk r s3 =>
      rw [hf] at h
      cases r with
      | error e => cases h
      | ok w =>
        simp only at h ⊢
        cases hm : mapAll fn us s3 with
        | none => rw [hm] at h; cases h
        | some p =>
          obtain ⟨ws2, s4⟩ := p
          rw [hm] at h
          simp only [Option.map_some', Option.some.injEq, Prod.mk.injEq] at h
          obtain ⟨rfl, rfl⟩ := h
          rw [ih ws2 (i + 1) s3 s4 s2 hm hv]
          simp only [List.length_cons, List.cons_append]
          have : i + 1 + us.length + 1 = i + (us.length + 1) + 1 := by omega
          rw [this]

/-- The mapper fails on the values, in order, at a first one. -/
theorem mapAll_none {σ : Type} (fn : MapperS σ) :
    ∀ (values : List Value) (s0 : σ), mapAll fn values s0 = none →
      ∃ pre v post ws s1 err s2, values = pre ++ v :: post ∧ mapAll fn pre s0 = some (ws, s1)
        ∧ fn v s1 = (.error err, s2) := by
  intro values
  induction values with
  | nil => intro s0 h; cases h
  | cons v vs ih =>
    intro s0 h
    rw [mapAll] at h
    cases hf : fn v s0 with
    | mk r s2 =>
      rw [hf] at h
      cases r with
      | error e => exact ⟨[], v, vs, [], s0, e, s2, rfl, rfl, hf⟩
      | ok w =>
        simp only at h
        cases hm : mapAll fn vs s2 with
        | some p => rw [hm] at h; cases h
        | none =>
          obtain ⟨pre, u, post, ws, s1, err, s3, hv, hp, hu⟩ := ih s2 hm
          refine ⟨v :: pre, u, post, w :: ws, s1, err, s3, by rw [hv]; rfl, ?_, hu⟩
          rw [mapAll, hf]
          simp only
          rw [hp]
          rfl

/-- The loop for a mapper without effects is the loop with effects on no
state. -/
theorem mapValuesFrom_lift (fn : Mapper) :
    ∀ (values : List Value) (i : Nat),
      mapValuesFrom fn i values = (mapValuesFromS fn.lift i values ()).1 := by
  intro values
  induction values with
  | nil => intro i; rfl
  | cons v vs ih =>
    intro i
    rw [mapValuesFrom, mapValuesFromS]
    simp only [Mapper.lift]
    cases hf : fn v with
    | error e => rfl
    | ok w =>
      simp only
      rw [ih (i + 1)]

/-! ## Lemmas on the tokens the parser leaves -/

theorem expectLit_suffix (literal : String) (toks rest : List Token)
    (h : expectLit literal toks = some rest) : rest <:+ toks := by
  cases toks with
  | nil => cases h
  | cons t tail =>
    rw [expectLit] at h
    split_ifs at h
    simp only [Option.some.injEq] at h
    rw [← h]
    exact List.suffix_cons t tail

theorem parseValue_suffix (lit : Literals) (toks : List Token) (v : GrammarValue)
    (rest : List Token) (h : parseValue lit toks = .ok v rest) : rest <:+ toks := by
  obtain ⟨t, rfl, -, -⟩ := parseValue_ok lit toks v rest h
  exact List.suffix_cons t rest

/-- A `Compare` node is read at an `Operator` token, whose text is its
operator. -/
theorem parseCompare_ok (lit : Literals) (toks : List Token) (c : Compare)
    (rest : List Token) (h : parseCompare lit toks = .ok c rest) :
    rest <:+ toks ∧ ∃ t ∈ toks, t.Typ = .Operator ∧ t.Value = c.Operator := by
  cases toks with
  | nil => cases h
  | cons t tail =>
    rw [parseCompare] at h
    split_ifs at h with ht
    cases hv : parseValue lit (optWS tail) with
    | noMatch => rw [hv] at h; cases h
    | err r => rw [hv] at h; cases h
    | ok v r =>
      rw [hv] at h
      simp only [PResult.ok.injEq] at h
      obtain ⟨rfl, rfl⟩ := h
      refine ⟨?_, t, List.mem_cons_self _ _, ht, rfl⟩
      exact (((optWS_suffix r).trans (parseValue_suffix lit _ v r hv)).trans
        (optWS_suffix tail)).trans (List.suffix_cons t tail)

theorem parseBetween_suffix (lit : Literals) (toks : List Token) (b : Between)
    (rest : List Token) (h : parseBetween lit toks = .ok b rest) : rest <:+ toks := by
  unfold parseBetween at h
  cases hv : parseValue lit toks with
  | noMatch => rw [hv] at h; cases h
  | err r => rw [hv] at h; cases h
  | ok v r =>
    rw [hv] at h
    simp only at h
    cases he : expectLit "," (optWS r) with
    | none => rw [he] at h; cases h
    | some r2 =>
      rw [he] at h
      simp only at h
      cases hv2 : parseValue lit (optWS r2) with
      | noMatch => rw [hv2] at h; cases h
      | err r3 => rw [hv2] at h; cases h
      | ok v2 r3 =>
        rw [hv2] at h
        simp only [PResult.ok.injEq] at h
        rw [← h.2]
        exact ((((parseValue_suffix lit _ v2 r3 hv2).trans (optWS_suffix r2)).trans
          (expectLit_suffix _ _ _ he)).trans (optWS_suffix r)).trans
          (parseValue_suffix lit _ v r hv)

theorem parseInMore_suffix (lit : Literals) (fuel : Nat) :
    ∀ (toks : List Token) (vs : List GrammarValue) (rest : List Token),
      parseInMore lit fuel toks = .ok vs rest → rest <:+ toks := by
  induction fuel with
  | zero => intro toks vs rest h; cases h
  | succ fuel ih =>
    intro toks vs rest h
    rw [parseInMore] at h
    cases he : expectLit "," toks with
    | none =>
      rw [he] at h
      simp only [PResult.ok.injEq] at h
      rw [← h.2]
    | some r =>
      rw [he] at h
      simp only at h
      cases hv : parseValue lit (optWS r) with
      | noMatch =>
        rw [hv] at h
        simp only at h
        split_ifs at h
        simp only [PResult.ok.injEq] at h
        rw [← h.2]
      | err r2 =>
        rw [hv] at h
        simp only at h
        split_ifs at h
        simp only [PResult.ok.injEq] at h
        rw [← h.2]
      | ok v r2 =>
        rw [hv] at h
        simp only at h
        cases hm : parseInMore lit fuel (optWS r2) with
        | noMatch => rw [hm] at h; cases h
        | err r3 => rw [hm] at h; cases h
        | ok vs2 r3 =>
          rw [hm] at h
          simp only [PResult.ok.injEq] at h
          rw [← h.2]
          exact ((((ih _ _ _ hm).trans (optWS_suffix r2)).trans
            (parseValue_suffix lit _ v r2 hv)).trans (optWS_suffix r)).trans
            (expectLit_suffix _ _ _ he)

theorem parseIn_suffix (lit : Literals) (toks : List Token) (n : In)
    (rest : List Token) (h : parseIn lit toks = .ok n rest) : rest <:+ toks := by
  unfold parseIn at h
  cases hv : parseValue lit toks with
  | noMatch => rw [hv] at h; cases h
  | err r => rw [hv] at h; cases h
  | ok v r =>
    rw [hv] at h
    simp only at h
    cases hm : parseInMore lit MaxIterations (optWS r) with
    | noMatch => rw [hm] at h; cases h
    | err r3 => rw [hm] at h; cases h
    | ok vs2 r3 =>
      rw [hm] at h
      simp only [PResult.ok.injEq] at h
      rw [← h.2]
      exact ((parseInMore_suffix lit _ _ _ _ hm).trans (optWS_suffix r)).trans
        (parseValue_suffix lit _ v r hv)

theorem parseCompareAlt_operator (lit : Literals) (toks : List Token) (c : Compare)
    (rest : List Token) (h : parseCompareAlt lit toks = .ok c rest) :
    rest <:+ toks ∧ ∃ t ∈ toks, t.Typ = .Operator ∧ t.Value = c.Operator := by
  unfold parseCompareAlt at h
  cases hc : parseCompare lit (optWS toks) with
  | noMatch => rw [hc] at h; cases h
  | err r => rw [hc] at h; cases h
  | ok c2 r =>
    rw [hc] at h
    simp only [PResult.ok.injEq] at h
    obtain ⟨rfl, rfl⟩ := h
    obtain ⟨h1, t, ht, h2, h3⟩ := parseCompare_ok lit _ c2 r hc
    exact ⟨h1.trans (optWS_suffix toks), t, (optWS_suffix toks).subset ht, h2, h3⟩

theorem parseBetweenAlt_suffix (lit : Literals) (toks : List Token) (b : Between)
    (rest : List Token) (h : parseBetweenAlt lit toks = .ok b rest) : rest <:+ toks := by
  unfold parseBetweenAlt at h
  cases h1 : expectLit ":" (optWS toks) with
  | none => rw [h1] at h; cases h
  | some r1 =>
    rw [h1] at h
    simp only at h
    cases h2 : expectLit "[" (optWS r1) with
    | none => rw [h2] at h; cases h
    | some r2 =>
      rw [h2] at h
      simp only at h
      cases h3 : parseBetween lit (optWS r2) with
      | noMatch => rw [h3] at h; cases h
      | err r3 => rw [h3] at h; cases h
      | ok node r3 =>
        rw [h3] at h
        simp only at h
        cases h4 : expectLit "]" (optWS r3) with
        | none => rw [h4] at h; cases h
        | some r4 =>
          rw [h4] at h
          simp only [PResult.ok.injEq] at h
          rw [← h.2]
          exact (((((((expectLit_suffix _ _ _ h4).trans (optWS_suffix r3)).trans
            (parseBetween_suffix lit _ node r3 h3)).trans (optWS_suffix r2)).trans
            (expectLit_suffix _ _ _ h2)).trans (optWS_suffix r1)).trans
            (expectLit_suffix _ _ _ h1)).trans (optWS_suffix toks)

theorem parseInAlt_suffix (lit : Literals) (toks : List Token) (n : In)
    (rest : List Token) (h : parseInAlt lit toks = .ok n rest) : rest <:+ toks := by
  cases toks with
  | nil => cases h
  | cons ws tail =>
    rw [parseInAlt] at h
    split_ifs at h
    cases h1 : expectLit "IN" tail with
    | none => rw [h1] at h; cases h
    | some r1 =>
      rw [h1] at h
      simp only at h
      cases h2 : expectLit "(" (optWS r1) with
      | none => rw [h2] at h; cases h
      | some r2 =>
        rw [h2] at h
        simp only at h
        cases h3 : parseIn lit (optWS r2) with
        | noMatch => rw [h3] at h; cases h
        | err r3 => rw [h3] at h; cases h
        | ok node r3 =>
          rw [h3] at h
          simp only at h
          cases h4 : expectLit ")" r3 with
          | none => rw [h4] at h; cases h
          | some r4 =>
            rw [h4] at h
            simp only [PResult.ok.injEq] at h
            rw [← h.2]
            exact ((((((expectLit_suffix _ _ _ h4).trans
              (parseIn_suffix lit _ node r3 h3)).trans (optWS_suffix r2)).trans
              (expectLit_suffix _ _ _ h2)).trans (optWS_suffix r1)).trans
              (expectLit_suffix _ _ _ h1)).trans (List.suffix_cons ws tail)

/-- A condition read from the tokens has exactly one shape, the operator of a
`Compare` being the text of an `Operator` token among them, and what is left
is a suffix of the tokens. -/
theorem parseCondition_ok (lit : Literals) (toks : List Token)
    (c : ConditionGrammar) (rest : List Token)
    (h : parseCondition lit toks = .ok c rest) :
    rest <:+ toks
      ∧ ((∃ node, c.In = some node ∧ c.Compare = none ∧ c.Between = none)
        ∨ (∃ cmp, c.Compare = some cmp ∧ c.In = none ∧ c.Between = none
            ∧ ∃ t ∈ toks, t.Typ = .Operator ∧ t.Value = cmp.Operator)
        ∨ (∃ node, c.Between = some node ∧ c.In = none ∧ c.Compare = none)) := by
  unfold parseCondition at h
  simp only at h
  generalize hneg : (match toks with
    | t :: ws :: _ => litMatch "NOT" t && decide (ws.Typ = TokenType.WS)
    | _ => false) = negated at h
  have hsub : (if negated = true then toks.drop 2 else toks) <:+ toks := by
    split_ifs
    · exact List.drop_suffix 2 toks
    · exact List.suffix_refl _
  generalize (if negated = true then toks.drop 2 else toks) = toks1 at h hsub
  cases toks1 with
  | nil => cases h
  | cons ident tail =>
    simp only at h
    split_ifs at h
    cases hs : parseSymbolMore MaxIterations tail with
    | noMatch => rw [hs] at h; cases h
    | err r => rw [hs] at h; cases h
    | ok more rest2 =>
      rw [hs] at h
      simp only at h
      have hsuf : rest2 <:+ toks :=
        ((parseSymbolMore_suffix _ _ _ _ hs).trans (List.suffix_cons ident tail)).trans hsub
      split at h
      · cases h
      · have hmem := disjunction_ok _ _ _ _ _ h
        simp only [List.mem_cons, List.mem_singleton, List.not_mem_nil, or_false] at hmem
        rcases hmem with hm | hm | hm
        · obtain ⟨a, ha, hc⟩ := PResult.map_ok _ _ _ _ hm.symm
          obtain ⟨h1, t, ht, h2, h3⟩ := parseCompareAlt_operator lit rest2 a rest ha
          subst hc
          exact ⟨h1.trans hsuf, Or.inr (Or.inl ⟨a, rfl, rfl, rfl, t, hsuf.subset ht, h2, h3⟩)⟩
        · obtain ⟨a, ha, hc⟩ := PResult.map_ok _ _ _ _ hm.symm
          subst hc
          exact ⟨(parseBetweenAlt_suffix lit rest2 a rest ha).trans hsuf,
            Or.inr (Or.inr ⟨a, rfl, rfl, rfl⟩)⟩
        · obtain ⟨a, ha, hc⟩ := PResult.map_ok _ _ _ _ hm.symm
          subst hc
          exact ⟨(parseInAlt_suffix lit rest2 a rest ha).trans hsuf,
            Or.inl ⟨a, rfl, rfl, rfl⟩⟩

/-- The conditions read from tokens whose `Operator` tokens have texts of the
lexer are well shaped. -/
theorem parseConditions_wellShaped (lit : Literals) (fuel : Nat) :
    ∀ (toks : List Token) (cs : List ConditionGrammar) (rest : List Token),
      operatorTokens toks → parseConditions lit fuel toks = .ok cs rest →
      ∀ c ∈ cs, wellShaped c := by
  induction fuel with
  | zero => intro toks cs rest _ h; cases h
  | succ fuel ih =>
    intro toks cs rest hop h
    rw [parseConditions] at h
    cases hc : parseCondition lit (optWS toks) with
    | noMatch =>
      rw [hc] at h
      simp only [PResult.ok.injEq] at h
      rw [← h.1]
      simp
    | err r =>
      rw [hc] at h
      simp only at h
      split_ifs at h
      simp only [PResult.ok.injEq] at h
      rw [← h.1]
      simp
    | ok c r =>
      rw [hc] at h
      simp only at h
      obtain ⟨hsuf, hshape⟩ := parseCondition_ok lit _ c r hc
      have hsuf2 : r <:+ toks := hsuf.trans (optWS_suffix toks)
      cases hm : parseConditions lit fuel r with
      | noMatch => rw [hm] at h; cases h
      | err r3 => rw [hm] at h; cases h
      | ok cs2 r3 =>
        rw [hm] at h
        simp only [PResult.ok.injEq] at h
        rw [← h.1]
        intro c2 hc2
        rcases List.mem_cons.1 hc2 with rfl | hc2
        · rcases hshape with h1 | ⟨cmp, h1, h2, h3, t, ht, h4, h5⟩ | h1
          · exact Or.inl h1
          · refine Or.inr (Or.inl ⟨cmp, h1, h2, h3, ?_⟩)
            rw [← h5]
            exact hop t ((optWS_suffix toks).subset ht) h4
          · exact Or.inr (Or.inr h1)
        · exact ih r cs2 r3 (fun t ht => hop t (hsuf2.subset ht)) hm c2 hc2

/-! ## Lemmas on the `Operator` tokens -/

/-- The text that the class `Operator` matches is one of its seven texts. -/
theorem matchOperator_text (s : List Char) (n : Nat) (h : matchOperator s = some n) :
    String.mk (s.take n) ∈ operatorTexts := by
  unfold matchOperator at h
  split at h
  · simp only [Option.some.injEq] at h
    subst h
    show String.mk ['!', '='] ∈ operatorTexts
    decide
  · simp only [Option.some.injEq] at h
    subst h
    show String.mk ['<', '='] ∈ operatorTexts
    decide
  · simp only [Option.some.injEq] at h
    subst h
    show String.mk ['>', '='] ∈ operatorTexts
    decide
  · rename_i c rest _ _ _
    split_ifs at h with hc
    simp only [Option.some.injEq] at h
    subst h
    show String.mk [c] ∈ operatorTexts
    simp only [Bool.or_eq_true, decide_eq_true_eq] at hc
    rcases hc with ((rfl | rfl) | rfl) | rfl <;> decide
  · cases h

/-- Only the class `Operator` makes an `Operator` token. -/
theorem lexOne_operator (s : List Char) (n : Nat) (h : lexOne s = some (.Operator, n)) :
    matchOperator s = some n := by
  unfold lexOne at h
  by_cases h1 : spanLength isSpace s > 0
  · rw [if_pos h1] at h
    cases h
  rw [if_neg h1] at h
  cases hk : matchKeyword s with
  | some m => rw [hk] at h; cases h
  | none =>
    rw [hk] at h
    simp only at h
    by_cases h2 : s.head?.any isIdentStart = true
    · rw [if_pos h2] at h
      cases h
    rw [if_neg h2] at h
    cases hf : matchFloat s with
    | some m => rw [hf] at h; cases h
    | none =>
      rw [hf] at h
      simp only at h
      cases hi : matchInt s with
      | some m => rw [hi] at h; cases h
      | none =>
        rw [hi] at h
        simp only at h
        cases hst : matchString s with
        | some m => rw [hst] at h; cases h
        | none =>
          rw [hst] at h
          simp only at h
          by_cases h3 : s.head?.any (fun c => c = ',' || c = '.') = true
          · rw [if_pos h3] at h
            cases h
          rw [if_neg h3] at h
          by_cases h4 : s.head?.any (fun c => c = '[' || c = ']' || c = '(' || c = ')') = true
          · rw [if_pos h4] at h
            cases h
          rw [if_neg h4] at h
          cases ho : matchOperator s with
          | none => rw [ho] at h; cases h
          | some m =>
            rw [ho] at h
            simp only [Option.map_some', Option.some.injEq, Prod.mk.injEq, true_and] at h
            rw [h]

theorem makeToken_typ (ty : TokenType) (text : List Char) (tok : Token)
    (h : makeToken ty text = some tok) :
    tok.Typ = ty ∧ (ty ≠ .String → tok.Value = String.mk text) := by
  unfold makeToken at h
  split_ifs at h with hs
  · cases hu : unquote text with
    | none => rw [hu] at h; cases h
    | some v =>
      rw [hu] at h
      simp only [Option.map_some', Option.some.injEq] at h
      subst h
      exact ⟨rfl, fun hne => absurd hs hne⟩
  · simp only [Option.some.injEq] at h
    subst h
    exact ⟨rfl, fun _ => rfl⟩

/-- The `Operator` tokens of the lexer have the texts of the class. -/
theorem lexFrom_operatorTokens (s : List Char) :
    ∀ skip toks, lexFrom skip s = .ok toks → operatorTokens toks := by
  induction s with
  | nil =>
    intro skip toks h
    have : toks = [] := by
      cases skip <;> simp only [lexFrom, Except.ok.injEq] at h <;> exact h.symm
    subst this
    intro t ht
    cases ht
  | cons c s ih =>
    intro skip toks h
    cases skip with
    | succ skip =>
      rw [lexFrom] at h
      exact ih skip toks h
    | zero =>
      rw [lexFrom] at h
      cases hl : lexOne (c :: s) with
      | none => rw [hl] at h; cases h
      | some r =>
        obtain ⟨ty, n⟩ := r
        rw [hl] at h
        simp only at h
        cases hm : makeToken ty ((c :: s).take n) with
        | none => rw [hm] at h; cases h
        | some tok =>
          rw [hm] at h
          simp only at h
          cases hr : lexFrom (n - 1) s with
          | error e => rw [hr] at h; cases h
          | ok toks2 =>
            rw [hr] at h
            simp only [Except.ok.injEq] at h
            rw [← h]
            intro t ht hty
            rcases List.mem_cons.1 ht with rfl | ht
            · obtain ⟨h1, h2⟩ := makeToken_typ ty _ t hm
              have hop : ty = .Operator := h1.symm.trans hty
              subst hop
              rw [h2 (by decide)]
              exact matchOperator_text _ n (lexOne_operator _ n hl)
            · exact ih (n - 1) toks2 hr t ht hty

/-- The expressions of the parser have well-shaped nodes. -/
theorem ParseGrammar_wellShaped (lit : Literals) (input : String) (e : Expression)
    (h : ParseGrammar lit input = .ok e) : ∀ n ∈ e.And, wellShaped n := by
  unfold ParseGrammar at h
  cases hl : lex input with
  | error err => rw [hl] at h; cases h
  | ok toks =>
    rw [hl] at h
    simp only at h
    have hop : operatorTokens toks := lexFrom_operatorTokens input.data 0 toks hl
    cases hp : parseConditions lit MaxIterations toks with
    | noMatch => rw [hp] at h; cases h
    | err r => rw [hp] at h; cases h
    | ok cs rest =>
      rw [hp] at h
      cases rest with
      | cons t r => cases h
      | nil =>
        simp only [Except.ok.injEq] at h
        subst h
        exact parseConditions_wellShaped lit _ toks cs [] hop hp

/-- The operator of a well-shaped node: `opFromCond` returns one of the nine
operators. -/
theorem opFromCond_wellShaped (n : ConditionGrammar) (h : wellShaped n) :
    ∃ op, opFromCond n = .ok op ∧ op ∈ validOperators := by
  unfold opFromCond
  rcases h with ⟨node, h1, h2, h3⟩ | ⟨cmp, h1, h2, h3, h4⟩ | ⟨node, h1, h2, h3⟩
  · rw [h1]
    exact ⟨OpIn, rfl, by decide⟩
  · have key : (OperatorFromString cmp.Operator).2 = true
        ∧ (OperatorFromString cmp.Operator).1 ∈ validOperators := by
      simp only [operatorTexts, List.mem_cons, List.mem_singleton, List.not_mem_nil,
        or_false] at h4
      rcases h4 with h | h | h | h | h | h | h <;> rw [h] <;> decide
    have hop : OperatorFromString cmp.Operator = ((OperatorFromString cmp.Operator).1, true) :=
      Prod.ext rfl key.1
    refine ⟨(OperatorFromString cmp.Operator).1, ?_, key.2⟩
    rw [h2, h1]
    simp only
    rw [hop]
  · rw [h2, h3, h1]
    exact ⟨OpRange, rfl, by decide⟩

/-- The switch of `ApplyFilters` on one of the nine operators does not reach
its default branch. -/
theorem opStage_valid_ne_fail (nt field : String) (params : List Param) (i : Nat)
    (c : Condition) (h : c.Op ∈ validOperators) :
    ∀ err, opStage nt field params i c ≠ .fail err := by
  intro err hf
  rcases operator_cases c.Op with ⟨sym, hm⟩ | hin | hrg | hct | hun
  · rw [opStage_comparison nt field params i c _ sym hm rfl] at hf
    cases hf
  · rw [opStage_in nt field params i c hin] at hf
    cases hf
  · rw [opStage_range nt field params i c hrg] at hf
    cases hf
  · rcases contains_values_cases c.Values with ⟨v, rest, hv⟩ | hv | ⟨v, rest, hv, hns⟩
    · rw [opStage_contains nt field params i c v rest hct hv] at hf
      cases hf
    · rw [opStage_contains_nil nt field params i c hct hv] at hf
      cases hf
    · rw [opStage_contains_not_string nt field params i c v rest hct hv hns] at hf
      cases hf
  · exact hun h

/-- The conversion of well-shaped nodes gives conditions with operators among
the nine. -/
theorem convertNodes_wellShaped (nodes : List ConditionGrammar)
    (h : ∀ n ∈ nodes, wellShaped n) :
    ∃ cs, convertNodes nodes = .ok cs ∧ ∀ c ∈ cs, c.Op ∈ validOperators := by
  induction nodes with
  | nil => exact ⟨[], rfl, by simp⟩
  | cons n rest ih =>
    obtain ⟨op, hop, hv⟩ := opFromCond_wellShaped n (h n (List.mem_cons_self _ _))
    obtain ⟨cs, hcs, hall⟩ := ih (fun m hm => h m (List.mem_cons_of_mem _ hm))
    obtain ⟨h1, -, -, h4⟩ :=
      fillValue_frame { Not := n.Not, Field := n.Symbol, Op := op, Values := [] } n
    cases hf : fillValue { Not := n.Not, Field := n.Symbol, Op := op, Values := [] } n with
    | mk c0 e =>
      rw [hf] at h1 h4
      simp only at h1 h4
      subst h1
      refine ⟨c0 :: cs, ?_, ?_⟩
      · rw [convertNodes, hop]
        simp only
        rw [hf]
        simp only
        rw [hcs]
      · intro c hc
        rcases List.mem_cons.1 hc with rfl | hc
        · rw [h4]
          exact hv
        · exact hall c hc

/-- What `Parse` returns on an input: an error of the grammar stage, or a
filter whose conditions have operators among the nine; it does not panic. -/
theorem Parse_cases (lit : Literals) (input : String) :
    (∃ msg, Parse (ParseGrammar lit) input = .error (.errorf ("parse: " ++ msg)))
      ∨ ∃ filter, Parse (ParseGrammar lit) input = .ok filter
          ∧ ∀ c ∈ filter.Conditions, c.Op ∈ validOperators := by
  unfold Parse
  cases hp : ParseGrammar lit input with
  | error err => exact Or.inl ⟨err.text, rfl⟩
  | ok e =>
    obtain ⟨cs, hcs, hall⟩ := convertNodes_wellShaped e.And (ParseGrammar_wellShaped lit input e hp)
    refine Or.inr ⟨⟨cs⟩, ?_, hall⟩
    simp only [convert, hcs]

/-- The errors of the field resolution start with the letter of `field: `. -/
theorem fieldStage_error_text (lib : Lib) (table : Table) (c : Condition) (out : Outcome)
    (h : fieldStage lib table c = .error out) :
    ∃ m, out = .fail (.errorf m) ∧ m.data.head? = some 'f' := by
  unfold fieldStage at h
  simp only at h
  split at h
  · split at h
    · exact ⟨_, (Except.error.inj h).symm, by simp [String.data_append]⟩
    · split at h
      · exact ⟨_, (Except.error.inj h).symm, by simp [String.data_append]⟩
      · split at h
        · exact ⟨_, (Except.error.inj h).symm, by simp [String.data_append]⟩
        · cases h
  · split at h
    · exact ⟨_, (Except.error.inj h).symm, by simp [String.data_append]⟩
    · cases h

/-- Without hooks and with operators among the nine, the loop of
`ApplyFilters` returns no other error than one of the field resolution. -/
theorem applyConditions_error_noHooks (lib : Lib) (table : Table) :
    ∀ (conds : List Condition) (i : Nat) (query : Query) (e : Error),
      (∀ c ∈ conds, c.Op ∈ validOperators) →
      (applyConditions lib noHooks table i conds query).2 = .error e →
      ∃ m, e = .errorf m ∧ m.data.head? = some 'f' := by
  intro conds
  induction conds with
  | nil => intro i query e _ h; cases h
  | cons c rest ih =>
    intro i query e hall h
    have hrest : ∀ d ∈ rest, d.Op ∈ validOperators :=
      fun d hd => hall d (List.mem_cons_of_mem _ hd)
    rw [applyConditions] at h
    cases ho : applyCondition lib noHooks table i c with
    | skip =>
      rw [ho] at h
      exact ih _ _ e hrest h
    | emit text params =>
      rw [ho] at h
      exact ih _ _ e hrest h
    | panic msg =>
      rw [ho] at h
      cases h
    | fail err =>
      rw [ho] at h
      simp only [Ret.error.injEq] at h
      subst h
      rw [applyCondition_no_hook lib noHooks table i c rfl] at ho
      cases hf : fieldStage lib table c with
      | error out =>
        rw [hf] at ho
        simp only at ho
        subst ho
        obtain ⟨m, hm, hhead⟩ := fieldStage_error_text lib table c _ hf
        exact ⟨m, Outcome.fail.inj hm, hhead⟩
      | ok r =>
        obtain ⟨field, params⟩ := r
        rw [hf] at ho
        simp only at ho
        exact absurd ho (opStage_valid_ne_fail _ field params i c
          (hall c (List.mem_cons_self _ _)) err)

/-! ## Lemmas on the tokens of a text in its context -/

theorem spanLength_append_eq (p : Char → Bool) (d : Char) (hd : p d = false)
    (s rest : List Char) : spanLength p (s ++ d :: rest) = spanLength p s := by
  induction s with
  | nil => simp [spanLength, hd]
  | cons c s ih =>
    rw [List.cons_append, spanLength, spanLength, ih]

theorem spanLength_all (p : Char → Bool) (s : List Char) (h : ∀ c ∈ s, p c = true) :
    spanLength p s = s.length := by
  induction s with
  | nil => rfl
  | cons c s ih =>
    rw [spanLength, if_pos (h c (List.mem_cons_self _ _)),
      ih (fun d hd => h d (List.mem_cons_of_mem _ hd))]
    rfl

theorem lexFrom_skip (a rest : List Char) :
    lexFrom a.length (a ++ rest) = lexFrom 0 rest := by
  induction a with
  | nil => rfl
  | cons c a ih =>
    rw [List.cons_append, List.length_cons, lexFrom]
    exact ih

/-- The lexer at a text whose first token is the text `a`. -/
theorem lexFrom_token (a rest : List Char) (ty : TokenType) (tok : Token) (ha : a ≠ [])
    (hl : lexOne (a ++ rest) = some (ty, a.length)) (hm : makeToken ty a = some tok) :
    lexFrom 0 (a ++ rest) = (lexFrom 0 rest).map (tok :: ·) := by
  cases a with
  | nil => exact absurd rfl ha
  | cons c a =>
    have ht : (c :: (a ++ rest)).take (c :: a).length = c :: a := by
      rw [← List.cons_append]
      exact List.take_left _ _
    rw [List.cons_append] at hl ⊢
    rw [lexFrom, hl]
    simp only
    rw [ht, hm]
    simp only [List.length_cons, Nat.add_sub_cancel]
    rw [lexFrom_skip]
    cases lexFrom 0 rest <;> rfl

theorem matchKeyword_some (x : List Char) (n : Nat) (h : matchKeyword x = some n) :
    ∃ word ∈ ["NOT".data, "IN".data, "TRUE".data, "FALSE".data], matchWord word x = some n := by
  unfold matchKeyword at h
  cases h1 : matchWord "NOT".data x with
  | some m =>
    rw [h1] at h
    simp only [Option.orElse, Option.some.injEq] at h
    subst h
    exact ⟨_, by simp, h1⟩
  | none =>
    rw [h1] at h
    simp only [Option.orElse] at h
    cases h2 : matchWord "IN".data x with
    | some m =>
      rw [h2] at h
      simp only [Option.some.injEq] at h
      subst h
      exact ⟨_, by simp, h2⟩
    | none =>
      rw [h2] at h
      simp only at h
      cases h3 : matchWord "TRUE".data x with
      | some m =>
        rw [h3] at h
        simp only [Option.some.injEq] at h
        subst h
        exact ⟨_, by simp, h3⟩
      | none =>
        rw [h3] at h
        simp only at h
        exact ⟨_, by simp, h⟩

theorem matchKeyword_none (x : List Char)
    (h : ∀ word ∈ ["NOT".data, "IN".data, "TRUE".data, "FALSE".data], matchWord word x = none) :
    matchKeyword x = none := by
  unfold matchKeyword
  rw [h _ (by simp), h _ (by simp), h _ (by simp), h _ (by simp)]
  rfl

/-- A keyword starts with a letter. -/
theorem matchKeyword_head (x : List Char) (n : Nat) (h : matchKeyword x = some n) :
    x.head?.any isIdentStart = true := by
  obtain ⟨word, hw, hm⟩ := matchKeyword_some x n h
  obtain ⟨-, hs⟩ := matchWord_some word x n hm
  cases x with
  | nil =>
    simp only [List.mem_cons, List.mem_singleton, List.not_mem_nil, or_false] at hw
    rcases hw with rfl | rfl | rfl | rfl <;> simp [startsFold] at hs
  | cons c rest =>
    simp only [List.head?_cons, Option.any_some]
    have key : ∀ l : Char, (65 ≤ l.toNat ∧ l.toNat ≤ 90 ∧ l ≠ 'S' ∧ l ≠ 'K') →
        foldMatches l c = true → isIdentStart c = true := by
      intro l ⟨h1, h2, h3, h4⟩ hf
      simp only [foldMatches, Bool.or_eq_true, decide_eq_true_eq, Bool.and_eq_true, h3, h4,
        false_and, or_false] at hf
      rcases hf with rfl | ⟨-, hc⟩
      · simp only [isIdentStart, Bool.or_eq_true, Bool.and_eq_true, decide_eq_true_eq]
        exact Or.inl (Or.inr ⟨h1, h2⟩)
      · simp only [isIdentStart, Bool.or_eq_true, Bool.and_eq_true, decide_eq_true_eq]
        exact Or.inl (Or.inl ⟨by omega, by omega⟩)
    simp only [List.mem_cons, List.mem_singleton, List.not_mem_nil, or_false] at hw
    rcases hw with rfl | rfl | rfl | rfl
    · simp only [String.data, startsFold, Bool.and_eq_true] at hs
      exact key 'N' (by decide) hs.1
    · simp only [startsFold, Bool.and_eq_true] at hs
      exact key 'I' (by decide) hs.1
    · simp only [startsFold, Bool.and_eq_true] at hs
      exact key 'T' (by decide) hs.1
    · simp only [startsFold, Bool.and_eq_true] at hs
      exact key 'F' (by decide) hs.1

theorem isIdentStart_not_space (c : Char) (h : isIdentStart c = true) : isSpace c = false := by
  by_contra hs
  simp only [Bool.not_eq_false, isSpace, Bool.or_eq_true, decide_eq_true_eq] at hs
  rcases hs with (((rfl | rfl) | rfl) | rfl) | rfl <;> exact absurd h (by decide)

theorem isIdentStart_not_digit (c : Char) (h : isIdentStart c = true) : isDigit c = false := by
  by_contra hd
  simp only [Bool.not_eq_false, isDigit, Bool.and_eq_true, decide_eq_true_eq] at hd
  simp only [isIdentStart, Bool.or_eq_true, Bool.and_eq_true, decide_eq_true_eq] at h
  rcases h with (⟨h1, h2⟩ | ⟨h1, h2⟩) | rfl
  · omega
  · omega
  · exact absurd hd (by decide)

/-- A word that matches, as a whole word, at the start of word characters
followed by a character that is no word character and no letter of the word,
is these word characters, without regard to case. -/
theorem startsFold_word_boundary (d : Char) (rest : List Char) :
    ∀ (word seg : List Char), (∀ c ∈ seg, isWord c = true) →
      (∀ l ∈ word, foldMatches l d = false) →
      startsFold word (seg ++ d :: rest) = true →
      ((seg ++ d :: rest).drop word.length).head?.any isWord = false →
      equalFold word seg = true := by
  intro word
  induction word with
  | nil =>
    intro seg hseg _ _ hnext
    cases seg with
    | nil => rfl
    | cons c s =>
      simp only [List.length_nil, List.drop_zero, List.cons_append, List.head?_cons,
        Option.any_some] at hnext
      rw [hseg c (List.mem_cons_self _ _)] at hnext
      cases hnext
  | cons l w ih =>
    intro seg hseg hw hs hnext
    cases seg with
    | nil =>
      simp only [List.nil_append, startsFold, Bool.and_eq_true] at hs
      rw [hw l (List.mem_cons_self _ _)] at hs
      cases hs.1
    | cons c s =>
      simp only [List.cons_append, startsFold, Bool.and_eq_true] at hs
      simp only [List.cons_append, List.length_cons, List.drop_succ_cons] at hnext
      have := ih s (fun x hx => hseg x (List.mem_cons_of_mem _ hx))
        (fun x hx => hw x (List.mem_cons_of_mem _ hx)) hs.2 hnext
      simp [equalFold, hs.1, this]

/-- The lexer at an identifier that is no keyword, followed by a dot or a
colon. -/
theorem lexOne_identifier (seg rest : List Char) (d : Char)
    (hseg : identifierText seg = true) (hd : d = '.' ∨ d = ':') :
    lexOne (seg ++ d :: rest) = some (.Identifier, seg.length) := by
  have hdw : isWord d = false := by rcases hd with rfl | rfl <;> decide
  cases seg with
  | nil => simp [identifierText] at hseg
  | cons c cs =>
    simp only [identifierText, Bool.and_eq_true, List.all_eq_true, Bool.not_eq_true',
      Bool.or_eq_false_iff] at hseg
    obtain ⟨⟨hc, hcs⟩, ⟨⟨hk1, hk2⟩, hk3⟩, hk4⟩ := hseg
    have hall : ∀ x ∈ c :: cs, isWord x = true := by
      intro x hx
      rcases List.mem_cons.1 hx with rfl | hx
      · simp [isWord, hc]
      · exact hcs x hx
    have hkw : matchKeyword (c :: cs ++ d :: rest) = none := by
      apply matchKeyword_none
      intro word hword
      have hfold : ∀ l ∈ word, foldMatches l d = false := by
        simp only [List.mem_cons, List.mem_singleton, List.not_mem_nil, or_false] at hword
        rcases hword with rfl | rfl | rfl | rfl <;> rcases hd with rfl | rfl <;> decide
      have hne : equalFold word (c :: cs) = false := by
        simp only [List.mem_cons, List.mem_singleton, List.not_mem_nil, or_false] at hword
        rcases hword with rfl | rfl | rfl | rfl <;> assumption
      unfold matchWord
      split_ifs with hm
      · exfalso
        simp only [Bool.and_eq_true, Bool.not_eq_true'] at hm
        have := startsFold_word_boundary d rest word (c :: cs) hall hfold hm.1 hm.2
        rw [hne] at this
        cases this
      · rfl
    unfold lexOne
    have hsp : ¬ spanLength isSpace (c :: cs ++ d :: rest) > 0 := by
      simp [spanLength, isIdentStart_not_space c hc]
    rw [if_neg hsp, hkw]
    simp only [List.cons_append, List.head?_cons, Option.any_some, hc, if_true]
    rw [← List.cons_append, spanLength_append_eq isWord d hdw, spanLength_all isWord _ hall]

theorem lexOne_colon (rest : List Char) : lexOne (':' :: rest) = some (.Operator, 1) := by
  simp [lexOne, spanLength, isSpace, matchKeyword, matchWord, startsFold, foldMatches,
    isIdentStart, matchFloat, matchSign, isDigit, matchInt, matchString, matchOperator,
    Option.orElse]

theorem lexOne_comma (rest : List Char) : lexOne (',' :: rest) = some (.Separator, 1) := by
  simp [lexOne, spanLength, isSpace, matchKeyword, matchWord, startsFold, foldMatches,
    isIdentStart, matchFloat, matchSign, isDigit, matchInt, matchString, Option.orElse]

theorem lexOne_open_bracket (rest : List Char) : lexOne ('[' :: rest) = some (.Bracket, 1) := by
  simp [lexOne, spanLength, isSpace, matchKeyword, matchWord, startsFold, foldMatches,
    isIdentStart, matchFloat, matchSign, isDigit, matchInt, matchString, Option.orElse]

theorem lexOne_close_bracket (rest : List Char) :
    lexOne (']' :: rest) = some (.Bracket, 1) := by
  simp [lexOne, spanLength, isSpace, matchKeyword, matchWord, startsFold, foldMatches,
    isIdentStart, matchFloat, matchSign, isDigit, matchInt, matchString, Option.orElse]

/-- The lexer at a dot followed by a character that is no digit. -/
theorem lexOne_dot (c : Char) (rest : List Char) (hc : isDigit c = false) :
    lexOne ('.' :: c :: rest) = some (.Separator, 1) := by
  have hdot : isDigit '.' = false := by decide
  have h0 : spanLength isDigit ('.' :: c :: rest) = 0 := by simp [spanLength, hdot]
  have h1 : spanLength isDigit (c :: rest) = 0 := by simp [spanLength, hc]
  have hf : matchFloat ('.' :: c :: rest) = none := by
    simp [matchFloat, matchSign, h0, h1]
  have hi : matchInt ('.' :: c :: rest) = none := by
    simp [matchInt, matchSign, h0]
  simp [lexOne, spanLength, isSpace, matchKeyword, matchWord, startsFold, foldMatches,
    isIdentStart, hf, hi, matchString, Option.orElse]

/-- The lexer at one space followed by a text that does not start with white
space. -/
theorem lexOne_space (rest : List Char) (hr : rest.head?.any isSpace = false) :
    lexOne (' ' :: rest) = some (.WS, 1) := by
  have h0 : spanLength isSpace rest = 0 := by
    cases rest with
    | nil => rfl
    | cons c r =>
      simp only [List.head?_cons, Option.any_some] at hr
      simp [spanLength, hr]
  have h1 : spanLength isSpace (' ' :: rest) = 1 := by
    rw [spanLength, if_pos (by decide), h0]
  unfold lexOne
  rw [if_pos (by rw [h1]; decide), h1]

theorem matchExponent_append_eq (d : Char) (hd : d = ',' ∨ d = ']') (a rest : List Char) :
    matchExponent (a ++ d :: rest) = matchExponent a := by
  have hdig : isDigit d = false := by rcases hd with rfl | rfl <;> decide
  have he : ¬ (d = 'e' ∨ d = 'E') := by rcases hd with rfl | rfl <;> decide
  have hs : ¬ (d = '-' ∨ d = '+') := by rcases hd with rfl | rfl <;> decide
  have h0 : spanLength isDigit (d :: rest) = 0 := by simp [spanLength, hdig]
  match a with
  | [] =>
    simp only [List.nil_append, matchExponent, Bool.or_eq_true, decide_eq_true_eq, if_neg he]
  | [e] =>
    simp only [List.cons_append, List.nil_append, matchExponent, Bool.or_eq_true,
      decide_eq_true_eq, if_neg hs, h0]
    split_ifs <;> first | rfl | omega
  | e :: c :: t =>
    have h1 := spanLength_append_eq isDigit d hdig t rest
    have h2 := spanLength_append_eq isDigit d hdig (c :: t) rest
    simp only [List.cons_append] at h2
    simp only [List.cons_append, matchExponent, h1, h2]

theorem matchSign_append (d : Char) (hd : d = ',' ∨ d = ']') (a rest : List Char) :
    matchSign (a ++ d :: rest) = matchSign a := by
  cases a with
  | nil =>
    have hs : ¬ (d = '-' ∨ d = '+') := by rcases hd with rfl | rfl <;> decide
    simp [matchSign, hs]
  | cons c a => rfl

theorem matchSign_le_length (a : List Char) :
    matchSign a ≤ a.length := by
  cases a with
  | nil => simp [matchSign]
  | cons c a =>
    have := matchSign_le_one (c :: a)
    simp only [List.length_cons]
    omega

theorem matchFloat_append_eq (d : Char) (hd : d = ',' ∨ d = ']') (s rest : List Char) :
    matchFloat (s ++ d :: rest) = matchFloat s := by
  have hdig : isDigit d = false := by rcases hd with rfl | rfl <;> decide
  have hdot : d ≠ '.' := by rcases hd with rfl | rfl <;> decide
  unfold matchFloat
  simp only
  rw [matchSign_append d hd]
  have hk := matchSign_le_length s
  generalize matchSign s = k at hk
  rw [List.drop_append_of_le_length hk, spanLength_append_eq isDigit d hdig]
  have hw : spanLength isDigit (s.drop k) ≤ (s.drop k).length := by
    have := spanLength_append_le isDigit d hdig (s.drop k) rest
    rwa [spanLength_append_eq isDigit d hdig] at this
  generalize spanLength isDigit (s.drop k) = whole at hw
  rw [List.drop_append_of_le_length hw]
  cases h2 : (s.drop k).drop whole with
  | nil =>
    simp only [List.nil_append]
    split
    · rename_i t heq
      exact absurd (List.cons.inj heq).1 hdot
    · rfl
  | cons c s3 =>
    simp only [List.cons_append]
    by_cases hc : c = '.'
    · subst hc
      simp only
      rw [spanLength_append_eq isDigit d hdig]
      have hf : spanLength isDigit s3 ≤ s3.length := by
        have := spanLength_append_le isDigit d hdig s3 rest
        rwa [spanLength_append_eq isDigit d hdig] at this
      rw [List.drop_append_of_le_length hf, matchExponent_append_eq d hd]
    · split
      · rename_i t heq
        exact absurd (List.cons.inj heq).1 hc
      · split
        · rename_i t heq
          exact absurd (List.cons.inj heq).1 hc
        · rfl

theorem matchInt_append_eq (d : Char) (hd : d = ',' ∨ d = ']') (s rest : List Char) :
    matchInt (s ++ d :: rest) = matchInt s := by
  have hdig : isDigit d = false := by rcases hd with rfl | rfl <;> decide
  unfold matchInt
  simp only
  rw [matchSign_append d hd]
  have hk := matchSign_le_length s
  generalize matchSign s = k at hk
  rw [List.drop_append_of_le_length hk, spanLength_append_eq isDigit d hdig]
  have hw : spanLength isDigit (s.drop k) ≤ (s.drop k).length := by
    have := spanLength_append_le isDigit d hdig (s.drop k) rest
    rwa [spanLength_append_eq isDigit d hdig] at this
  generalize spanLength isDigit (s.drop k) = whole at hw
  rw [List.drop_append_of_le_length hw, matchExponent_append_eq d hd]

theorem matchClosing_append_some (q : Char) (x : List Char) :
    ∀ (a : List Char) (n : Nat), matchClosing q a = some n →
      matchClosing q (a ++ x) = some n := by
  intro a
  induction a with
  | nil => intro n h; cases h
  | cons c a ih =>
    intro n h
    rw [matchClosing] at h
    rw [List.cons_append, matchClosing]
    split_ifs at h ⊢ with hc
    · exact h
    · cases hm : matchClosing q a with
      | none => rw [hm] at h; cases h
      | some m =>
        rw [hm] at h
        rw [ih m hm]
        exact h

theorem matchString_append_some (s x : List Char) (n : Nat) (h : matchString s = some n) :
    matchString (s ++ x) = some n := by
  cases s with
  | nil => cases h
  | cons c s =>
    rw [matchString] at h
    rw [List.cons_append, matchString]
    split_ifs at h ⊢ with hc
    cases hm : matchClosing c s with
    | none => rw [hm] at h; cases h
    | some m =>
      rw [hm] at h
      rw [matchClosing_append_some c x s m hm]
      exact h

/-- The token of a literal does not depend on a comma or a closing square
bracket after it. -/
theorem lexOne_literal_append (d : Char) (hd : d = ',' ∨ d = ']') (s rest : List Char)
    (ty : TokenType) (n : Nat) (hty : ty = .Int ∨ ty = .Float ∨ ty = .String)
    (h : lexOne s = some (ty, n)) :
    lexOne (s ++ d :: rest) = some (ty, n) := by
  cases s with
  | nil => simp [lexOne, spanLength, matchKeyword, matchWord, startsFold, matchFloat, matchSign,
      matchInt, matchString, matchOperator, Option.orElse] at h
  | cons c s =>
    unfold lexOne at h
    by_cases h1 : spanLength isSpace (c :: s) > 0
    · rw [if_pos h1] at h
      simp only [Option.some.injEq, Prod.mk.injEq] at h
      rcases hty with e | e | e <;> rw [e] at h <;> cases h.1
    rw [if_neg h1] at h
    have hsp : isSpace c = false := by
      by_contra hc
      simp only [Bool.not_eq_false] at hc
      exact h1 (by simp [spanLength, hc])
    cases hk : matchKeyword (c :: s) with
    | some m =>
      rw [hk] at h
      simp only [Option.some.injEq, Prod.mk.injEq] at h
      rcases hty with e | e | e <;> rw [e] at h <;> cases h.1
    | none =>
      rw [hk] at h
      simp only at h
      by_cases h2 : (c :: s).head?.any isIdentStart = true
      · rw [if_pos h2] at h
        simp only [Option.some.injEq, Prod.mk.injEq] at h
        rcases hty with e | e | e <;> rw [e] at h <;> cases h.1
      rw [if_neg h2] at h
      have hk2 : matchKeyword (c :: s ++ d :: rest) = none := by
        cases hk3 : matchKeyword (c :: s ++ d :: rest) with
        | none => rfl
        | some m => exact absurd (matchKeyword_head _ m hk3) h2
      have goal : lexOne (c :: s ++ d :: rest)
          = match matchFloat (c :: s ++ d :: rest) with
            | some n => some (.Float, n)
            | none =>
              match matchInt (c :: s ++ d :: rest) with
              | some n => some (.Int, n)
              | none =>
                match matchString (c :: s ++ d :: rest) with
                | some n => some (.String, n)
                | none =>
                  if (c :: s ++ d :: rest).head?.any (fun c => c = ',' || c = '.') then
                    some (.Separator, 1)
                  else if (c :: s ++ d :: rest).head?.any
                      (fun c => c = '[' || c = ']' || c = '(' || c = ')') then
                    some (.Bracket, 1)
                  else (matchOperator (c :: s ++ d :: rest)).map fun n => (.Operator, n) := by
        have hsp2 : ¬ spanLength isSpace (c :: s ++ d :: rest) > 0 := by
          simp [spanLength, hsp]
        have h2b : ¬ (c :: s ++ d :: rest).head?.any isIdentStart = true := h2
        rw [lexOne, if_neg hsp2, hk2]
        simp only
        rw [if_neg h2b]
      rw [goal, matchFloat_append_eq d hd, matchInt_append_eq d hd]
      cases hf : matchFloat (c :: s) with
      | some m => rw [hf] at h; exact h
      | none =>
        rw [hf] at h
        simp only at h ⊢
        cases hi : matchInt (c :: s) with
        | some m => rw [hi] at h; exact h
        | none =>
          rw [hi] at h
          simp only at h ⊢
          cases hst : matchString (c :: s) with
          | some m =>
            rw [hst] at h
            rw [matchString_append_some _ _ m hst]
            exact h
          | none =>
            rw [hst] at h
            simp only at h
            exfalso
            split_ifs at h
            · simp only [Option.some.injEq, Prod.mk.injEq] at h
              rcases hty with e | e | e <;> rw [e] at h <;> cases h.1
            · simp only [Option.some.injEq, Prod.mk.injEq] at h
              rcases hty with e | e | e <;> rw [e] at h <;> cases h.1
            · cases ho : matchOperator (c :: s) with
              | none => rw [ho] at h; cases h
              | some m =>
                rw [ho] at h
                simp only [Option.map_some', Option.some.injEq, Prod.mk.injEq] at h
                rcases hty with e | e | e <;> rw [e] at h <;> cases h.1

/-- What a text with a literal value is: one token of a literal class, the
whole text, whose conversion gives the value. -/
theorem literalOf_some (lit : Literals) (text : String) (v : Value)
    (h : literalOf lit text = some v) :
    ∃ ty tok, lexOne text.data = some (ty, text.data.length)
      ∧ makeToken ty text.data = some tok ∧ tokenLiteral lit tok = some v
      ∧ (ty = .Int ∨ ty = .Float ∨ ty = .String)
      ∧ text.data ≠ [] ∧ text.data.head?.any isSpace = false := by
  unfold literalOf at h
  cases hl : lexOne text.data with
  | none => rw [hl] at h; cases h
  | some r =>
    obtain ⟨ty, n⟩ := r
    rw [hl] at h
    simp only at h
    split_ifs at h with hn
    subst hn
    cases hm : makeToken ty text.data with
    | none => rw [hm] at h; cases h
    | some tok =>
      rw [hm] at h
      simp only [Option.some_bind] at h
      have htyp := (makeToken_typ ty _ tok hm).1
      have hty : ty = .Int ∨ ty = .Float ∨ ty = .String := by
        rw [← htyp]
        unfold tokenLiteral at h
        by_cases h1 : tok.Typ = .Int
        · exact Or.inl h1
        by_cases h2 : tok.Typ = .Float
        · exact Or.inr (Or.inl h2)
        by_cases h3 : tok.Typ = .String
        · exact Or.inr (Or.inr h3)
        rw [if_neg h1, if_neg h2, if_neg h3] at h
        cases h
      refine ⟨ty, tok, rfl, hm, h, hty, ?_, ?_⟩
      · intro he
        rw [he] at hl
        simp [lexOne, spanLength, matchKeyword, matchWord, startsFold, matchFloat, matchSign,
          matchInt, matchString, matchOperator, Option.orElse] at hl
      · cases hd : text.data with
        | nil => rfl
        | cons c s =>
          simp only [List.head?_cons, Option.any_some]
          by_contra hc
          simp only [Bool.not_eq_false] at hc
          rw [hd] at hl
          have hpos : spanLength isSpace (c :: s) > 0 := by simp [spanLength, hc]
          rw [lexOne, if_pos hpos] at hl
          simp only [Option.some.injEq, Prod.mk.injEq] at hl
          rcases hty with e | e | e <;> rw [e] at hl <;> cases hl.1

theorem identifierText_head (seg : List Char) (h : identifierText seg = true) :
    ∃ c cs, seg = c :: cs ∧ isIdentStart c = true := by
  cases seg with
  | nil => simp [identifierText] at h
  | cons c cs =>
    simp only [identifierText, Bool.and_eq_true] at h
    exact ⟨c, cs, rfl, h.1.1⟩

theorem moreText_colon_head (more : List String) (rest : List Char) :
    ∃ d r, (moreText more).data ++ ':' :: rest = d :: r ∧ (d = '.' ∨ d = ':') := by
  cases more with
  | nil => exact ⟨':', rest, rfl, Or.inr rfl⟩
  | cons seg more =>
    refine ⟨'.', seg.data ++ (moreText more).data ++ ':' :: rest, ?_, Or.inl rfl⟩
    simp [moreText, String.data_append]

/-- The lexer on the segments of a field path after the first, before a
colon. -/
theorem lexFrom_moreText (rest : List Char) :
    ∀ more : List String, (∀ seg ∈ more, identifierText seg.data = true) →
      lexFrom 0 ((moreText more).data ++ ':' :: rest)
        = (lexFrom 0 (':' :: rest)).map (moreTokens more ++ ·) := by
  intro more
  induction more with
  | nil =>
    intro _
    show lexFrom 0 (':' :: rest) = _
    cases lexFrom 0 (':' :: rest) <;> rfl
  | cons seg more ih =>
    intro hall
    have hseg := hall seg (List.mem_cons_self _ _)
    have ih2 := ih (fun s hs => hall s (List.mem_cons_of_mem _ hs))
    obtain ⟨c, cs, hcs, hc⟩ := identifierText_head seg.data hseg
    obtain ⟨d, r, hdr, hd⟩ := moreText_colon_head more rest
    have htext : (moreText (seg :: more)).data ++ ':' :: rest
        = ['.'] ++ (seg.data ++ ((moreText more).data ++ ':' :: rest)) := by
      simp [moreText, String.data_append]
    have h1 : lexOne (['.'] ++ (seg.data ++ ((moreText more).data ++ ':' :: rest)))
        = some (.Separator, ['.'].length) := by
      rw [hcs]
      exact lexOne_dot c _ (isIdentStart_not_digit c hc)
    have h2 : lexOne (seg.data ++ ((moreText more).data ++ ':' :: rest))
        = some (.Identifier, seg.data.length) := by
      rw [hdr]
      exact lexOne_identifier seg.data r d hseg hd
    have hne : seg.data ≠ [] := by rw [hcs]; simp
    rw [htext, lexFrom_token ['.'] _ .Separator ⟨.Separator, "."⟩ (by simp) h1 rfl,
      lexFrom_token seg.data _ .Identifier ⟨.Identifier, seg⟩ hne h2 rfl, ih2]
    cases lexFrom 0 (':' :: rest) <;> rfl

/-- The lexer on a field path before a colon: the tokens of the path, then
those of the rest. -/
theorem lexFrom_path (first : String) (more : List String) (rest : List Char)
    (hfirst : identifierText first.data = true)
    (hmore : ∀ seg ∈ more, identifierText seg.data = true) :
    lexFrom 0 ((pathText first more).data ++ ':' :: rest)
      = (lexFrom 0 (':' :: rest)).map (pathTokens first more ++ ·) := by
  obtain ⟨c, cs, hcs, hc⟩ := identifierText_head first.data hfirst
  obtain ⟨d, r, hdr, hd⟩ := moreText_colon_head more rest
  have htext : (pathText first more).data ++ ':' :: rest
      = first.data ++ ((moreText more).data ++ ':' :: rest) := by
    simp [pathText, String.data_append]
  have h2 : lexOne (first.data ++ ((moreText more).data ++ ':' :: rest))
      = some (.Identifier, first.data.length) := by
    rw [hdr]
    exact lexOne_identifier first.data r d hfirst hd
  have hne : first.data ≠ [] := by rw [hcs]; simp
  rw [htext, lexFrom_token first.data _ .Identifier ⟨.Identifier, first⟩ hne h2 rfl,
    lexFrom_moreText rest more hmore]
  cases lexFrom 0 (':' :: rest) <;> rfl

theorem lexFrom_colon (rest : List Char) :
    lexFrom 0 (':' :: rest) = (lexFrom 0 rest).map (colonToken :: ·) :=
  lexFrom_token [':'] rest .Operator colonToken (by simp) (lexOne_colon rest) rfl

theorem lexFrom_comma (rest : List Char) :
    lexFrom 0 (',' :: rest) = (lexFrom 0 rest).map ((⟨.Separator, ","⟩ : Token) :: ·) :=
  lexFrom_token [','] rest .Separator ⟨.Separator, ","⟩ (by simp) (lexOne_comma rest) rfl

theorem lexFrom_open_bracket (rest : List Char) :
    lexFrom 0 ('[' :: rest) = (lexFrom 0 rest).map ((⟨.Bracket, "["⟩ : Token) :: ·) :=
  lexFrom_token ['['] rest .Bracket ⟨.Bracket, "["⟩ (by simp) (lexOne_open_bracket rest) rfl

theorem lexFrom_space (rest : List Char) (hr : rest.head?.any isSpace = false) :
    lexFrom 0 (' ' :: rest) = (lexFrom 0 rest).map ((⟨.WS, " "⟩ : Token) :: ·) :=
  lexFrom_token [' '] rest .WS ⟨.WS, " "⟩ (by simp) (lexOne_space rest hr) rfl

/-- The lexer at the text of a literal, at the end of the input or before a
comma or a closing square bracket. -/
theorem lexFrom_literal (s rest : List Char) (ty : TokenType) (tok : Token)
    (hrest : rest = [] ∨ ∃ d r, rest = d :: r ∧ (d = ',' ∨ d = ']'))
    (hty : ty = .Int ∨ ty = .Float ∨ ty = .String) (hne : s ≠ [])
    (hl : lexOne s = some (ty, s.length)) (hm : makeToken ty s = some tok) :
    lexFrom 0 (s ++ rest) = (lexFrom 0 rest).map (tok :: ·) := by
  refine lexFrom_token s rest ty tok hne ?_ hm
  rcases hrest with rfl | ⟨d, r, rfl, hd⟩
  · rw [List.append_nil]
    exact hl
  · exact lexOne_literal_append d hd s r ty _ hty hl

/-- The tokens of `f: v`. -/
theorem lex_colon_literal (lit : Literals) (first : String) (more : List String)
    (vt : String) (v : Value) (hfirst : identifierText first.data = true)
    (hmore : ∀ seg ∈ more, identifierText seg.data = true)
    (hv : literalOf lit vt = some v) :
    ∃ tv, tokenLiteral lit tv = some v
      ∧ lex (pathText first more ++ ": " ++ vt)
        = .ok (pathTokens first more ++ [colonToken, ⟨.WS, " "⟩, tv]) := by
  obtain ⟨ty, tok, hl, hm, htl, hty, hne, hsp⟩ := literalOf_some lit vt v hv
  refine ⟨tok, htl, ?_⟩
  have hdata : (pathText first more ++ ": " ++ vt).data
      = (pathText first more).data ++ ':' :: ' ' :: (vt.data ++ []) := by
    simp [String.data_append]
  have hsp2 : (vt.data ++ []).head?.any isSpace = false := by
    rw [List.append_nil]
    exact hsp
  unfold lex
  rw [hdata, lexFrom_path first more _ hfirst hmore, lexFrom_colon, lexFrom_space _ hsp2,
    lexFrom_literal vt.data [] ty tok (Or.inl rfl) hty hne hl hm]
  rfl

/-- The tokens of `f: [a, b]`. -/
theorem lex_colon_range (lit : Literals) (first : String) (more : List String)
    (atext bt : String) (a b : Value) (hfirst : identifierText first.data = true)
    (hmore : ∀ seg ∈ more, identifierText seg.data = true)
    (ha : literalOf lit atext = some a) (hb : literalOf lit bt = some b) :
    ∃ ta tb, tokenLiteral lit ta = some a ∧ tokenLiteral lit tb = some b
      ∧ lex (pathText first more ++ ": [" ++ atext ++ ", " ++ bt ++ "]")
        = .ok (pathTokens first more ++ [colonToken, ⟨.WS, " "⟩, ⟨.Bracket, "["⟩, ta,
            ⟨.Separator, ","⟩, ⟨.WS, " "⟩, tb, ⟨.Bracket, "]"⟩]) := by
  obtain ⟨tya, toka, hla, hma, htla, htya, hnea, -⟩ := literalOf_some lit atext a ha
  obtain ⟨tyb, tokb, hlb, hmb, htlb, htyb, hneb, hspb⟩ := literalOf_some lit bt b hb
  refine ⟨toka, tokb, htla, htlb, ?_⟩
  have hdata : (pathText first more ++ ": [" ++ atext ++ ", " ++ bt ++ "]").data
      = (pathText first more).data ++ ':' :: ' ' :: '[' :: (atext.data ++ ',' :: ' ' ::
          (bt.data ++ [']'])) := by
    simp [String.data_append]
  have hspb2 : (bt.data ++ [']']).head?.any isSpace = false := by
    cases hd : bt.data with
    | nil => exact absurd hd hneb
    | cons c s =>
      rw [hd] at hspb
      exact hspb
  have h8 : lexFrom 0 [']'] = .ok [⟨.Bracket, "]"⟩] := rfl
  unfold lex
  rw [hdata, lexFrom_path first more _ hfirst hmore, lexFrom_colon,
    lexFrom_space ('[' :: (atext.data ++ ',' :: ' ' :: (bt.data ++ [']']))) rfl,
    lexFrom_open_bracket,
    lexFrom_literal atext.data _ tya toka (Or.inr ⟨',', _, rfl, Or.inl rfl⟩) htya hnea hla hma,
    lexFrom_comma, lexFrom_space _ hspb2,
    lexFrom_literal bt.data _ tyb tokb (Or.inr ⟨']', _, rfl, Or.inr rfl⟩) htyb hneb hlb hmb,
    h8]
  rfl

/-- A text that the lexer reads as a token of a literal class is not empty and
does not start with white space. -/
theorem literal_text_head (s : List Char) (ty : TokenType) (n : Nat)
    (hty : ty = .Int ∨ ty = .Float ∨ ty = .String) (hl : lexOne s = some (ty, n)) :
    s ≠ [] ∧ s.head?.any isSpace = false := by
  constructor
  · intro he
    rw [he] at hl
    simp [lexOne, spanLength, matchKeyword, matchWord, startsFold, matchFloat, matchSign,
      matchInt, matchString, matchOperator, Option.orElse] at hl
  · cases s with
    | nil => rfl
    | cons c s =>
      simp only [List.head?_cons, Option.any_some]
      by_contra hc
      simp only [Bool.not_eq_false] at hc
      have hpos : spanLength isSpace (c :: s) > 0 := by simp [spanLength, hc]
      rw [lexOne, if_pos hpos] at hl
      simp only [Option.some.injEq, Prod.mk.injEq] at hl
      rcases hty with e | e | e <;> rw [e] at hl <;> cases hl.1

/-- The tokens of a field path, a colon, a space and a text that is one token
of a literal class. -/
theorem lex_colon_token (first : String) (more : List String) (vt : String)
    (ty : TokenType) (tok : Token) (hfirst : identifierText first.data = true)
    (hmore : ∀ seg ∈ more, identifierText seg.data = true)
    (hty : ty = .Int ∨ ty = .Float ∨ ty = .String)
    (hl : lexOne vt.data = some (ty, vt.data.length)) (hm : makeToken ty vt.data = some tok) :
    lex (pathText first more ++ ": " ++ vt)
      = .ok (pathTokens first more ++ [colonToken, ⟨.WS, " "⟩, tok]) := by
  obtain ⟨hne, hsp⟩ := literal_text_head vt.data ty _ hty hl
  have hdata : (pathText first more ++ ": " ++ vt).data
      = (pathText first more).data ++ ':' :: ' ' :: (vt.data ++ []) := by
    simp [String.data_append]
  have hsp2 : (vt.data ++ []).head?.any isSpace = false := by
    rw [List.append_nil]
    exact hsp
  unfold lex
  rw [hdata, lexFrom_path first more _ hfirst hmore, lexFrom_colon, lexFrom_space _ hsp2,
    lexFrom_literal vt.data [] ty tok (Or.inl rfl) hty hne hl hm]
  rfl

/-- The lexer at white space followed by an opening square bracket. -/
theorem lexFrom_spaces_bracket (sp rest : List Char) (hsp : ∀ c ∈ sp, isSpace c = true) :
    ∃ ws : List Token, (∀ t ∈ ws, t.Typ = .WS) ∧ ws.length ≤ 1
      ∧ lexFrom 0 (sp ++ '[' :: rest)
        = (lexFrom 0 rest).map fun toks => ws ++ (⟨.Bracket, "["⟩ : Token) :: toks := by
  cases hs : sp with
  | nil =>
    refine ⟨[], by simp, by simp, ?_⟩
    rw [List.nil_append, lexFrom_open_bracket]
    rfl
  | cons c s =>
    rw [← hs]
    have hne : sp ≠ [] := by rw [hs]; simp
    have hone : lexOne (sp ++ '[' :: rest) = some (.WS, sp.length) := by
      have hlen : spanLength isSpace (sp ++ '[' :: rest) = sp.length := by
        rw [spanLength_append_eq isSpace '[' (by decide), spanLength_all isSpace sp hsp]
      have hpos : spanLength isSpace (sp ++ '[' :: rest) > 0 := by
        rw [hlen]
        exact List.length_pos.2 hne
      rw [lexOne, if_pos hpos, hlen]
    refine ⟨[⟨.WS, String.mk sp⟩], by simp, by simp, ?_⟩
    rw [lexFrom_token sp _ .WS ⟨.WS, String.mk sp⟩ hne hone rfl, lexFrom_open_bracket]
    cases lexFrom 0 rest <;> rfl

/-- The tokens of a field path, a colon, optional white space, an opening
square bracket and any text. -/
theorem lex_colon_bracket (first : String) (more : List String) (sp : List Char)
    (rest : String) (hfirst : identifierText first.data = true)
    (hmore : ∀ seg ∈ more, identifierText seg.data = true)
    (hsp : ∀ c ∈ sp, isSpace c = true) :
    ∃ ws : List Token, (∀ t ∈ ws, t.Typ = .WS) ∧ ws.length ≤ 1
      ∧ lex (pathText first more ++ ":" ++ String.mk sp ++ "[" ++ rest)
        = (lexFrom 0 rest.data).map fun toks =>
            pathTokens first more ++ colonToken :: (ws ++ (⟨.Bracket, "["⟩ : Token) :: toks) := by
  obtain ⟨ws, h1, h2, h3⟩ := lexFrom_spaces_bracket sp rest.data hsp
  refine ⟨ws, h1, h2, ?_⟩
  have hdata : (pathText first more ++ ":" ++ String.mk sp ++ "[" ++ rest).data
      = (pathText first more).data ++ ':' :: (sp ++ '[' :: rest.data) := by
    simp [String.data_append]
  unfold lex
  rw [hdata, lexFrom_path first more _ hfirst hmore, lexFrom_colon, h3]
  cases lexFrom 0 rest.data <;> rfl

/-- A condition read at a field path and a colon followed, after the optional
white space, by an opening square bracket: a `Between` node on the path,
without negation. -/
theorem parseCondition_colon_bracket_node (lit : Literals) (first : String)
    (more : List String) (tail : List Token) (c : ConditionGrammar) (rest : List Token)
    (hlen : more.length < MaxIterations)
    (hbr : (optWS tail).head? = some ⟨.Bracket, "["⟩)
    (h : parseCondition lit (pathTokens first more ++ colonToken :: tail) = .ok c rest) :
    ∃ b, c = ⟨false, pathText first more, none, some b, none⟩ := by
  obtain ⟨h1, h2, h3⟩ := parseCondition_colon_bracket lit first more tail c rest hlen hbr h
  rw [parseCondition_path_colon lit first more tail hlen] at h
  split at h
  · cases h
  · have hmem := disjunction_ok _ _ _ _ _ h
    simp only [List.mem_cons, List.mem_singleton, List.not_mem_nil, or_false] at hmem
    rcases hmem with hm | hm | hm
    · obtain ⟨a, -, ha⟩ := PResult.map_ok _ _ _ _ hm.symm
      subst ha
      cases h1
    · obtain ⟨a, -, ha⟩ := PResult.map_ok _ _ _ _ hm.symm
      exact ⟨a, ha.symm⟩
    · obtain ⟨a, -, ha⟩ := PResult.map_ok _ _ _ _ hm.symm
      subst ha
      cases h3

/-- An input that `Parse` accepts and whose tokens are a field path and a
colon followed, after the optional white space, by an opening square bracket:
the first condition is a Range on the path. -/
theorem Parse_colon_bracket_tokens (lit : Literals) (input first : String)
    (more : List String) (tail : List Token) (filter : Filter)
    (hlen : more.length < MaxIterations)
    (hbr : (optWS tail).head? = some ⟨.Bracket, "["⟩)
    (hl : lex input = .ok (pathTokens first more ++ colonToken :: tail))
    (h : Parse (ParseGrammar lit) input = .ok filter) :
    ∃ c cs, filter.Conditions = c :: cs ∧ c.Field = pathText first more ∧ c.Not = false
      ∧ c.Op = OpRange := by
  unfold Parse at h
  cases hp : ParseGrammar lit input with
  | error err => rw [hp] at h; cases h
  | ok e =>
    rw [hp] at h
    simp only at h
    unfold ParseGrammar at hp
    rw [hl] at hp
    simp only at hp
    have hfuel : MaxIterations = 999999 + 1 := rfl
    have hopt : optWS (pathTokens first more ++ colonToken :: tail)
        = pathTokens first more ++ colonToken :: tail := by
      simp [pathTokens, optWS]
    cases hpc : parseConditions lit MaxIterations
        (pathTokens first more ++ colonToken :: tail) with
    | noMatch => rw [hpc] at hp; cases hp
    | err r => rw [hpc] at hp; cases hp
    | ok nodes r =>
      rw [hpc] at hp
      cases r with
      | cons t r2 => cases hp
      | nil =>
        simp only [Except.ok.injEq] at hp
        subst hp
        rw [hfuel, parseConditions, hopt] at hpc
        cases hc : parseCondition lit (pathTokens first more ++ colonToken :: tail) with
        | noMatch =>
          rw [hc] at hpc
          simp only [PResult.ok.injEq] at hpc
          simp [pathTokens] at hpc
        | err r =>
          rw [hc] at hpc
          simp only at hpc
          split_ifs at hpc
          simp only [PResult.ok.injEq] at hpc
          simp [pathTokens] at hpc
        | ok c r =>
          rw [hc] at hpc
          simp only at hpc
          obtain ⟨b, hb⟩ := parseCondition_colon_bracket_node lit first more tail c r hlen hbr hc
          cases hrest : parseConditions lit 999999 r with
          | noMatch => rw [hrest] at hpc; cases hpc
          | err r3 => rw [hrest] at hpc; cases hpc
          | ok cs2 r3 =>
            rw [hrest] at hpc
            simp only [PResult.ok.injEq] at hpc
            obtain ⟨hnodes, -⟩ := hpc
            subst hnodes
            unfold convert at h
            simp only at h
            rw [convertNodes] at h
            have hop : opFromCond c = .ok OpRange := by
              rw [hb]
              rfl
            rw [hop] at h
            simp only at h
            obtain ⟨f1, f2, f3, f4⟩ :=
              fillValue_frame { Not := c.Not, Field := c.Symbol, Op := OpRange, Values := [] } c
            cases hf : fillValue { Not := c.Not, Field := c.Symbol, Op := OpRange, Values := [] } c with
            | mk c0 e =>
              rw [hf] at h f1 f2 f3 f4
              simp only at f1 f2 f3 f4
              subst f1
              simp only at h
              cases hcn : convertNodes cs2 with
              | error e2 => rw [hcn] at h; cases h
              | panic msg => rw [hcn] at h; cases h
              | ok conds =>
                rw [hcn] at h
                simp only [Res.ok.injEq] at h
                subst h
                refine ⟨c0, conds, rfl, ?_, ?_, f4⟩
                · rw [f2, hb]
                · rw [f3, hb]

/-- A number whose conversion fails is no value: the parser fails at its
token. -/
theorem parseValue_rejected (lit : Literals) (tok : Token) (rest : List Token)
    (h : (tok.Typ = .Int ∧ lit.ParseInt tok.Value = none)
      ∨ (tok.Typ = .Float ∧ lit.ParseFloat tok.Value = none)) :
    parseValue lit (tok :: rest) = .err rest := by
  rw [parseValue]
  rcases h with ⟨h1, h2⟩ | ⟨h1, h2⟩
  · rw [if_pos h1, h2]
  · rw [if_neg (by rw [h1]; decide), if_pos h1, h2]

/-- An input whose tokens are a field path, the colon, white space and a
number whose conversion fails is rejected in the grammar stage. -/
theorem Parse_colon_rejected_tokens (lit : Literals) (input first : String)
    (more : List String) (ws : String) (tok : Token) (hlen : more.length < MaxIterations)
    (hrej : (tok.Typ = .Int ∧ lit.ParseInt tok.Value = none)
      ∨ (tok.Typ = .Float ∧ lit.ParseFloat tok.Value = none))
    (hl : lex input = .ok (pathTokens first more ++ [colonToken, ⟨.WS, ws⟩, tok])) :
    Parse (ParseGrammar lit) input = .error (.errorf "parse: unexpected token") := by
  have hv := parseValue_rejected lit tok [] hrej
  have hopt : optWS (pathTokens first more ++ [colonToken, ⟨.WS, ws⟩, tok])
      = pathTokens first more ++ colonToken :: [⟨.WS, ws⟩, tok] := by
    simp [pathTokens, optWS]
  have halt : parseCompareAlt lit (colonToken :: [⟨.WS, ws⟩, tok]) = .err [] := by
    simp [parseCompareAlt, parseCompare, optWS, colonToken, hv]
  have hc : parseCondition lit (pathTokens first more ++ colonToken :: [⟨.WS, ws⟩, tok])
      = .err [] := by
    rw [parseCondition_path_colon lit first more _ hlen, halt]
    simp [disjunction, PResult.map, stop]
  have hfuel : MaxIterations = 999999 + 1 := rfl
  have hpc : parseConditions lit MaxIterations
      (pathTokens first more ++ [colonToken, ⟨.WS, ws⟩, tok]) = .err [] := by
    rw [hfuel, parseConditions, hopt, hc]
    simp only [stop, pathTokens, lookahead, List.cons_append, List.length_cons,
      List.length_append, List.length_nil]
    rw [if_pos (by simp)]
  unfold Parse ParseGrammar
  rw [hl]
  simp only
  rw [hpc]
  rfl

/-! ## Lemmas on the LIKE semantics -/

theorem likeMatch_percent (p t : List Char) :
    likeMatch ('%' :: p) t = anySuffix (likeMatch p) t := by
  rw [likeMatch.eq_def]
  simp

theorem likeMatch_escape (x : Char) (p : List Char) (y : Char) (t : List Char) :
    likeMatch ('\\' :: x :: p) (y :: t) = (y == x && likeMatch p t) := by
  rw [likeMatch]
  simp

theorem likeMatch_escape_nil (x : Char) (p : List Char) :
    likeMatch ('\\' :: x :: p) [] = false := by
  rw [likeMatch]
  simp

theorem likeMatch_plain (c : Char) (p : List Char) (y : Char) (t : List Char)
    (h1 : c ≠ '%') (h2 : c ≠ '_') (h3 : c ≠ '\\') :
    likeMatch (c :: p) (y :: t) = (y == c && likeMatch p t) := by
  rw [likeMatch.eq_def]
  simp [h1, h2, h3]

theorem likeMatch_plain_nil (c : Char) (p : List Char)
    (h1 : c ≠ '%') (h2 : c ≠ '_') (h3 : c ≠ '\\') :
    likeMatch (c :: p) [] = false := by
  rw [likeMatch.eq_def]
  simp [h1, h2, h3]

theorem anySuffix_iff (f : List Char → Bool) (t : List Char) :
    anySuffix f t = true ↔ ∃ pre suf, t = pre ++ suf ∧ f suf = true := by
  induction t with
  | nil =>
    simp only [anySuffix]
    constructor
    · intro h; exact ⟨[], [], rfl, h⟩
    · rintro ⟨pre, suf, h, hf⟩
      have : suf = [] := by
        have := congrArg List.length h
        simp at this
        exact List.eq_nil_of_length_eq_zero (by omega)
      rw [this] at hf; exact hf
  | cons c t ih =>
    simp only [anySuffix, Bool.or_eq_true, ih]
    constructor
    · rintro (h | ⟨pre, suf, h, hf⟩)
      · exact ⟨[], c :: t, rfl, h⟩
      · exact ⟨c :: pre, suf, by rw [h]; rfl, hf⟩
    · rintro ⟨pre, suf, h, hf⟩
      cases pre with
      | nil => left; rw [h]; exact hf
      | cons d pre =>
        right
        simp only [List.cons_append, List.cons.injEq] at h
        exact ⟨pre, suf, h.2, hf⟩

/-- The escaped text of a value without `_`, followed by a pattern `p`,
matches exactly the texts that start with the value and go on with a match of `p`. -/
theorem likeMatch_escaped_append (s : List Char) (hs : '_' ∉ s) (p t : List Char) :
    likeMatch (s.flatMap escapeOneSpec ++ p) t = true
      ↔ ∃ t2, t = s ++ t2 ∧ likeMatch p t2 = true := by
  induction s generalizing t with
  | nil => simp
  | cons c s ih =>
    have hc : c ≠ '_' := fun h => hs (by simp [h])
    have hs2 : '_' ∉ s := fun h => hs (by simp [h])
    have key : ∀ q : List Char,
        (∀ y t2, likeMatch q (y :: t2) = (y == c && likeMatch (s.flatMap escapeOneSpec ++ p) t2)) →
        likeMatch q [] = false →
        (likeMatch q t = true ↔ ∃ t2, t = c :: s ++ t2 ∧ likeMatch p t2 = true) := by
      intro q hq hnil
      cases t with
      | nil => simp [hnil]
      | cons y t2 =>
        rw [hq, Bool.and_eq_true, ih hs2]
        constructor
        · rintro ⟨hy, t3, ht, hm⟩
          have : y = c := by simpa using hy
          exact ⟨t3, by rw [this, ht]; rfl, hm⟩
        · rintro ⟨t3, ht, hm⟩
          simp only [List.cons_append, List.cons.injEq] at ht
          exact ⟨by simp [ht.1], t3, ht.2, hm⟩
    rw [List.flatMap_cons]
    by_cases h1 : c = '\\'
    · subst h1
      exact key _ (fun y t2 => likeMatch_escape _ _ y t2) (likeMatch_escape_nil _ _)
    · by_cases h2 : c = '%'
      · subst h2
        exact key _ (fun y t2 => likeMatch_escape _ _ y t2) (likeMatch_escape_nil _ _)
      · by_cases h3 : c = '.'
        · subst h3
          exact key _ (fun y t2 => likeMatch_escape _ _ y t2) (likeMatch_escape_nil _ _)
        · have e : escapeOneSpec c = [c] := by simp [escapeOneSpec, h1, h2, h3]
          rw [e]
          exact key _ (fun y t2 => likeMatch_plain c _ y t2 h2 hc h1)
            (likeMatch_plain_nil c _ h2 hc h1)

theorem likeMatch_percent_all (t : List Char) : likeMatch ['%'] t = true := by
  rw [likeMatch_percent, anySuffix_iff]
  exact ⟨t, [], by simp, rfl⟩

/-- For a value without `_`, the pattern bound by the Contains branch matches
exactly the texts in which the value occurs as a contiguous substring. -/
theorem containsPattern_matches_iff (s v : String) (hs : '_' ∉ s.data) :
    likeMatch (containsPattern s).data v.data = true ↔ s.data <:+: v.data := by
  have hp : (containsPattern s).data = '%' :: (s.data.flatMap escapeOneSpec ++ ['%']) := by
    simp [containsPattern, escapeLike_data]
  rw [hp, likeMatch_percent, anySuffix_iff]
  constructor
  · rintro ⟨pre, suf, hv, hm⟩
    obtain ⟨t2, ht, _⟩ := (likeMatch_escaped_append s.data hs ['%'] suf).mp hm
    exact ⟨pre, t2, by rw [hv, ht, List.append_assoc]⟩
  · rintro ⟨pre, t2, hv⟩
    exact ⟨pre, s.data ++ t2, by rw [← hv, List.append_assoc],
      (likeMatch_escaped_append s.data hs ['%'] (s.data ++ t2)).mpr
        ⟨t2, rfl, likeMatch_percent_all t2⟩⟩

/-! ## The tests of the package, replayed on the embedding -/

/-- The table of `Test_escapeLike`. -/
theorem Test_escapeLike :
    escapeLike "foo123" = "foo123"
      ∧ escapeLike "foo\\bar" = "foo\\\\bar"
      ∧ escapeLike "foo%bar" = "foo\\%bar"
      ∧ escapeLike "foo. bar" = "foo\\. bar"
      ∧ escapeLike "\\.%" = "\\\\\\.\\%"
      ∧ escapeLike "a\\.%%.1" = "a\\\\\\.\\%\\%\\.1"
      ∧ escapeLike "b\\\\%\\%.2" = "b\\\\\\\\\\%\\\\\\%\\.2" := by
  decide

/-- The case "not eq and eq" of `Test_ApplyFilters`, from the conditions that
`Parse` returns for it. -/
theorem Test_ApplyFilters_not_eq_and_eq :
    (applyFilter testLib testConfig
        ⟨[⟨"firstName", true, OpEqual, [.str "Attila"]⟩,
          ⟨"lastName", false, OpEqual, [.str "Molnar"]⟩]⟩ testQuery).1.wheres
      = [(" NOT \"test_user\".\"first_name\" = ?", [Param.val (.str "Attila")]),
         ("\"test_user\".\"last_name\" = ?", [Param.val (.str "Molnar")])] := by
  decide

/-- The case "nested field in" of `Test_ApplyFilters`, from the conditions that
`Parse` returns for it. -/
theorem Test_ApplyFilters_nested_field_in :
    (applyFilter testLib testConfig
        ⟨[⟨"props.prop_one", false, OpIn, [.str "1", .str "2"]⟩,
          ⟨"props.prop_two", false, OpIn, [.str "3", .str "4"]⟩]⟩ testQuery).1.wheres
      = [("\"test_user\".\"props\"->>? IN (?)",
            [Param.val (.str "prop_one"), Param.inGroup [.str "1", .str "2"]]),
         ("\"test_user\".\"props\"->>? IN (?)",
            [Param.val (.str "prop_two"), Param.inGroup [.str "3", .str "4"]])] := by
  decide

/-- The case "known and unknown fields" of `Test_ApplyFilters`: the call
returns an error after the fragment of the first condition has been added. -/
theorem Test_ApplyFilters_known_and_unknown_fields :
    (applyFilter testLib testConfig
        ⟨[⟨"firstName", false, OpEqual, [.str "fn"]⟩,
          ⟨"unknown", false, OpEqual, [.str "foo"]⟩]⟩ testQuery).2
      = .error (.errorf "field: \"unknown\": not found in model") := by
  decide

/-- The case "not int range" of `Test_ApplyFilters`, from the expression. -/
theorem Test_ApplyFilters_not_int_range :
    (ApplyFilters (ParseGrammar testLiterals) testLib "not loginCount: [1, 100]" testConfig
        testQuery).1.wheres
      = [("\"test_user\".\"login_count\" NOT  BETWEEN ? AND ?",
          [Param.val (.int 1), Param.val (.int 100)])] := by
  decide

/-- The case "string contains" of `Test_ApplyFilters`, from the expression. -/
theorem Test_ApplyFilters_string_contains :
    (ApplyFilters (ParseGrammar testLiterals) testLib "firstName: \"A%.\\\\\"" testConfig
        testQuery).1.wheres
      = [("\"test_user\".\"first_name\" LIKE ?", [Param.val (.str "%A\\%\\.\\\\%")])] := by
  decide

/-- The cases "known field without op", "unterminated string", "empty in" and
"nested field named as keyword" of `Test_ApplyFilters`: the parser rejects the
expression. -/
theorem Test_ApplyFilters_parse_errors :
    (ApplyFilters (ParseGrammar testLiterals) testLib "lastName" testConfig testQuery).2
        = .error (.errorf "parse: unexpected token")
      ∧ (ApplyFilters (ParseGrammar testLiterals) testLib "lastName \"" testConfig testQuery).2
        = .error (.errorf "parse: invalid token")
      ∧ (ApplyFilters (ParseGrammar testLiterals) testLib "lastName in ()" testConfig testQuery).2
        = .error (.errorf "parse: unexpected token")
      ∧ (ApplyFilters (ParseGrammar testLiterals) testLib "props.in IN (\"1\", \"2\")" testConfig
          testQuery).2
        = .error (.errorf "parse: unexpected token") := by
  decide

/-- The parser on the empty input: no token, no condition. -/
theorem ParseGrammar_empty (lit : Literals) : ParseGrammar lit "" = .ok ⟨[]⟩ := rfl

/-- The function `Parse` on an input that the parser reads as the empty
expression. -/
theorem Parse_of_empty (ParseGrammar : GrammarParser) (input : String)
    (h : ParseGrammar input = .ok ⟨[]⟩) : Parse ParseGrammar input = .ok ⟨[]⟩ := by
  simp [Parse, h, convert, convertNodes]

/-! ## Theorems -/

/-- C2: for every string `s`, `escapeLike s` is the concatenation, character by
character in order, of two backslashes for each backslash, backslash and `%`
for each `%`, backslash and `.` for each `.`, and the character itself for
every other character. The scan is a single pass: what it inserts is not
scanned again. -/
theorem escapeLike_eq_spec (s : String) : escapeLike s = escapeLikeSpec s :=
  String.ext (escapeLike_data s)

theorem wellEscaped_flatMap (s : List Char) : wellEscaped (s.flatMap escapeOneSpec) = true := by
  induction s with
  | nil => simp [wellEscaped]
  | cons c s ih =>
    rw [List.flatMap_cons]
    by_cases h1 : c = '\\'
    · simp [h1, escapeOneSpec, wellEscaped, ih]
    · by_cases h2 : c = '%'
      · simp [h2, escapeOneSpec, wellEscaped, ih]
      · by_cases h3 : c = '.'
        · simp [h3, escapeOneSpec, wellEscaped, ih]
        · simp only [escapeOneSpec, h1, h2, h3, if_false, List.singleton_append]
          rw [wellEscaped.eq_def]
          simp [h1, h2, h3, ih]

theorem dropEscapes_flatMap (s : List Char) : dropEscapes (s.flatMap escapeOneSpec) = s := by
  induction s with
  | nil => simp [dropEscapes]
  | cons c s ih =>
    rw [List.flatMap_cons]
    by_cases h1 : c = '\\'
    · simp [h1, escapeOneSpec, dropEscapes, ih]
    · by_cases h2 : c = '%'
      · simp [h2, escapeOneSpec, dropEscapes, ih]
      · by_cases h3 : c = '.'
        · simp [h3, escapeOneSpec, dropEscapes, ih]
        · simp only [escapeOneSpec, h1, h2, h3, if_false, List.singleton_append]
          rw [dropEscapes.eq_def]
          simp [h1, ih]

/-- C4: for every string `s`, `escapeLike s` reads left to right as plain
characters (none of backslash, `%`, `.`) and two-character escapes (backslash
followed by backslash, `%` or `.`), so it has no unescaped `%` or `.` and no
dangling trailing backslash; dropping the leading backslash of every escape
gives back `s`; hence `escapeLike` is injective. -/
theorem escapeLike_wellEscaped_roundtrip :
    (∀ s : String, wellEscaped (escapeLike s).data = true)
      ∧ (∀ s : String, String.mk (dropEscapes (escapeLike s).data) = s)
      ∧ Function.Injective escapeLike := by
  have hdrop : ∀ s : String, String.mk (dropEscapes (escapeLike s).data) = s := by
    intro s
    rw [escapeLike_data, dropEscapes_flatMap]
  refine ⟨?_, hdrop, ?_⟩
  · intro s
    rw [escapeLike_data]
    exact wellEscaped_flatMap s.data
  · intro s t h
    rw [← hdrop s, ← hdrop t, h]

/-- C3, at the failing input: for the Contains condition with the value `_`
the bound pattern is `%_%`, which matches the text `a`, in which `_` does not
occur; `escapeLike` leaves the single-character wildcard `_` of LIKE
unescaped. -/
theorem containsPattern_underscore_false_positive :
    applyCondition testLib testConfig testTable 0 ⟨"lastName", false, OpContains, [.str "_"]⟩
        = .emit "\"test_user\".\"last_name\" LIKE ?" [Param.val (.str "%_%")]
      ∧ likeMatch "%_%".data "a".data = true
      ∧ ¬ ("_".data <:+: "a".data) := by
  refine ⟨by decide, by decide, ?_⟩
  decide

/-- C1: a Contains condition (as its hook, if any, left it) whose single value
is the string `v` and whose single-segment field resolves to the column
`pg.Column` yields the fragment `alias.column[ NOT ] LIKE ?` — the marker is
present when the parsed condition is negated — with exactly one bound
parameter, `%` then `escapeLike v` then `%`. -/
theorem contains_fragment (lib : Lib) (config : FilterConfig) (table : Table) (i : Nat)
    (cond cur : Condition) (v : String) (pg : PgField)
    (hhook : hookStage config cond = .ok cur)
    (hop : cur.Op = OpContains) (hval : cur.Values = [.str v])
    (hseg : Split cur.Field '.' = [cur.Field])
    (hcol : table.FieldsMap (lib.ToSnake cur.Field) = some pg) :
    applyCondition lib config table i cond
      = .emit (table.Alias ++ "." ++ pg.Column ++ (if cond.Not then " NOT " else "") ++ " LIKE ?")
          [Param.val (.str ("%" ++ escapeLike v ++ "%"))] := by
  rw [applyCondition_eq_opStage lib config table i cond cur _ _ hhook
    (fieldStage_single lib table cur pg hseg hcol),
    opStage_contains _ _ _ i cur v [] hop hval]
  rfl

theorem contains_fragment_witness :
    applyCondition testLib testConfig testTable 0 ⟨"firstName", true, OpContains, [.str "B%.\\"]⟩
      = .emit "\"test_user\".\"first_name\" NOT  LIKE ?" [Param.val (.str "%B\\%\\.\\\\%")] :=
  contains_fragment testLib testConfig testTable 0 ⟨"firstName", true, OpContains, [.str "B%.\\"]⟩
    ⟨"first_name", true, OpContains, [.str "B%.\\"]⟩ "B%.\\"
    ⟨⟨.String, .Invalid, .Invalid⟩, "\"first_name\""⟩
    rfl (by decide) (by decide) (by decide) (by decide)

/-- C5: a condition (as its hook, if any, left it) with operator Equal,
NotEqual, Less, Greater, LessOrEqual or GreaterOrEqual whose single-segment
field resolves to the column `pg.Column` yields the fragment
`[ NOT ]alias.column op ?` where `op` is `=`, `<>`, `<`, `>`, `<=`, `>=`
respectively, and the bound parameters are the values of the condition in
order. -/
theorem comparison_fragment (lib : Lib) (config : FilterConfig) (table : Table) (i : Nat)
    (cond cur : Condition) (op : Operator) (sym : String) (pg : PgField)
    (hhook : hookStage config cond = .ok cur)
    (hmem : (op, sym) ∈ [(OpEqual, "="), (OpNotEqual, "<>"), (OpLess, "<"), (OpGreater, ">"),
      (OpLessOrEqual, "<="), (OpGreaterOrEqual, ">=")])
    (hop : cur.Op = op)
    (hseg : Split cur.Field '.' = [cur.Field])
    (hcol : table.FieldsMap (lib.ToSnake cur.Field) = some pg) :
    applyCondition lib config table i cond
      = .emit ((if cond.Not then " NOT " else "") ++ table.Alias ++ "." ++ pg.Column ++ " "
            ++ sym ++ " ?")
          (cur.Values.map Param.val) := by
  rw [applyCondition_eq_opStage lib config table i cond cur _ _ hhook
    (fieldStage_single lib table cur pg hseg hcol),
    opStage_comparison _ _ _ i cur op sym hmem hop]
  simp [appendToNonEmpty, String.append_assoc]

theorem comparison_fragment_witness :
    applyCondition testLib noHooks testTable 1 ⟨"lastName", true, OpNotEqual, [.str "ln"]⟩
      = .emit " NOT \"test_user\".\"last_name\" <> ?" [Param.val (.str "ln")] :=
  comparison_fragment testLib noHooks testTable 1 ⟨"lastName", true, OpNotEqual, [.str "ln"]⟩
    ⟨"lastName", true, OpNotEqual, [.str "ln"]⟩ OpNotEqual "<>"
    ⟨⟨.String, .Invalid, .Invalid⟩, "\"last_name\""⟩
    rfl (by decide) (by decide) (by decide) (by decide)

/-- C6: an In condition (as its hook, if any, left it) whose single-segment
field resolves to the column `pg.Column` yields the fragment
`alias.column[ NOT ] IN (?)` with exactly one bound parameter, the group of
all the values of the condition in order. -/
theorem in_fragment (lib : Lib) (config : FilterConfig) (table : Table) (i : Nat)
    (cond cur : Condition) (pg : PgField)
    (hhook : hookStage config cond = .ok cur)
    (hop : cur.Op = OpIn)
    (hseg : Split cur.Field '.' = [cur.Field])
    (hcol : table.FieldsMap (lib.ToSnake cur.Field) = some pg) :
    applyCondition lib config table i cond
      = .emit (table.Alias ++ "." ++ pg.Column ++ (if cond.Not then " NOT " else "") ++ " IN (?)")
          [Param.inGroup cur.Values] := by
  rw [applyCondition_eq_opStage lib config table i cond cur _ _ hhook
    (fieldStage_single lib table cur pg hseg hcol),
    opStage_in _ _ _ i cur hop]
  rfl

theorem in_fragment_witness :
    applyCondition testLib noHooks testTable 0
        ⟨"loginCount", true, OpIn, [.int 1, .int 2, .int 3]⟩
      = .emit "\"test_user\".\"login_count\" NOT  IN (?)"
          [Param.inGroup [.int 1, .int 2, .int 3]] :=
  in_fragment testLib noHooks testTable 0 ⟨"loginCount", true, OpIn, [.int 1, .int 2, .int 3]⟩
    ⟨"loginCount", true, OpIn, [.int 1, .int 2, .int 3]⟩
    ⟨⟨.Uint, .Invalid, .Invalid⟩, "\"login_count\""⟩
    rfl (by decide) (by decide) (by decide)

/-- C7: a Range condition (as its hook, if any, left it) with the values
`start`, `end` whose single-segment field resolves to the column `pg.Column`
yields the fragment `alias.column[ NOT ] BETWEEN ? AND ?` with the bound
parameters `start` then `end`, whatever the two bounds are: they are not
compared or swapped, and `start > end` is no error. -/
theorem range_fragment (lib : Lib) (config : FilterConfig) (table : Table) (i : Nat)
    (cond cur : Condition) (start stop : Value) (pg : PgField)
    (hhook : hookStage config cond = .ok cur)
    (hop : cur.Op = OpRange) (hval : cur.Values = [start, stop])
    (hseg : Split cur.Field '.' = [cur.Field])
    (hcol : table.FieldsMap (lib.ToSnake cur.Field) = some pg) :
    applyCondition lib config table i cond
      = .emit (table.Alias ++ "." ++ pg.Column ++ (if cond.Not then " NOT " else "")
            ++ " BETWEEN ? AND ?")
          [Param.val start, Param.val stop] := by
  rw [applyCondition_eq_opStage lib config table i cond cur _ _ hhook
    (fieldStage_single lib table cur pg hseg hcol),
    opStage_range _ _ _ i cur hop, hval]
  rfl

theorem range_fragment_witness :
    applyCondition testLib noHooks testTable 0 ⟨"loginCount", false, OpRange, [.int 100, .int 1]⟩
      = .emit "\"test_user\".\"login_count\" BETWEEN ? AND ?"
          [Param.val (.int 100), Param.val (.int 1)] :=
  range_fragment testLib noHooks testTable 0 ⟨"loginCount", false, OpRange, [.int 100, .int 1]⟩
    ⟨"loginCount", false, OpRange, [.int 100, .int 1]⟩ (.int 100) (.int 1)
    ⟨⟨.Uint, .Invalid, .Invalid⟩, "\"login_count\""⟩
    rfl (by decide) (by decide) (by decide) (by decide)

/-- C8: for a condition (as its hook, if any, left it) whose field is the
two-segment path `m.k` where `m` resolves to a `map[string]string` column, the
column reference of the fragment is `alias.column->>?`, the key `k` is the
first bound parameter, followed by the parameters of the operator, and the
text of the fragment is built from the alias, the column, the negation marker
and the operator only: the key is no part of it. -/
theorem nested_fragment (lib : Lib) (config : FilterConfig) (table : Table) (i : Nat)
    (cond cur : Condition) (m k : String) (pg : PgField)
    (hhook : hookStage config cond = .ok cur)
    (hseg : Split cur.Field '.' = [m, k])
    (hcol : table.FieldsMap (lib.ToSnake m) = some pg)
    (hmap : pg.Typ.kind = Kind.Map) (hkey : pg.Typ.keyKind = Kind.String)
    (helem : pg.Typ.elemKind = Kind.String) :
    (∀ op sym, (op, sym) ∈ [(OpEqual, "="), (OpNotEqual, "<>"), (OpLess, "<"), (OpGreater, ">"),
        (OpLessOrEqual, "<="), (OpGreaterOrEqual, ">=")] → cur.Op = op →
      applyCondition lib config table i cond
        = .emit ((if cond.Not then " NOT " else "") ++ table.Alias ++ "." ++ pg.Column ++ "->>?"
              ++ " " ++ sym ++ " ?")
            (Param.val (.str k) :: cur.Values.map Param.val))
    ∧ (cur.Op = OpIn →
      applyCondition lib config table i cond
        = .emit (table.Alias ++ "." ++ pg.Column ++ "->>?"
              ++ (if cond.Not then " NOT " else "") ++ " IN (?)")
            [Param.val (.str k), Param.inGroup cur.Values])
    ∧ (cur.Op = OpRange →
      applyCondition lib config table i cond
        = .emit (table.Alias ++ "." ++ pg.Column ++ "->>?"
              ++ (if cond.Not then " NOT " else "") ++ " BETWEEN ? AND ?")
            (Param.val (.str k) :: cur.Values.map Param.val))
    ∧ (∀ v rest, cur.Op = OpContains → cur.Values = .str v :: rest →
      applyCondition lib config table i cond
        = .emit (table.Alias ++ "." ++ pg.Column ++ "->>?"
              ++ (if cond.Not then " NOT " else "") ++ " LIKE ?")
            [Param.val (.str k), Param.val (.str ("%" ++ escapeLike v ++ "%"))]) := by
  have hstage := applyCondition_eq_opStage lib config table i cond cur _ _ hhook
    (fieldStage_nested lib table cur pg m k hseg hcol hmap hkey helem)
  refine ⟨?_, ?_, ?_, ?_⟩
  · intro op sym hmem hop
    rw [hstage, opStage_comparison _ _ _ i cur op sym hmem hop]
    simp [appendToNonEmpty, String.append_assoc]
  · intro hop
    rw [hstage, opStage_in _ _ _ i cur hop]
    rfl
  · intro hop
    rw [hstage, opStage_range _ _ _ i cur hop]
    rfl
  · intro v rest hop hval
    rw [hstage, opStage_contains _ _ _ i cur v rest hop hval]
    rfl

theorem nested_fragment_witness :
    applyCondition testLib noHooks testTable 0 ⟨"props.prop_one", true, OpNotEqual, [.str "42"]⟩
      = .emit " NOT \"test_user\".\"props\"->>? <> ?"
          [Param.val (.str "prop_one"), Param.val (.str "42")] :=
  (nested_fragment testLib noHooks testTable 0 ⟨"props.prop_one", true, OpNotEqual, [.str "42"]⟩
    ⟨"props.prop_one", true, OpNotEqual, [.str "42"]⟩ "props" "prop_one"
    ⟨⟨.Map, .String, .String⟩, "\"props\""⟩
    rfl (by decide) (by decide) (by decide) (by decide) (by decide)).1
    OpNotEqual "<>" (by decide) (by decide)

/-- C9: under a configuration with no hook for their fields, two conditions
that agree on the first segment of the field path, on whether the path is
dotted, on `Not` and on `Op` yield the same fragment text whatever their values
and whatever the nested key: if both yield a fragment the two texts are equal;
if one yields a fragment the other yields a fragment with that text or (a
Contains condition whose first value is no string) panics; and if one returns
an error the other returns the same error. -/
theorem fragment_text_noninterference (lib : Lib) (config : FilterConfig) (table : Table)
    (i : Nat) (c1 c2 : Condition)
    (hh1 : config.Hooks c1.Field = none) (hh2 : config.Hooks c2.Field = none)
    (hseg : (Split c1.Field '.').head? = (Split c2.Field '.').head?)
    (hdot : (Split c1.Field '.').length > 1 ↔ (Split c2.Field '.').length > 1)
    (hnot : c1.Not = c2.Not) (hop : c1.Op = c2.Op) :
    (∀ t1 p1 t2 p2, applyCondition lib config table i c1 = .emit t1 p1 →
        applyCondition lib config table i c2 = .emit t2 p2 → t1 = t2)
    ∧ (∀ t1 p1, applyCondition lib config table i c1 = .emit t1 p1 →
        (∃ p2, applyCondition lib config table i c2 = .emit t1 p2)
          ∨ ∃ msg, applyCondition lib config table i c2 = .panic msg)
    ∧ (∀ err, applyCondition lib config table i c1 = .fail err →
        applyCondition lib config table i c2 = .fail err) := by
  have hB : ∀ t1 p1, applyCondition lib config table i c1 = .emit t1 p1 →
      (∃ p2, applyCondition lib config table i c2 = .emit t1 p2)
        ∨ ∃ msg, applyCondition lib config table i c2 = .panic msg := by
    intro t1 p1 h1
    rw [applyCondition_no_hook lib config table i c1 hh1] at h1
    rw [applyCondition_no_hook lib config table i c2 hh2]
    rcases fieldStage_first_segment lib table c1 c2 hseg hdot with
      ⟨out, e1, e2⟩ | ⟨field, q1, q2, e1, e2⟩
    · rw [e1] at h1
      obtain ⟨err, rfl⟩ := fieldStage_error_is_fail lib table c1 out e1
      cases h1
    · rw [e1] at h1
      rw [e2, ← hnot]
      exact opStage_text _ field q1 q2 i c1 c2 hop t1 p1 h1
  refine ⟨?_, hB, ?_⟩
  · intro t1 p1 t2 p2 h1 h2
    rcases hB t1 p1 h1 with ⟨q, hq⟩ | ⟨msg, hq⟩
    · rw [hq] at h2
      simp only [Outcome.emit.injEq] at h2
      exact h2.1
    · rw [hq] at h2
      cases h2
  · intro err h1
    rw [applyCondition_no_hook lib config table i c1 hh1] at h1
    rw [applyCondition_no_hook lib config table i c2 hh2]
    rcases fieldStage_first_segment lib table c1 c2 hseg hdot with
      ⟨out, e1, e2⟩ | ⟨field, q1, q2, e1, e2⟩
    · rw [e1] at h1
      rw [e2]
      exact h1
    · rw [e1] at h1
      rw [e2, ← hnot]
      exact opStage_fail _ field q1 q2 i c1 c2 hop err h1

theorem fragment_text_noninterference_witness :
    (∃ p2, applyCondition testLib noHooks testTable 0
          ⟨"props.b) OR (1=1", false, OpEqual, [.str "x OR 1=1"]⟩
        = .emit "\"test_user\".\"props\"->>? = ?" p2)
      ∨ ∃ msg, applyCondition testLib noHooks testTable 0
          ⟨"props.b) OR (1=1", false, OpEqual, [.str "x OR 1=1"]⟩ = .panic msg :=
  (fragment_text_noninterference testLib noHooks testTable 0
    ⟨"props.a", false, OpEqual, [.str "x"]⟩
    ⟨"props.b) OR (1=1", false, OpEqual, [.str "x OR 1=1"]⟩
    rfl rfl (by decide) (by decide) rfl rfl).2.1
    "\"test_user\".\"props\"->>? = ?" [Param.val (.str "a"), Param.val (.str "x")] (by decide)

/-- C10: for every condition whose field has no registered hook, whatever its
operator, compiling it with `Not = true` and with `Not = false` either yields
two fragments with the same bound parameters whose texts differ only by the
marker ` NOT ` (removing the marker from the negated text gives the plain
text), or yields no fragment either way and ends the same way. -/
theorem negation_symmetry (lib : Lib) (config : FilterConfig) (table : Table) (i : Nat)
    (cond : Condition) (hh : config.Hooks cond.Field = none) :
    (∃ pre post params,
        applyCondition lib config table i { cond with Not := false } = .emit (pre ++ post) params
        ∧ applyCondition lib config table i { cond with Not := true }
            = .emit (pre ++ " NOT " ++ post) params)
      ∨ ((∀ t p, applyCondition lib config table i { cond with Not := false } ≠ .emit t p)
        ∧ applyCondition lib config table i { cond with Not := true }
            = applyCondition lib config table i { cond with Not := false }) := by
  rw [applyCondition_no_hook lib config table i { cond with Not := false } hh,
    applyCondition_no_hook lib config table i { cond with Not := true } hh,
    fieldStage_congr lib table { cond with Not := false } cond rfl,
    fieldStage_congr lib table { cond with Not := true } cond rfl]
  cases hf : fieldStage lib table cond with
  | error out =>
    obtain ⟨err, rfl⟩ := fieldStage_error_is_fail lib table cond out hf
    exact Or.inr ⟨fun t p h => Outcome.noConfusion h, rfl⟩
  | ok r =>
    obtain ⟨field, params⟩ := r
    simp only [Bool.false_eq_true, if_false, if_true]
    rw [opStage_congr "" field params i { cond with Not := false } cond rfl rfl,
      opStage_congr " NOT " field params i { cond with Not := true } cond rfl rfl]
    exact opStage_negation field params i cond

theorem negation_symmetry_witness :
    (∃ pre post params,
        applyCondition testLib noHooks testTable 0
            { ({ Field := "firstName", Not := true, Op := OpIn, Values := [.str "A", .str "B"] } :
                Condition) with Not := false } = .emit (pre ++ post) params
        ∧ applyCondition testLib noHooks testTable 0
            { ({ Field := "firstName", Not := true, Op := OpIn, Values := [.str "A", .str "B"] } :
                Condition) with Not := true } = .emit (pre ++ " NOT " ++ post) params)
      ∨ ((∀ t p, applyCondition testLib noHooks testTable 0
            { ({ Field := "firstName", Not := true, Op := OpIn, Values := [.str "A", .str "B"] } :
                Condition) with Not := false } ≠ .emit t p)
        ∧ applyCondition testLib noHooks testTable 0
            { ({ Field := "firstName", Not := true, Op := OpIn, Values := [.str "A", .str "B"] } :
                Condition) with Not := true }
          = applyCondition testLib noHooks testTable 0
            { ({ Field := "firstName", Not := true, Op := OpIn, Values := [.str "A", .str "B"] } :
                Condition) with Not := false }) :=
  negation_symmetry testLib noHooks testTable 0
    { Field := "firstName", Not := true, Op := OpIn, Values := [.str "A", .str "B"] } rfl

/-- C11: a condition whose field (as its hook, if any, left it) is a single
segment whose snake-case form is no key of the field map makes `ApplyFilters`
return the error `field: "<name>": not found in model`, the name written with
the `%q` verb, and the sink stays as it is: no fragment is added for the
condition. The same holds for a dotted path whose first segment is unknown,
with the first segment as the name. -/
theorem unknown_field_error (lib : Lib) (config : FilterConfig) (table : Table) (i : Nat)
    (cond cur : Condition) (rest : List Condition) (query : Query)
    (hhook : hookStage config cond = .ok cur) :
    (Split cur.Field '.' = [cur.Field] → table.FieldsMap (lib.ToSnake cur.Field) = none →
      applyConditions lib config table i (cond :: rest) query
        = (query, .error (.errorf ("field: " ++ lib.Quote cur.Field ++ ": not found in model"))))
    ∧ (∀ first more, Split cur.Field '.' = first :: more → more ≠ [] →
        table.FieldsMap (lib.ToSnake first) = none →
      applyConditions lib config table i (cond :: rest) query
        = (query, .error (.errorf ("field: " ++ lib.Quote first ++ ": not found in model")))) := by
  constructor
  · intro hseg hcol
    exact applyConditions_cons_fail lib config table i cond rest query _
      (applyCondition_of_fieldStage_error lib config table i cond cur _ hhook
        (fieldStage_single_unknown lib table cur hseg hcol))
  · intro first more hseg hmore hcol
    exact applyConditions_cons_fail lib config table i cond rest query _
      (applyCondition_of_fieldStage_error lib config table i cond cur _ hhook
        (fieldStage_dotted_unknown lib table cur first more hseg hmore hcol))

theorem unknown_field_error_witness :
    (applyConditions testLib testConfig testTable 1
        [⟨"unknown", false, OpEqual, [.str "foo"]⟩, ⟨"lastName", false, OpEqual, [.str "x"]⟩]
        (testQuery.Where "\"test_user\".\"first_name\" = ?" [Param.val (.str "fn")])).2
      = .error (.errorf "field: \"unknown\": not found in model") :=
  congrArg Prod.snd
    ((unknown_field_error testLib testConfig testTable 1 ⟨"unknown", false, OpEqual, [.str "foo"]⟩
      ⟨"unknown", false, OpEqual, [.str "foo"]⟩ [⟨"lastName", false, OpEqual, [.str "x"]⟩]
      (testQuery.Where "\"test_user\".\"first_name\" = ?" [Param.val (.str "fn")]) rfl).1
      (by decide) (by decide))

/-- C12: a condition whose field (as its hook, if any, left it) is a dotted
path whose first segment resolves to a column that is no map makes
`ApplyFilters` return the error `field: "<first>": not a map`; when the column
is a map whose key or element kind is not string the error is
`field: "<first>": got map[K]E want map[string]string` with the actual kinds.
Either way the sink stays as it is: no fragment is added for the condition. -/
theorem dotted_field_type_error (lib : Lib) (config : FilterConfig) (table : Table) (i : Nat)
    (cond cur : Condition) (rest : List Condition) (query : Query)
    (first : String) (more : List String) (pg : PgField)
    (hhook : hookStage config cond = .ok cur)
    (hseg : Split cur.Field '.' = first :: more) (hmore : more ≠ [])
    (hcol : table.FieldsMap (lib.ToSnake first) = some pg) :
    (pg.Typ.kind ≠ Kind.Map →
      applyConditions lib config table i (cond :: rest) query
        = (query, .error (.errorf ("field: " ++ lib.Quote first ++ ": not a map"))))
    ∧ (pg.Typ.kind = Kind.Map →
        pg.Typ.keyKind ≠ Kind.String ∨ pg.Typ.elemKind ≠ Kind.String →
      applyConditions lib config table i (cond :: rest) query
        = (query, .error (.errorf ("field: " ++ lib.Quote first ++ ": got map["
            ++ kindName pg.Typ.keyKind ++ "]" ++ kindName pg.Typ.elemKind
            ++ " want map[string]string")))) := by
  constructor
  · intro hkind
    exact applyConditions_cons_fail lib config table i cond rest query _
      (applyCondition_of_fieldStage_error lib config table i cond cur _ hhook
        (fieldStage_dotted_not_map lib table cur first more pg hseg hmore hcol hkind))
  · intro hkind htype
    exact applyConditions_cons_fail lib config table i cond rest query _
      (applyCondition_of_fieldStage_error lib config table i cond cur _ hhook
        (fieldStage_dotted_map_type lib table cur first more pg hseg hmore hcol hkind htype))

theorem dotted_field_type_error_witness :
    (applyConditions testLib testConfig testTable 0 [⟨"lastName.foo", false, OpEqual, [.str "bar"]⟩]
        testQuery).2
      = .error (.errorf "field: \"lastName\": not a map") :=
  congrArg Prod.snd
    ((dotted_field_type_error testLib testConfig testTable 0
      ⟨"lastName.foo", false, OpEqual, [.str "bar"]⟩ ⟨"lastName.foo", false, OpEqual, [.str "bar"]⟩
      [] testQuery "lastName" ["foo"] ⟨⟨.String, .Invalid, .Invalid⟩, "\"last_name\""⟩
      rfl (by decide) (by decide) (by decide)).1 (by decide))

/-- C13, at the failing input: for the three-segment path `props.a.b` the loop
body returns no error; it yields the fragment of the two-segment path
`props.a`, and the third segment is dropped. -/
theorem three_segment_path_accepted :
    Split "props.a.b" '.' = ["props", "a", "b"]
      ∧ applyCondition testLib testConfig testTable 0 ⟨"props.a.b", false, OpEqual, [.str "x"]⟩
        = .emit "\"test_user\".\"props\"->>? = ?" [Param.val (.str "a"), Param.val (.str "x")]
      ∧ applyCondition testLib testConfig testTable 0 ⟨"props.a.b", false, OpEqual, [.str "x"]⟩
        = applyCondition testLib testConfig testTable 0 ⟨"props.a", false, OpEqual, [.str "x"]⟩
      ∧ (applyFilter testLib testConfig ⟨[⟨"props.a.b", false, OpEqual, [.str "x"]⟩]⟩ testQuery).2
        = .nil := by
  refine ⟨by decide, by decide, by decide, by decide⟩

/-- C14: if the hook registered for the field `f` returns `ErrNoop` on the
conditions on `f`, then for every filter the sink receives exactly the
fragments it receives for the filter with all the conditions on `f` deleted,
in the same order, and the call returns `nil` exactly when it does for that
filter: the skip itself makes no error, and the other conditions are compiled
as if the skipped ones were absent. -/
theorem hook_skip (lib : Lib) (config : FilterConfig) (f : String) (hook : FilterHook)
    (filters : Filter) (query : Query)
    (hreg : config.Hooks f = some hook)
    (hnoop : ∀ c ∈ filters.Conditions, c.Field = f → (hook c).2 = some Error.ErrNoop) :
    (applyFilter lib config filters query).1.wheres
        = (applyFilter lib config ⟨filters.Conditions.filter fun c => decide (c.Field ≠ f)⟩
            query).1.wheres
      ∧ ((applyFilter lib config filters query).2 = .nil
          ↔ (applyFilter lib config ⟨filters.Conditions.filter fun c => decide (c.Field ≠ f)⟩
              query).2 = .nil) :=
  applyConditions_skip_filter lib config query.table f hook hreg filters.Conditions 0 0 query hnoop

theorem hook_skip_witness :
    (applyFilter testLib noopConfig
        ⟨[⟨"firstName", false, OpEqual, [.str "fn"]⟩, ⟨"lastName", true, OpEqual, [.str "ln"]⟩,
          ⟨"firstName", false, OpIn, []⟩]⟩ testQuery).1.wheres
        = (applyFilter testLib noopConfig
            ⟨List.filter (fun c => decide (c.Field ≠ "firstName"))
              [⟨"firstName", false, OpEqual, [.str "fn"]⟩,
                ⟨"lastName", true, OpEqual, [.str "ln"]⟩, ⟨"firstName", false, OpIn, []⟩]⟩
            testQuery).1.wheres
      ∧ ((applyFilter testLib noopConfig
          ⟨[⟨"firstName", false, OpEqual, [.str "fn"]⟩, ⟨"lastName", true, OpEqual, [.str "ln"]⟩,
            ⟨"firstName", false, OpIn, []⟩]⟩ testQuery).2 = .nil
          ↔ (applyFilter testLib noopConfig
              ⟨List.filter (fun c => decide (c.Field ≠ "firstName"))
                [⟨"firstName", false, OpEqual, [.str "fn"]⟩,
                  ⟨"lastName", true, OpEqual, [.str "ln"]⟩, ⟨"firstName", false, OpIn, []⟩]⟩
              testQuery).2 = .nil) :=
  hook_skip testLib noopConfig "firstName" (fun cond => (cond, some .ErrNoop))
    ⟨[⟨"firstName", false, OpEqual, [.str "fn"]⟩, ⟨"lastName", true, OpEqual, [.str "ln"]⟩,
      ⟨"firstName", false, OpIn, []⟩]⟩ testQuery rfl (fun _ _ _ => rfl)

/-- C15: for a condition on the field `n` with the hook
`RenameFieldAndMapValuesFilterHook m fn` registered under `n`, where `fn`
succeeds on every value (giving `g` of it), the hook sets `Field` to `m` and
replaces every value by its image, leaving `Not` and `Op` as they are, and the
column is then resolved from `m` alone: the outcome is that of the field and
operator stages on the renamed condition, in which `n` does not occur. So a
single-segment `m` unknown to the model gives the not-found error on `m`
whether or not `n` is known, and a known one gives the fragment on its column
whether or not `n` is known. -/
theorem hook_rename (lib : Lib) (config : FilterConfig) (table : Table) (i : Nat)
    (n m : String) (fn : Mapper) (g : Value → Value) (cond : Condition)
    (hreg : config.Hooks n = some (RenameFieldAndMapValuesFilterHook m fn))
    (hfield : cond.Field = n)
    (hfn : ∀ v ∈ cond.Values, fn v = .ok (g v)) :
    RenameFieldAndMapValuesFilterHook m fn cond
        = ({ Field := m, Not := cond.Not, Op := cond.Op, Values := cond.Values.map g }, none)
      ∧ applyCondition lib config table i cond
        = (match fieldStage lib table
              { Field := m, Not := cond.Not, Op := cond.Op, Values := cond.Values.map g } with
          | .error out => out
          | .ok (field, params) =>
            opStage (if cond.Not then " NOT " else "") field params i
              { Field := m, Not := cond.Not, Op := cond.Op, Values := cond.Values.map g })
      ∧ (Split m '.' = [m] → table.FieldsMap (lib.ToSnake m) = none →
          applyCondition lib config table i cond
            = .fail (.errorf ("field: " ++ lib.Quote m ++ ": not found in model")))
      ∧ (∀ pg, Split m '.' = [m] → table.FieldsMap (lib.ToSnake m) = some pg →
          applyCondition lib config table i cond
            = opStage (if cond.Not then " NOT " else "") (table.Alias ++ "." ++ pg.Column) [] i
                { Field := m, Not := cond.Not, Op := cond.Op, Values := cond.Values.map g }) := by
  have hhookfn : RenameFieldAndMapValuesFilterHook m fn cond
      = ({ Field := m, Not := cond.Not, Op := cond.Op, Values := cond.Values.map g }, none) := by
    simp [RenameFieldAndMapValuesFilterHook, MapValues, mapValuesFrom_ok fn g cond.Values 0 hfn]
  have hstage : hookStage config cond
      = .ok { Field := m, Not := cond.Not, Op := cond.Op, Values := cond.Values.map g } := by
    simp [hookStage, hfield, hreg, hhookfn]
  refine ⟨hhookfn, ?_, ?_, ?_⟩
  · simp [applyCondition, hstage]
  · intro hseg hcol
    exact applyCondition_of_fieldStage_error lib config table i cond _ _ hstage
      (fieldStage_single_unknown lib table _ hseg hcol)
  · intro pg hseg hcol
    exact applyCondition_eq_opStage lib config table i cond _ _ _ hstage
      (fieldStage_single lib table _ pg hseg hcol)

theorem hook_rename_witness :
    applyCondition testLib testConfig testTable 0 ⟨"firstName", false, OpEqual, [.str "Attila"]⟩
      = opStage (if (⟨"firstName", false, OpEqual, [.str "Attila"]⟩ : Condition).Not then " NOT "
            else "")
          (testTable.Alias ++ "." ++ "\"first_name\"") [] 0
          { Field := "first_name", Not := false, Op := OpEqual,
            Values := List.map (fun v => v) [.str "Attila"] } :=
  (hook_rename testLib testConfig testTable 0 "firstName" "first_name" (fun value => .ok value)
    (fun v => v) ⟨"firstName", false, OpEqual, [.str "Attila"]⟩ rfl rfl (fun _ _ => rfl)).2.2.2
    ⟨⟨.String, .Invalid, .Invalid⟩, "\"first_name\""⟩ (by decide) (by decide)

/-- C16, as stated, fails: with a hook on `firstName` that returns the error
`boom`, the call returns an error with the text `hook: boom`, in which the
field name does not occur. -/
theorem hook_error_without_field_name :
    (applyFilter testLib failingConfig ⟨[⟨"firstName", false, OpEqual, [.str "fn"]⟩]⟩ testQuery).2
        = .error (.errorf "hook: boom")
      ∧ ¬ ("firstName".data <:+: "hook: boom".data) := by
  refine ⟨by decide, ?_⟩
  decide

/-- C16, amended: whenever the hook registered for the field of a condition
returns an error other than `ErrNoop`, `ApplyFilters` returns at that
condition, the sink stays as it is (no fragment for that or any later
condition), and the error returned has the text `hook: ` followed by the text
of the error of the hook. -/
theorem hook_error_aborts (lib : Lib) (config : FilterConfig) (table : Table) (i : Nat)
    (cond : Condition) (rest : List Condition) (query : Query) (hook : FilterHook) (err : Error)
    (hreg : config.Hooks cond.Field = some hook) (herr : (hook cond).2 = some err)
    (hne : err ≠ Error.ErrNoop) :
    applyConditions lib config table i (cond :: rest) query
      = (query, .error (.errorf ("hook: " ++ err.text))) :=
  applyConditions_cons_fail lib config table i cond rest query _
    (applyCondition_hook_error lib config table i cond hook err hreg herr hne)

theorem hook_error_aborts_witness :
    (applyConditions testLib failingConfig testTable 0
        [⟨"firstName", false, OpEqual, [.str "fn"]⟩, ⟨"lastName", false, OpEqual, [.str "ln"]⟩]
        testQuery).2
      = .error (.errorf ("hook: " ++ (Error.errorf "boom").text)) :=
  congrArg Prod.snd
    (hook_error_aborts testLib failingConfig testTable 0 ⟨"firstName", false, OpEqual, [.str "fn"]⟩
      [⟨"lastName", false, OpEqual, [.str "ln"]⟩] testQuery
      (fun cond => (cond, some (.errorf "boom"))) (.errorf "boom") rfl rfl (by decide))

/-- C17: the fragments the sink receives from one call of `ApplyFilters` are,
in source order, one per non-skipped condition before the first condition
that fails, and the call returns what that condition returns. With no failing
condition these are the fragments of all the non-skipped conditions and the
call returns `nil`; when a condition fails the fragments of the earlier ones
stay in the sink and nothing is added for it or a later one; when `Parse`
fails the sink stays as it is. This holds whatever parser `ParseGrammar` is. -/
theorem emission_order (ParseGrammar : GrammarParser) (lib : Lib) (expr : String)
    (config : FilterConfig) (query : Query) :
    match Parse ParseGrammar expr with
    | .ok filters =>
      (ApplyFilters ParseGrammar lib expr config query).1.wheres
          = query.wheres ++ ((outcomes lib config query.table 0 filters.Conditions).takeWhile
              fun o => !o.isFailure).filterMap Outcome.fragment
        ∧ (ApplyFilters ParseGrammar lib expr config query).2
          = (match (outcomes lib config query.table 0 filters.Conditions).find?
                Outcome.isFailure with
            | none => Ret.nil
            | some o => o.ret)
    | .error err => ApplyFilters ParseGrammar lib expr config query = (query, .error err)
    | .panic msg => ApplyFilters ParseGrammar lib expr config query = (query, .panic msg) := by
  cases h : Parse ParseGrammar expr with
  | ok filters =>
    simp only [ApplyFilters, h, applyFilter]
    exact applyConditions_outcomes lib config query.table filters.Conditions 0 query
  | error err => simp [ApplyFilters, h]
  | panic msg => simp [ApplyFilters, h]

/-- C19: for every expression whose nodes each have a shape with a registered
operator (an `In` node, a `Compare` node whose token the registry knows, or a
`Between` node), `convert` returns a filter with as many conditions as the
expression has nodes, and the condition at each index has the dotted field
path and the negation flag of the node at that index. -/
theorem convert_preserves_order (e : Expression)
    (hshape : ∀ n ∈ e.And, n.In.isSome
      ∨ (∃ cmp, n.Compare = some cmp ∧ (OperatorFromString cmp.Operator).2 = true)
      ∨ (n.Compare = none ∧ n.Between.isSome)) :
    ∃ filter, convert e = .ok filter
      ∧ filter.Conditions.length = e.And.length
      ∧ filter.Conditions.map (fun c => (c.Field, c.Not))
          = e.And.map (fun n => (n.Symbol, n.Not)) := by
  obtain ⟨cs, hcs, hlen, hmap⟩ := convertNodes_ok e.And
    (fun n hn => opFromCond_ok_of_shape n (hshape n hn))
  exact ⟨⟨cs⟩, by simp [convert, hcs], hlen, hmap⟩

theorem convert_preserves_order_witness :
    ∃ filter,
      convert ⟨[⟨true, "createBy", none, none, some ⟨[⟨none, none, some "u", none⟩]⟩⟩,
          ⟨false, "props.p", some ⟨"=", ⟨some 3, none, none, none⟩⟩, none, none⟩,
          ⟨false, "createTime", none,
            some ⟨⟨none, none, some "a", none⟩, ⟨none, none, some "b", none⟩⟩, none⟩]⟩
        = .ok filter
      ∧ filter.Conditions.length
        = (Expression.mk [⟨true, "createBy", none, none, some ⟨[⟨none, none, some "u", none⟩]⟩⟩,
          ⟨false, "props.p", some ⟨"=", ⟨some 3, none, none, none⟩⟩, none, none⟩,
          ⟨false, "createTime", none,
            some ⟨⟨none, none, some "a", none⟩, ⟨none, none, some "b", none⟩⟩, none⟩]).And.length
      ∧ filter.Conditions.map (fun c => (c.Field, c.Not))
        = (Expression.mk [⟨true, "createBy", none, none, some ⟨[⟨none, none, some "u", none⟩]⟩⟩,
          ⟨false, "props.p", some ⟨"=", ⟨some 3, none, none, none⟩⟩, none, none⟩,
          ⟨false, "createTime", none,
            some ⟨⟨none, none, some "a", none⟩, ⟨none, none, some "b", none⟩⟩,
            none⟩]).And.map (fun n => (n.Symbol, n.Not)) :=
  convert_preserves_order _ (by decide)

/-- C20: for a node with exactly one shape populated, `opFromCond` returns
`OpIn` for an `In` node, `OpRange` for a `Between` node, and for a `Compare`
node the operator the registry has for its token: `=` Equal, `!=` NotEqual,
`<` Less, `>` Greater, `<=` LessOrEqual, `>=` GreaterOrEqual, `:` Contains. -/
theorem opFromCond_shape (c : ConditionGrammar) :
    (∀ node, c.In = some node → c.Compare = none → c.Between = none →
        opFromCond c = .ok OpIn)
      ∧ (∀ node, c.Between = some node → c.In = none → c.Compare = none →
        opFromCond c = .ok OpRange)
      ∧ (∀ cmp op, c.Compare = some cmp → c.In = none → c.Between = none →
        (cmp.Operator, op) ∈ [("=", OpEqual), ("!=", OpNotEqual), ("<", OpLess), (">", OpGreater),
          ("<=", OpLessOrEqual), (">=", OpGreaterOrEqual), (":", OpContains)] →
        opFromCond c = .ok op) := by
  refine ⟨?_, ?_, ?_⟩
  · intro node hin _ _
    simp [opFromCond, hin]
  · intro node hbt hin hcmp
    simp [opFromCond, hin, hcmp, hbt]
  · intro cmp op hcmp hin _ hmem
    simp only [List.mem_cons, Prod.mk.injEq, List.mem_singleton, List.not_mem_nil,
      or_false] at hmem
    rcases hmem with h | h | h | h | h | h | h <;> obtain ⟨h1, h2⟩ := h <;> subst h2 <;>
      simp [opFromCond, hin, hcmp, h1, OperatorFromString, operatorMap, List.lookup]

theorem opFromCond_shape_witness :
    opFromCond ⟨false, "firstName", some ⟨":", ⟨none, none, some "l", none⟩⟩, none, none⟩
      = .ok OpContains :=
  (opFromCond_shape ⟨false, "firstName", some ⟨":", ⟨none, none, some "l", none⟩⟩, none, none⟩).2.2
    ⟨":", ⟨none, none, some "l", none⟩⟩ OpContains rfl rfl rfl (by decide)

/-- C18: `Parse` of the empty string succeeds with a filter of zero
conditions, and `ApplyFilters` of the empty string returns `nil` and leaves
the sink as it is, for every configuration and every field metadata (the
table of the query) and whatever the conversions of the literals are. -/
theorem empty_expression_identity (lit : Literals) :
    Parse (ParseGrammar lit) "" = .ok ⟨[]⟩
      ∧ ∀ (lib : Lib) (config : FilterConfig) (query : Query),
          ApplyFilters (ParseGrammar lit) lib "" config query = (query, .nil) := by
  have hparse := Parse_of_empty (ParseGrammar lit) "" (ParseGrammar_empty lit)
  refine ⟨hparse, ?_⟩
  intro lib config query
  simp [ApplyFilters, hparse, applyFilter, applyConditions]

/-- C26: `OperatorFromString` returns the operator and `true` for each of the
nine tokens `=`, `!=`, `<`, `>`, `<=`, `>=`, `:`, `in`, `[]` (Equal, NotEqual,
Less, Greater, LessOrEqual, GreaterOrEqual, Contains, In, Range), and the zero
operator and `false` for every other string; being total it never fails, and
it never returns the zero operator with `true`. -/
theorem OperatorFromString_table :
    (∀ s op, (s, op) ∈ [("=", OpEqual), ("!=", OpNotEqual), ("<", OpLess), (">", OpGreater),
        ("<=", OpLessOrEqual), (">=", OpGreaterOrEqual), (":", OpContains), ("in", OpIn),
        ("[]", OpRange)] → OperatorFromString s = (op, true))
      ∧ (∀ s, s ∉ ["=", "!=", "<", ">", "<=", ">=", ":", "in", "[]"] →
        OperatorFromString s = (0, false))
      ∧ (∀ s, OperatorFromString s ≠ (0, true)) := by
  refine ⟨?_, OperatorFromString_of_not_mem, ?_⟩
  · intro s op h
    apply OperatorFromString_of_mem
    simp only [List.mem_cons, Prod.mk.injEq, List.mem_singleton, List.not_mem_nil,
      or_false] at h
    rcases h with h | h | h | h | h | h | h | h | h <;> obtain ⟨h1, h2⟩ := h <;> subst h1 <;>
      subst h2 <;> decide
  · intro s h
    rcases OperatorFromString_cases s with ⟨op, hmem, hop⟩ | ⟨_, hno⟩
    · rw [hop] at h
      have hz : op = 0 := (Prod.mk.inj h).1
      subst hz
      simp [operatorMap] at hmem
    · rw [hno] at h
      exact absurd (Prod.mk.inj h).2 (by decide)

theorem OperatorFromString_table_witness :
    OperatorFromString "<=" = (OpLessOrEqual, true) ∧ OperatorFromString "==" = (0, false) :=
  ⟨OperatorFromString_table.1 "<=" OpLessOrEqual (by decide),
    OperatorFromString_table.2.1 "==" (by decide)⟩

/-- C27: the registry is a bijection between the nine operators and the nine
tokens: `OperatorFromString (o.String) = (o, true)` for each of the nine
operators; the `String` of the operator returned for a recognised token is
that token; no two tokens have the same operator, so `String` gives the same
text in whatever order the entries of the map are visited; and the `String`
of any other operator value, the zero value among them, is `unknown`, which
`OperatorFromString` does not recognise. -/
theorem registry_bijection :
    (∀ o, o ∈ [OpEqual, OpNotEqual, OpLess, OpGreater, OpLessOrEqual, OpGreaterOrEqual,
        OpContains, OpIn, OpRange] → OperatorFromString (Operator.String o) = (o, true))
      ∧ (∀ s op, OperatorFromString s = (op, true) → Operator.String op = s)
      ∧ (∀ s1 s2 op, (s1, op) ∈ operatorMap → (s2, op) ∈ operatorMap → s1 = s2)
      ∧ (∀ m : List (String × Operator), m.Perm operatorMap → ∀ o,
          (match m.find? (fun kv => kv.2 == o) with
            | some kv => kv.1
            | none => "unknown") = Operator.String o)
      ∧ (∀ o, o ∉ [OpEqual, OpNotEqual, OpLess, OpGreater, OpLessOrEqual, OpGreaterOrEqual,
          OpContains, OpIn, OpRange] → Operator.String o = "unknown")
      ∧ Operator.String 0 = "unknown"
      ∧ OperatorFromString "unknown" = (0, false) := by
  refine ⟨?_, ?_, ?_, Operator_String_order_independent, Operator_String_of_not_mem,
    by decide, by decide⟩
  · intro o ho
    simp only [List.mem_cons, List.mem_singleton, List.not_mem_nil, or_false] at ho
    rcases ho with h | h | h | h | h | h | h | h | h <;> subst h <;> decide
  · intro s op h
    rcases OperatorFromString_cases s with ⟨op2, hmem, hop⟩ | ⟨_, hno⟩
    · rw [hop] at h
      have : op2 = op := (Prod.mk.inj h).1
      subst this
      exact Operator_String_of_mem s op2 hmem
    · rw [hno] at h
      exact absurd (Prod.mk.inj h).2 (by decide)
  · intro s1 s2 op h1 h2
    exact (Operator_String_of_mem s1 op h1).symm.trans (Operator_String_of_mem s2 op h2)

theorem registry_bijection_witness :
    OperatorFromString (Operator.String OpRange) = (OpRange, true)
      ∧ Operator.String 10 = "unknown" :=
  ⟨registry_bijection.1 OpRange (by decide), registry_bijection.2.2.2.2.1 10 (by decide)⟩

/-- C21: in the filter that `convert` returns, the condition made from a
`Compare` node whose literal has the value `v` (an `int64`, a `float64`, a
string or a boolean) has `Values = [v]`; the one made from an `In` node whose
literals are the Int, Float or String values `v1 .. vn` has
`Values = [v1, .., vn]` in that order; the one made from a `Between` node
whose bounds are the Int, Float or String values `a` and `b` has
`Values = [a, b]`. -/
theorem literal_value_mapping (e : Expression) (filter : Filter) (i : Nat)
    (n : ConditionGrammar) (c : Condition)
    (h : convert e = .ok filter)
    (hn : e.And[i]? = some n) (hc : filter.Conditions[i]? = some c) :
    (∀ cmp v, n.In = none → n.Compare = some cmp → literalValue cmp.Value = some v →
        c.Values = [v])
      ∧ (∀ node vs, n.In = some node → node.Values.map literalValue = vs.map some →
        (∀ v ∈ vs, v.isBool = false) → c.Values = vs)
      ∧ (∀ node a b, n.In = none → n.Compare = none → n.Between = some node →
        literalValue node.Start = some a → literalValue node.End = some b →
        a.isBool = false → b.isBool = false → c.Values = [a, b]) := by
  obtain ⟨op, _, hcond⟩ := convert_get e filter h i n c hn hc
  subst hcond
  refine ⟨?_, ?_, ?_⟩
  · intro cmp v hin hcmp hv
    exact fillValue_compare_literal _ n cmp v hin hcmp hv rfl
  · intro node vs hin hvs hb
    exact fillValue_in_literals _ n node vs hin hvs hb rfl
  · intro node a b hin hcmp hbt ha hb hab hbb
    exact fillValue_between_literals _ n node a b hin hcmp hbt ha hb hab hbb rfl

theorem literal_value_mapping_witness :
    (⟨"createBy", true, OpIn, [.str "u", .int 3, .float 7]⟩ : Condition).Values
      = [.str "u", .int 3, .float 7] :=
  (literal_value_mapping
    ⟨[⟨true, "createBy", none, none,
        some ⟨[⟨none, none, some "u", none⟩, ⟨some 3, none, none, none⟩,
          ⟨none, some 7, none, none⟩]⟩⟩]⟩
    ⟨[⟨"createBy", true, OpIn, [.str "u", .int 3, .float 7]⟩]⟩ 0
    ⟨true, "createBy", none, none,
      some ⟨[⟨none, none, some "u", none⟩, ⟨some 3, none, none, none⟩,
        ⟨none, some 7, none, none⟩]⟩⟩
    ⟨"createBy", true, OpIn, [.str "u", .int 3, .float 7]⟩ (by decide) (by decide)
    (by decide)).2.1
    ⟨[⟨none, none, some "u", none⟩, ⟨some 3, none, none, none⟩, ⟨none, some 7, none, none⟩]⟩
    [.str "u", .int 3, .float 7] rfl (by decide) (by decide)

/-- C22, at the failing inputs: `isAdmin in (true)` is parsed and converted
into an In condition with no value, and `loginCount: [true, 5]` into a Range
condition with one value: the boolean literals, which the grammar admits
inside `In` and `Between`, are dropped. -/
theorem arity_broken_by_boolean :
    Parse (ParseGrammar testLiterals) "isAdmin in (true)"
        = .ok ⟨[⟨"isAdmin", false, OpIn, []⟩]⟩
      ∧ Parse (ParseGrammar testLiterals) "loginCount: [true, 5]"
        = .ok ⟨[⟨"loginCount", false, OpRange, [.int 5]⟩]⟩ := by
  decide

/-- C23, at the failing inputs: `convert` returns no error for a `Between`
node with a boolean bound nor for an `In` node with boolean elements; it
returns the condition without them, and `ApplyFilters` hands the sink a
`BETWEEN ? AND ?` fragment with one parameter and an `IN (?)` fragment with an
empty group. -/
theorem boolean_in_between_and_in_dropped :
    convert ⟨[⟨false, "loginCount", none,
        some ⟨⟨some 1, none, none, none⟩, ⟨none, none, none, some false⟩⟩, none⟩,
        ⟨false, "isAdmin", none, none,
          some ⟨[⟨none, none, none, some true⟩, ⟨none, none, none, some false⟩]⟩⟩]⟩
        = .ok ⟨[⟨"loginCount", false, OpRange, [.int 1]⟩, ⟨"isAdmin", false, OpIn, []⟩]⟩
      ∧ (ApplyFilters (ParseGrammar testLiterals) testLib
          "loginCount: [1, false] isAdmin in (true, false)" testConfig testQuery).1.wheres
        = [("\"test_user\".\"login_count\" BETWEEN ? AND ?", [Param.val (.int 1)]),
           ("\"test_user\".\"is_admin\" IN (?)", [Param.inGroup []])]
      ∧ (ApplyFilters (ParseGrammar testLiterals) testLib
          "loginCount: [1, false] isAdmin in (true, false)" testConfig testQuery).2 = .nil := by
  decide

/-- C24, as stated, fails: `convert` of an expression whose `In` node has an
empty value list returns a filter, with an In condition that has no value. -/
theorem convert_empty_in_no_error :
    convert ⟨[⟨false, "lastName", none, none, some ⟨[]⟩⟩]⟩
      = .ok ⟨[⟨"lastName", false, OpIn, []⟩]⟩ := by
  decide

/-- C24, amended: `convert` returns an error for no expression, and in the
filter it returns the condition made from an `In` node whose value list is
empty is an In condition with no value: the empty membership list is not
rejected at conversion time. -/
theorem convert_accepts_empty_in (e : Expression) :
    (∀ err, convert e ≠ .error err)
      ∧ (∀ (filter : Filter) (i : Nat) (n : ConditionGrammar) (c : Condition) (node : In),
          convert e = .ok filter → e.And[i]? = some n →
          filter.Conditions[i]? = some c → n.In = some node → node.Values = [] →
          c.Op = OpIn ∧ c.Values = []) := by
  refine ⟨convert_ne_error e, ?_⟩
  intro filter i n c node h hn hc hin hvs
  obtain ⟨op, hop, hcond⟩ := convert_get e filter h i n c hn hc
  have hopin : op = OpIn := by
    unfold opFromCond at hop
    rw [hin] at hop
    simp only [Res.ok.injEq] at hop
    exact hop.symm
  subst hcond
  refine ⟨(fillValue_frame _ n).2.2.2.trans hopin, ?_⟩
  exact fillValue_in_literals _ n node [] hin (by simp [hvs]) (by simp) rfl

theorem convert_accepts_empty_in_witness :
    (⟨"lastName", true, OpIn, []⟩ : Condition).Op = OpIn
      ∧ (⟨"lastName", true, OpIn, []⟩ : Condition).Values = [] :=
  (convert_accepts_empty_in ⟨[⟨true, "lastName", none, none, some ⟨[]⟩⟩]⟩).2
    ⟨[⟨"lastName", true, OpIn, []⟩]⟩ 0 ⟨true, "lastName", none, none, some ⟨[]⟩⟩
    ⟨"lastName", true, OpIn, []⟩ ⟨[]⟩ (by decide) (by decide) (by decide) rfl rfl

/-- C30, as stated, fails: at a double-quoted text with a backslash-escaped
double quote inside, the `String` class matches only up to the escaped quote
(four characters of `"a\"b"`), and the lexer, hence `Parse`, fails on the
expression `x = "a\"b"`. -/
theorem escaped_delimiter_ends_token :
    lexOne "\"a\\\"b\"".data = some (.String, 4)
      ∧ lex "x = \"a\\\"b\"" = .error (.errorf "invalid quoted string")
      ∧ Parse (ParseGrammar testLiterals) "x = \"a\\\"b\""
        = .error (.errorf "parse: invalid quoted string") := by
  refine ⟨by decide, rfl, rfl⟩

/-- C30, amended: a quoted text is one `String` token that ends at the first
occurrence of its delimiter after the opening quote, escaped or not. For a
delimiter `q` (single or double quote) and a `body` without `q`, the lexer
matches the `body.length + 2` characters of `q body q`, and the token value is
the body with its escapes resolved by the unquoting scan: the body itself when
it has no backslash, and no token at all (the lexer fails) when the body is an
accepted text followed by the backslash meant to escape the delimiter. -/
theorem string_token_ends_at_first_delimiter (q : Char) (body rest : List Char)
    (hq : q = '\'' ∨ q = '"') (hbody : q ∉ body) :
    lexOne (q :: (body ++ q :: rest)) = some (.String, body.length + 2)
      ∧ makeToken .String ((q :: (body ++ q :: rest)).take (body.length + 2))
        = (unquoteFrom q .plain body).map (fun v => ⟨.String, String.mk v⟩)
      ∧ ('\\' ∉ body → unquoteFrom q .plain body = some body)
      ∧ (∀ pre : List Char, body = pre ++ ['\\'] → (unquoteFrom q .plain pre).isSome →
          makeToken .String ((q :: (body ++ q :: rest)).take (body.length + 2)) = none) := by
  have hne : q ≠ '\\' := by rcases hq with rfl | rfl <;> decide
  refine ⟨lexOne_quoted q body rest hq hbody, makeToken_quoted q body rest,
    unquoteFrom_plain_of_no_backslash q body hbody, ?_⟩
  intro pre hpre hsome
  rw [makeToken_quoted, hpre, unquoteFrom_trailing_backslash q hne pre _ hsome]
  rfl

theorem string_token_ends_at_first_delimiter_witness :
    lexOne "\"a.b\" c".data = some (.String, 5)
      ∧ makeToken .String ("\"a.b\" c".data.take 5) = some ⟨.String, "a.b"⟩ :=
  have h := string_token_ends_at_first_delimiter '"' "a.b".data " c".data (Or.inr rfl)
    (by decide)
  ⟨h.1, h.2.1.trans (by decide)⟩

/-- C28: for every non-empty expression made only of the characters of a field
path (word characters and dots, so no operator and no white space), for
example `lastName` or `unknown`, `Parse` fails in the grammar stage with an
error whose message starts with `parse: `, and `ApplyFilters` returns that
error with the sink unchanged, whatever the model of the query is. -/
theorem bare_field_path_rejected (lit : Literals) (lib : Lib) (config : FilterConfig)
    (query : Query) (f : String) (hne : f ≠ "")
    (hchars : ∀ c ∈ f.data, pathChar c = true) :
    ∃ msg, Parse (ParseGrammar lit) f = .error (.errorf ("parse: " ++ msg))
      ∧ ApplyFilters (ParseGrammar lit) lib f config query
        = (query, .error (.errorf ("parse: " ++ msg))) := by
  have hp : Parse (ParseGrammar lit) f = .error (.errorf ("parse: " ++ "unexpected token")) := by
    unfold Parse
    rw [ParseGrammar_pathChars lit f hne hchars]
    rfl
  refine ⟨"unexpected token", hp, ?_⟩
  unfold ApplyFilters
  rw [hp]

theorem bare_field_path_rejected_witness :
    (∃ msg, Parse (ParseGrammar testLiterals) "lastName" = .error (.errorf ("parse: " ++ msg))
      ∧ ApplyFilters (ParseGrammar testLiterals) testLib "lastName" testConfig testQuery
        = (testQuery, .error (.errorf ("parse: " ++ msg))))
    ∧ (∃ msg, Parse (ParseGrammar testLiterals) "unknown" = .error (.errorf ("parse: " ++ msg))
      ∧ ApplyFilters (ParseGrammar testLiterals) testLib "unknown" testConfig testQuery
        = (testQuery, .error (.errorf ("parse: " ++ msg)))) :=
  ⟨bare_field_path_rejected testLiterals testLib testConfig testQuery "lastName"
      (by decide) (by decide),
    bare_field_path_rejected testLiterals testLib testConfig testQuery "unknown"
      (by decide) (by decide)⟩

/-- C25: for every text `f` before it, so for every field path, the expression
`f in ()` is rejected: the `In` rule reads no value at the closing
parenthesis, `Parse` fails in the grammar stage, and `ApplyFilters` returns
the error with the sink unchanged, so that no fragment is emitted. -/
theorem empty_membership_rejected (lit : Literals) (lib : Lib) (config : FilterConfig)
    (query : Query) (f : String) :
    (∀ rest, parseIn lit (closeParen :: rest) = .noMatch)
      ∧ ∃ msg, Parse (ParseGrammar lit) (f ++ " in ()") = .error (.errorf ("parse: " ++ msg))
        ∧ ApplyFilters (ParseGrammar lit) lib (f ++ " in ()") config query
          = (query, .error (.errorf ("parse: " ++ msg))) := by
  refine ⟨fun rest => rfl, ?_⟩
  have hs : f ++ " in ()" = (f ++ " in ") ++ "()" := by
    rw [String.append_assoc]
    rfl
  obtain ⟨err, he⟩ := ParseGrammar_ends_emptyGroup lit (f ++ " in ")
  rw [← hs] at he
  have hp : Parse (ParseGrammar lit) (f ++ " in ()")
      = .error (.errorf ("parse: " ++ err.text)) := by
    unfold Parse
    rw [he]
  refine ⟨err.text, hp, ?_⟩
  unfold ApplyFilters
  rw [hp]

/-- Colon disambiguation on the tokens of the lexer. For a field path of
identifiers `first`, `more` (fewer segments than the iteration limit of the
parser) and literals that are no booleans: an input whose tokens are the
path, the colon, white space and the literal of `v` is parsed into the single
condition with the path as field, no negation, the operator Contains and the
value `v`; an input whose tokens are the path, the colon, white space and
`[a, b]` is parsed into the single condition with the operator Range and the
values `a`, `b`; and whenever a condition is read at a path and a colon
followed, after optional white space, by `[`, it is a `Between` node, whose
operator is Range. -/
theorem Parse_of_colon_tokens (lit : Literals) (input first : String) (more : List String)
    (hlen : more.length < MaxIterations) :
    (∀ (ws : String) (tv : Token) (v : Value), tokenLiteral lit tv = some v →
        lex input = .ok (pathTokens first more ++ [colonToken, ⟨.WS, ws⟩, tv]) →
        Parse (ParseGrammar lit) input
          = .ok ⟨[⟨pathText first more, false, OpContains, [v]⟩]⟩)
      ∧ (∀ (ws ws2 : String) (ta tb : Token) (a b : Value),
        tokenLiteral lit ta = some a → tokenLiteral lit tb = some b →
        lex input = .ok (pathTokens first more ++ [colonToken, ⟨.WS, ws⟩, ⟨.Bracket, "["⟩, ta,
            ⟨.Separator, ","⟩, ⟨.WS, ws2⟩, tb, ⟨.Bracket, "]"⟩]) →
        Parse (ParseGrammar lit) input
          = .ok ⟨[⟨pathText first more, false, OpRange, [a, b]⟩]⟩)
      ∧ (∀ (tail : List Token) (c : ConditionGrammar) (rest : List Token),
        (optWS tail).head? = some ⟨.Bracket, "["⟩ →
        parseCondition lit (pathTokens first more ++ colonToken :: tail) = .ok c rest →
        opFromCond c = .ok OpRange) := by
  refine ⟨?_, ?_, ?_⟩
  · intro ws tv v hv hl
    obtain ⟨g, hg, hnb, hp⟩ := parseConditions_colon_literal lit first more ws tv v hlen hv
    have hpg : ParseGrammar lit input
        = .ok ⟨[⟨false, pathText first more, some ⟨":", g⟩, none, none⟩]⟩ := by
      unfold ParseGrammar
      rw [hl]
      simp only
      rw [hp]
    unfold Parse
    rw [hpg]
    simp only
    rw [convert_colon_compare _ g v hg hnb]
  · intro ws ws2 ta tb a b ha hb hl
    obtain ⟨ga, gb, hga, hna, hgb, hnb, hp⟩ :=
      parseConditions_colon_range lit first more ws ws2 ta tb a b hlen ha hb
    have hpg : ParseGrammar lit input
        = .ok ⟨[⟨false, pathText first more, none, some ⟨ga, gb⟩, none⟩]⟩ := by
      unfold ParseGrammar
      rw [hl]
      simp only
      rw [hp]
    unfold Parse
    rw [hpg]
    simp only
    rw [convert_between _ ga gb a b hga hna hgb hnb]
  · intro tail c rest hbr h
    obtain ⟨h1, h2, h3⟩ := parseCondition_colon_bracket lit first more tail c rest hlen hbr h
    unfold opFromCond
    rw [h3, h1]
    cases hb : c.Between with
    | none => rw [hb] at h2; cases h2
    | some b => rfl

/-- C29, as stated, fails: `1e5` is an `Int` literal of the lexer, and `Parse`
rejects the expression `loginCount: 1e5`, because the conversion of the token
to an integer fails. -/
theorem colon_int_literal_rejected :
    lexOne "1e5".data = some (.Int, 3)
      ∧ Parse (ParseGrammar testLiterals) "loginCount: 1e5"
        = .error (.errorf "parse: unexpected token") := by
  refine ⟨by decide, rfl⟩

/-- C29, amended: colon disambiguation, on the text of the input. For a field
path `f` of identifiers that are no keywords (fewer segments than the
iteration limit of the parser) and texts `v`, `a`, `b` that the lexer reads as
one `Int`, `Float` or `String` token whose conversion succeeds: `Parse` of
`f: v` is the single condition with the field `f`, no negation, the operator
Contains and the value of `v`, and `Parse` of `f: [a, b]` is the single
condition with the operator Range and the values of `a` and `b`. Whenever
`Parse` accepts a text that starts with `f`, a colon, optional white space and
`[`, its first condition is a Range on `f`, never a Contains. A number whose
conversion fails in place of `v` makes `Parse` fail in the grammar stage. -/
theorem colon_disambiguation (lit : Literals) (first : String) (more : List String)
    (hfirst : identifierText first.data = true)
    (hmore : ∀ seg ∈ more, identifierText seg.data = true)
    (hlen : more.length < MaxIterations) :
    (∀ (vt : String) (v : Value), literalOf lit vt = some v →
        Parse (ParseGrammar lit) (pathText first more ++ ": " ++ vt)
          = .ok ⟨[⟨pathText first more, false, OpContains, [v]⟩]⟩)
      ∧ (∀ (atext bt : String) (a b : Value),
        literalOf lit atext = some a → literalOf lit bt = some b →
        Parse (ParseGrammar lit) (pathText first more ++ ": [" ++ atext ++ ", " ++ bt ++ "]")
          = .ok ⟨[⟨pathText first more, false, OpRange, [a, b]⟩]⟩)
      ∧ (∀ (sp : List Char) (rest : String) (filter : Filter),
        (∀ c ∈ sp, isSpace c = true) →
        Parse (ParseGrammar lit) (pathText first more ++ ":" ++ String.mk sp ++ "[" ++ rest)
          = .ok filter →
        ∃ c cs, filter.Conditions = c :: cs ∧ c.Field = pathText first more ∧ c.Not = false
          ∧ c.Op = OpRange)
      ∧ (∀ vt : String,
        (lexOne vt.data = some (.Int, vt.data.length) ∧ lit.ParseInt vt = none)
          ∨ (lexOne vt.data = some (.Float, vt.data.length) ∧ lit.ParseFloat vt = none) →
        ∃ msg, Parse (ParseGrammar lit) (pathText first more ++ ": " ++ vt)
          = .error (.errorf ("parse: " ++ msg))) := by
  refine ⟨?_, ?_, ?_, ?_⟩
  · intro vt v hv
    obtain ⟨tv, htv, hl⟩ := lex_colon_literal lit first more vt v hfirst hmore hv
    exact (Parse_of_colon_tokens lit _ first more hlen).1 " " tv v htv hl
  · intro atext bt a b ha hb
    obtain ⟨ta, tb, hta, htb, hl⟩ := lex_colon_range lit first more atext bt a b hfirst hmore ha hb
    exact (Parse_of_colon_tokens lit _ first more hlen).2.1 " " " " ta tb a b hta htb hl
  · intro sp rest filter hsp h
    obtain ⟨ws, hws, hlen1, hl⟩ := lex_colon_bracket first more sp rest hfirst hmore hsp
    cases hr : lexFrom 0 rest.data with
    | error e =>
      rw [hr] at hl
      have : Parse (ParseGrammar lit)
          (pathText first more ++ ":" ++ String.mk sp ++ "[" ++ rest)
          = .error (.errorf ("parse: " ++ e.text)) := by
        unfold Parse ParseGrammar
        rw [hl]
        rfl
      rw [this] at h
      cases h
    | ok toks =>
      rw [hr] at hl
      have hbr : (optWS (ws ++ (⟨.Bracket, "["⟩ : Token) :: toks)).head?
          = some ⟨.Bracket, "["⟩ := by
        match ws, hws, hlen1 with
        | [], _, _ => rfl
        | [t], hws, _ =>
          have ht : t.Typ = .WS := hws t (by simp)
          simp [optWS, ht]
        | _ :: _ :: _, _, hlen1 => simp at hlen1
      exact Parse_colon_bracket_tokens lit _ first more _ filter hlen hbr hl h
  · intro vt hrej
    have hty : ∃ ty, (ty = .Int ∨ ty = .Float ∨ ty = .String)
        ∧ lexOne vt.data = some (ty, vt.data.length)
        ∧ ((ty = .Int ∧ lit.ParseInt vt = none) ∨ (ty = .Float ∧ lit.ParseFloat vt = none)) := by
      rcases hrej with ⟨h1, h2⟩ | ⟨h1, h2⟩
      · exact ⟨.Int, Or.inl rfl, h1, Or.inl ⟨rfl, h2⟩⟩
      · exact ⟨.Float, Or.inr (Or.inl rfl), h1, Or.inr ⟨rfl, h2⟩⟩
    obtain ⟨ty, hlit, hl, hconv⟩ := hty
    have hm : makeToken ty vt.data = some ⟨ty, vt⟩ := by
      rcases hconv with ⟨rfl, -⟩ | ⟨rfl, -⟩ <;> rfl
    have hlex := lex_colon_token first more vt ty ⟨ty, vt⟩ hfirst hmore hlit hl hm
    exact ⟨"unexpected token",
      Parse_colon_rejected_tokens lit _ first more " " ⟨ty, vt⟩ hlen hconv hlex⟩

theorem colon_disambiguation_witness :
    Parse (ParseGrammar testLiterals) ("props.k" ++ ": " ++ "\"A\"")
        = .ok ⟨[⟨"props.k", false, OpContains, [.str "A"]⟩]⟩
      ∧ Parse (ParseGrammar testLiterals) ("loginCount" ++ ": [" ++ "1" ++ ", " ++ "100" ++ "]")
        = .ok ⟨[⟨"loginCount", false, OpRange, [.int 1, .int 100]⟩]⟩ :=
  ⟨(colon_disambiguation testLiterals "props" ["k"] (by decide) (by decide) (by decide)).1
      "\"A\"" (.str "A") rfl,
    (colon_disambiguation testLiterals "loginCount" [] (by decide) (by decide) (by decide)).2.1
      "1" "100" (.int 1) (.int 100) rfl rfl⟩

/-- C31: `MapValues(values, fn)`, for a mapper that may have effects. If `fn`
succeeds on every element in order, `MapValues` returns nil and the slice
holds the results of `fn` on its old elements, in order and as many. If not,
there is a first element `v`, after the elements `pre`, on which `fn` fails,
and then `MapValues` returns the error `value #<i+1>: <the error of fn>` with
`i` the number of elements before `v`; the elements before `v` hold their
mapped values, `v` and the elements after it are unchanged, and the state is
the one the failing call left: `fn` is called on no later element. For a
mapper without effects this is the function `MapValues` of the other
theorems. -/
theorem MapValues_contract {σ : Type} (fn : MapperS σ) (s0 : σ) :
    (∀ values ws s1, mapAll fn values s0 = some (ws, s1) →
        MapValuesS values fn s0 = ((ws, none), s1) ∧ ws.length = values.length)
      ∧ (∀ pre v post ws s1 err s2, mapAll fn pre s0 = some (ws, s1) →
        fn v s1 = (.error err, s2) →
        MapValuesS (pre ++ v :: post) fn s0
          = ((ws ++ v :: post,
              some (.errorf ("value #" ++ Nat.repr (pre.length + 1) ++ ": " ++ err.text))), s2))
      ∧ (∀ values, mapAll fn values s0 = none →
        ∃ pre v post ws s1 err s2, values = pre ++ v :: post
          ∧ mapAll fn pre s0 = some (ws, s1) ∧ fn v s1 = (.error err, s2))
      ∧ (∀ (f : Mapper) (values : List Value),
        MapValues values f = (MapValuesS values f.lift ()).1)
      ∧ (∀ (f : Mapper) (g : Value → Value) (values : List Value),
        (∀ v ∈ values, f v = .ok (g v)) → MapValues values f = (values.map g, none)) := by
  refine ⟨?_, ?_, fun values => mapAll_none fn values s0, ?_, ?_⟩
  · intro values ws s1 h
    exact mapValuesFromS_ok fn values ws 0 s0 s1 h
  · intro pre v post ws s1 err s2 h hv
    have := mapValuesFromS_error fn v post err pre ws 0 s0 s1 s2 h hv
    simpa [MapValuesS] using this
  · intro f values
    exact mapValuesFrom_lift f values 0
  · intro f g values h
    exact mapValuesFrom_ok f g values 0 h

theorem MapValues_contract_witness :
    MapValuesS [.int 5, .int 0, .int 7, .int 0] countingMapper 0
      = (([.str "x", .int 0, .int 7, .int 0], some (.errorf "value #2: zero")), 2) :=
  (MapValues_contract countingMapper 0).2.1 [.int 5] (.int 0) [.int 7, .int 0] [.str "x"] 1
    (.errorf "zero") 2 rfl rfl

/-- C32: the grammar and the registry are in lock-step. Every text that the
class `Operator` of the lexer matches is a key of the registry; for every
input, each node of the expression the parser returns has an operator that
`opFromCond` finds among the nine, so `Parse` does not panic; every condition
of the filter `Parse` returns has one of the nine operators, not the zero
value, and the switch of `ApplyFilters` on it does not reach its default
branch; and without hooks `ApplyFilters` never returns the error
`condition #i: unknown operator`. -/
theorem grammar_registry_lockstep (lit : Literals) (input : String) :
    (∀ s n, matchOperator s = some n →
        (OperatorFromString (String.mk (s.take n))).2 = true)
      ∧ (∀ e, ParseGrammar lit input = .ok e →
        ∀ n ∈ e.And, ∃ op, opFromCond n = .ok op ∧ op ∈ validOperators)
      ∧ (∀ msg, Parse (ParseGrammar lit) input ≠ .panic msg)
      ∧ (∀ filter, Parse (ParseGrammar lit) input = .ok filter →
        ∀ c ∈ filter.Conditions, c.Op ∈ validOperators ∧ c.Op ≠ 0
          ∧ ∀ nt field params i err, opStage nt field params i c ≠ .fail err)
      ∧ (∀ (lib : Lib) (query : Query) (i : Nat),
        (ApplyFilters (ParseGrammar lit) lib input noHooks query).2
          ≠ .error (.errorf ("condition #" ++ Nat.repr (i + 1) ++ ": unknown operator"))) := by
  have hhead : ∀ i : Nat,
      ("condition #" ++ Nat.repr (i + 1) ++ ": unknown operator").data.head? = some 'c' := by
    intro i
    simp [String.data_append]
  refine ⟨?_, ?_, ?_, ?_, ?_⟩
  · intro s n h
    have hm := matchOperator_text s n h
    simp only [operatorTexts, List.mem_cons, List.mem_singleton, List.not_mem_nil,
      or_false] at hm
    rcases hm with h | h | h | h | h | h | h <;> rw [h] <;> decide
  · intro e he n hn
    exact opFromCond_wellShaped n (ParseGrammar_wellShaped lit input e he n hn)
  · intro msg h
    rcases Parse_cases lit input with ⟨m, hm⟩ | ⟨filter, hf, -⟩
    · rw [hm] at h
      cases h
    · rw [hf] at h
      cases h
  · intro filter h c hc
    rcases Parse_cases lit input with ⟨m, hm⟩ | ⟨filter2, hf, hall⟩
    · rw [hm] at h
      cases h
    · rw [hf] at h
      simp only [Res.ok.injEq] at h
      subst h
      have hv := hall c hc
      refine ⟨hv, ?_, fun nt field params i => opStage_valid_ne_fail nt field params i c hv⟩
      intro h0
      rw [h0] at hv
      exact absurd hv (by decide)
  · intro lib query i h
    unfold ApplyFilters at h
    rcases Parse_cases lit input with ⟨m, hm⟩ | ⟨filter, hf, hall⟩
    · rw [hm] at h
      simp only [Ret.error.injEq, Error.errorf.injEq] at h
      have := congrArg (fun s : String => s.data.head?) h
      simp only [hhead i] at this
      simp [String.data_append] at this
    · rw [hf] at h
      simp only [applyFilter] at h
      obtain ⟨m, hm, hmh⟩ := applyConditions_error_noHooks lib query.table filter.Conditions 0
        query _ hall h
      simp only [Error.errorf.injEq] at hm
      rw [← hm, hhead i] at hmh
      exact absurd hmh (by decide)

theorem grammar_registry_lockstep_witness :
    (OperatorFromString ">=").2 = true
      ∧ Parse (ParseGrammar testLiterals) "loginCount >= 1"
        ≠ .panic "invalid operator: >=" :=
  ⟨(grammar_registry_lockstep testLiterals "loginCount >= 1").1 ">=".data 2 rfl,
    (grammar_registry_lockstep testLiterals "loginCount >= 1").2.2.1 "invalid operator: >="⟩

/-- C33, at the failing inputs: `Parse` accepts `loginCount: 5` and
`isAdmin: true` and returns for each one Contains condition, whose value is the
integer 5 and the boolean `true`; with the model of the tests and a
configuration without hooks `ApplyFilters` then panics at the string type
assertion of the Contains branch, the sink left unchanged. -/
theorem contains_non_string_panics :
    Parse (ParseGrammar testLiterals) "loginCount: 5"
        = .ok ⟨[⟨"loginCount", false, OpContains, [.int 5]⟩]⟩
      ∧ ApplyFilters (ParseGrammar testLiterals) testLib "loginCount: 5" noHooks testQuery
        = (testQuery, .panic "interface conversion: not a string")
      ∧ Parse (ParseGrammar testLiterals) "isAdmin: true"
        = .ok ⟨[⟨"isAdmin", false, OpContains, [.bool true]⟩]⟩
      ∧ ApplyFilters (ParseGrammar testLiterals) testLib "isAdmin: true" noHooks testQuery
        = (testQuery, .panic "interface conversion: not a string") := by
  refine ⟨by decide, rfl, by decide, rfl⟩

end Listing

